import Mathlib

/-!
# Recursive-descent parser of `Source.cpp`

A shallow embedding of `struct TreeNode` and `class Parser`.

* The source text is a list of characters, the cursor `pos` is a natural number
  and every member function takes the cursor and returns the new one.
* `Parser::error` prints the position and the message and ends the process; here it
  is the result `Except.error (Abort.exit pos message)`.
* `input[pos]` is `charAt input pos`; at `pos = input.size()` the C++ string
  yields the null character.
* `isspace`, `isalpha`, `isdigit` are those of the C locale.
* One character of the list stands for one `char` of the source text.
* Loops and the recursion through parentheses recurse on a fuel argument; a call that
  runs out of fuel while its guard still holds returns `Abort.fuel`.  The two scanning
  loops that return a bare cursor (`skipWhitespace`, the lexeme scan) get the fuel
  `input.length - pos`, with which their guard `pos < input.size()` is false at fuel `0`.
-/

namespace Sematic

/-! ## Data model -/

/-- Parse tree node (`struct TreeNode`): `value`, `type` (empty when the node carries
no category tag) and the ordered children. -/
inductive TreeNode where
  | mk (value : String) (type : String) (children : List TreeNode)

/-- Node without children: `new TreeNode(value, type)`. -/
def leaf (value type : String) : TreeNode := TreeNode.mk value type []

mutual
/-- Decision procedure for equality of trees. -/
def TreeNode.decEq : (a b : TreeNode) → Decidable (a = b)
  | .mk v1 t1 c1, .mk v2 t2 c2 =>
    if hv : v1 = v2 then
      if ht : t1 = t2 then
        match TreeNode.decEqList c1 c2 with
        | isTrue h => isTrue (by rw [hv, ht, h])
        | isFalse h => isFalse (fun e => h (by cases e; rfl))
      else isFalse (fun e => ht (by cases e; rfl))
    else isFalse (fun e => hv (by cases e; rfl))
/-- Decision procedure for equality of lists of trees. -/
def TreeNode.decEqList : (a b : List TreeNode) → Decidable (a = b)
  | [], [] => isTrue rfl
  | [], _ :: _ => isFalse (fun e => by cases e)
  | _ :: _, [] => isFalse (fun e => by cases e)
  | a :: as, b :: bs =>
    match TreeNode.decEq a b with
    | isTrue h =>
      match TreeNode.decEqList as bs with
      | isTrue hs => isTrue (by rw [h, hs])
      | isFalse hs => isFalse (fun e => hs (by cases e; rfl))
    | isFalse h => isFalse (fun e => h (by cases e; rfl))
end

instance : DecidableEq TreeNode := TreeNode.decEq

/-- Label of a node. -/
def TreeNode.value : TreeNode → String
  | .mk v _ _ => v

/-- Category tag of a node (empty when untagged). -/
def TreeNode.type : TreeNode → String
  | .mk _ t _ => t

/-- Children of a node, in order. -/
def TreeNode.children : TreeNode → List TreeNode
  | .mk _ _ cs => cs

mutual
/-- The leaves that carry a category tag, in depth-first pre-order, each as the pair of
its label and its tag. -/
def TreeNode.leaves : TreeNode → List (String × String)
  | .mk v t cs => if cs.isEmpty ∧ t ≠ "" then [(v, t)] else TreeNode.leavesOfList cs
/-- Tagged leaves of a list of trees, left to right. -/
def TreeNode.leavesOfList : List TreeNode → List (String × String)
  | [] => []
  | c :: cs => c.leaves ++ TreeNode.leavesOfList cs
end

/-- Concatenation of the labels of the tagged leaves in pre-order. -/
def TreeNode.leafText (t : TreeNode) : List Char :=
  (t.leaves.map (fun l => l.1.data)).flatten

mutual
/-- Number of nodes of the tree whose label is `label`. -/
def TreeNode.count (label : String) : TreeNode → Nat
  | .mk v _ cs => (if v = label then 1 else 0) + TreeNode.countOfList label cs
/-- Number of nodes labelled `label` in a list of trees. -/
def TreeNode.countOfList (label : String) : List TreeNode → Nat
  | [] => 0
  | c :: cs => c.count label + TreeNode.countOfList label cs
end

/-- Ways a parse ends without a tree: `exit` is `Parser::error` (the position and the
message it prints before `exit(EXIT_FAILURE)`), `fuel` is the embedding running out of
recursion fuel. -/
inductive Abort where
  | exit (pos : Nat) (message : String)
  | fuel
  deriving DecidableEq

/-- Decision procedure for equality of parse results. -/
def decEqExcept {ε α : Type} [DecidableEq ε] [DecidableEq α] :
    (a b : Except ε α) → Decidable (a = b)
  | .ok a, .ok b =>
    if h : a = b then isTrue (by rw [h]) else isFalse (fun e => h (by cases e; rfl))
  | .error a, .error b =>
    if h : a = b then isTrue (by rw [h]) else isFalse (fun e => h (by cases e; rfl))
  | .ok _, .error _ => isFalse (fun e => by cases e)
  | .error _, .ok _ => isFalse (fun e => by cases e)

instance {ε α : Type} [DecidableEq ε] [DecidableEq α] : DecidableEq (Except ε α) :=
  decEqExcept

/-! ## Character classes and cursor primitives -/

/-- C locale `isspace`: space, `\t`, `\n`, `\v`, `\f`, `\r`. -/
def isspace (c : Char) : Bool :=
  c.toNat = 32 || (9 ≤ c.toNat && c.toNat ≤ 13)

/-- C locale `isalpha`: `A`..`Z` and `a`..`z`. -/
def isalpha (c : Char) : Bool :=
  (65 ≤ c.toNat && c.toNat ≤ 90) || (97 ≤ c.toNat && c.toNat ≤ 122)

/-- C locale `isdigit`: `0`..`9`. -/
def isdigit (c : Char) : Bool :=
  48 ≤ c.toNat && c.toNat ≤ 57

/-- The character `input[pos]`; the null character at the end of the text. -/
def charAt (input : List Char) (pos : Nat) : Char :=
  input.getD pos (Char.ofNat 0)

/-- The text `input.substr(pos, n)`. -/
def substr (input : List Char) (pos n : Nat) : List Char :=
  (input.drop pos).take n

/-- Loop of `Parser::skipWhitespace`. -/
def skipWhitespaceLoop (input : List Char) : Nat → Nat → Nat
  | 0, pos => pos
  | fuel + 1, pos =>
    if pos < input.length ∧ isspace (charAt input pos) = true then
      skipWhitespaceLoop input fuel (pos + 1)
    else pos

/-- Embedding of `Parser::skipWhitespace`: the new cursor. -/
def skipWhitespace (input : List Char) (pos : Nat) : Nat :=
  skipWhitespaceLoop input (input.length - pos) pos

/-- Embedding of `Parser::match` (named `matchToken`, `match` being a keyword). -/
def matchToken (input : List Char) (pos : Nat) (token : String) : Except Abort Nat :=
  let pos := skipWhitespace input pos
  if substr input pos token.length = token.data then
    .ok (pos + token.length)
  else
    .error (.exit pos ("Expected \x27" ++ token ++ "\x27"))

/-- Guard of the scanning loop shared by `parseId` and `parseNumber`: the character
stops a lexeme. -/
def isDelimiter (c : Char) : Bool :=
  isspace c || c = ';' || c = ',' || c = ':' || c = '+' || c = '-' || c = '=' ||
    c = '(' || c = ')'

/-- The scanning loop of `parseId` and of `parseNumber` (the two are the same loop). -/
def scanLexemeLoop (input : List Char) : Nat → Nat → Nat
  | 0, pos => pos
  | fuel + 1, pos =>
    if pos < input.length ∧ isDelimiter (charAt input pos) = false then
      scanLexemeLoop input fuel (pos + 1)
    else pos

/-- End of the lexeme that starts at `pos`. -/
def scanLexeme (input : List Char) (pos : Nat) : Nat :=
  scanLexemeLoop input (input.length - pos) pos

/-- Embedding of `Parser::parseId`: the lexeme and the new cursor. -/
def parseId (input : List Char) (pos : Nat) : Except Abort (List Char × Nat) :=
  let start := skipWhitespace input pos
  let pos := scanLexeme input start
  let lexeme := substr input start (pos - start)
  if lexeme.all isalpha then
    .ok (lexeme, pos)
  else
    .error (.exit pos
      ("Invalid identifier: \x27" ++ String.mk lexeme ++ "\x27 must consist of letters only"))

/-- Embedding of `Parser::parseNumber`: the lexeme and the new cursor. -/
def parseNumber (input : List Char) (pos : Nat) : Except Abort (List Char × Nat) :=
  let start := skipWhitespace input pos
  let pos := scanLexeme input start
  let lexeme := substr input start (pos - start)
  if lexeme.all isdigit then
    .ok (lexeme, pos)
  else
    .error (.exit pos
      ("Invalid number: \x27" ++ String.mk lexeme ++ "\x27 contains invalid characters"))

/-- The `while` loop of `Parser::parseStringConst`, with `result` accumulated. -/
def stringConstLoop (input : List Char) : Nat → Nat → List Char → Except Abort (List Char × Nat)
  | 0, pos, result =>
    if pos < input.length ∧ charAt input pos ≠ '"' then .error .fuel else .ok (result, pos)
  | fuel + 1, pos, result =>
    if pos < input.length ∧ charAt input pos ≠ '"' then
      if isdigit (charAt input pos) || isalpha (charAt input pos) then
        stringConstLoop input fuel (pos + 1) (result ++ [charAt input pos])
      else
        .error (.exit pos
          ("Invalid character \x27" ++ String.singleton (charAt input pos) ++
            "\x27 in string constant"))
    else .ok (result, pos)

/-- Embedding of `Parser::parseStringConst`: the text between the quotes and the new
cursor. -/
def parseStringConst (input : List Char) (pos : Nat) : Except Abort (List Char × Nat) :=
  let pos := skipWhitespace input pos
  if pos < input.length ∧ charAt input pos = '"' then
    match stringConstLoop input (input.length - (pos + 1)) (pos + 1) [] with
    | .error e => .error e
    | .ok (result, pos) =>
      if pos < input.length ∧ charAt input pos = '"' then
        .ok (result, pos + 1)
      else
        .error (.exit pos "Unterminated string constant")
  else
    .error (.exit pos "Expected string constant")

/-! ## Grammar functions -/

/-- Loop of `Parser::parseVarList`: the children it appends and the new cursor. -/
def parseVarListLoop (input : List Char) : Nat → Nat → Except Abort (List TreeNode × Nat)
  | 0, pos =>
    if pos < input.length ∧ charAt input pos = ',' then .error .fuel else .ok ([], pos)
  | fuel + 1, pos =>
    if pos < input.length ∧ charAt input pos = ',' then
      match matchToken input pos "," with
      | .error e => .error e
      | .ok pos =>
        match parseId input pos with
        | .error e => .error e
        | .ok (id, pos) =>
          match parseVarListLoop input fuel pos with
          | .error e => .error e
          | .ok (rest, pos) =>
            .ok (leaf "," "Symbols_of_Separating" :: leaf (String.mk id) "Id" :: rest, pos)
    else .ok ([], pos)

/-- Embedding of `Parser::parseVarList`. -/
def parseVarList (input : List Char) (pos : Nat) : Except Abort (TreeNode × Nat) :=
  match parseId input pos with
  | .error e => .error e
  | .ok (id, pos) =>
    let pos := skipWhitespace input pos
    match parseVarListLoop input (input.length - pos) pos with
    | .error e => .error e
    | .ok (rest, pos) => .ok (.mk "VarList" "" (leaf (String.mk id) "Id" :: rest), pos)

/-- Embedding of `Parser::parseType`: the type name and the new cursor. -/
def parseType (input : List Char) (pos : Nat) : Except Abort (String × Nat) :=
  let pos := skipWhitespace input pos
  if substr input pos 7 = "integer".data then
    match matchToken input pos "integer" with
    | .error e => .error e
    | .ok pos => .ok ("integer", pos)
  else if substr input pos 4 = "char".data then
    match matchToken input pos "char" with
    | .error e => .error e
    | .ok pos => .ok ("char", pos)
  else
    .error (.exit pos "Expected type \x27integer\x27 or \x27char\x27")

/-- Embedding of `Parser::parseDescr`. -/
def parseDescr (input : List Char) (pos : Nat) : Except Abort (TreeNode × Nat) :=
  match parseVarList input pos with
  | .error e => .error e
  | .ok (vars, pos) =>
    let pos := skipWhitespace input pos
    if charAt input pos = ':' then
      match matchToken input pos ":" with
      | .error e => .error e
      | .ok pos =>
        match parseType input pos with
        | .error e => .error e
        | .ok (ty, pos) =>
          match matchToken input pos ";" with
          | .error e => .error e
          | .ok pos =>
            .ok (.mk "Descr" "" [vars, leaf ":" "Symbols_of_Separating", leaf ty "WordsKey",
              leaf ";" "Symbols_of_Separating"], pos)
    else
      .error (.exit pos "Expected \x27:\x27 after variable declaration")

/-- Loop of `Parser::parseDescrList`: the children it appends and the new cursor. -/
def parseDescrListLoop (input : List Char) : Nat → Nat → Except Abort (List TreeNode × Nat)
  | 0, pos =>
    if pos < input.length ∧ substr input pos 3 = "var".data then .error .fuel
    else .ok ([], pos)
  | fuel + 1, pos =>
    if pos < input.length ∧ substr input pos 3 = "var".data then
      match matchToken input pos "var" with
      | .error e => .error e
      | .ok pos =>
        match parseDescr input pos with
        | .error e => .error e
        | .ok (d, pos) =>
          match parseDescrListLoop input fuel pos with
          | .error e => .error e
          | .ok (rest, pos) => .ok (leaf "var" "WordsKey" :: d :: rest, pos)
    else .ok ([], pos)

/-- Embedding of `Parser::parseDescrList`. -/
def parseDescrList (input : List Char) (pos : Nat) : Except Abort (TreeNode × Nat) :=
  match parseDescr input pos with
  | .error e => .error e
  | .ok (d, pos) =>
    let pos := skipWhitespace input pos
    match parseDescrListLoop input (input.length - pos) pos with
    | .error e => .error e
    | .ok (rest, pos) => .ok (.mk "DescrList" "" (d :: rest), pos)

/-- Embedding of `Parser::parseDescriptions`. -/
def parseDescriptions (input : List Char) (pos : Nat) : Except Abort (TreeNode × Nat) :=
  let pos := skipWhitespace input pos
  if substr input pos 3 = "var".data then
    match matchToken input pos "var" with
    | .error e => .error e
    | .ok pos =>
      match parseDescrList input pos with
      | .error e => .error e
      | .ok (l, pos) => .ok (.mk "Descriptions" "" [leaf "var" "WordsKey", l], pos)
  else
    .ok (.mk "Descriptions" "" [], pos)

mutual
/-- Embedding of `Parser::parseNumExpr`. -/
def parseNumExpr (input : List Char) : Nat → Nat → Except Abort (TreeNode × Nat)
  | 0, _ => .error .fuel
  | fuel + 1, pos =>
    match parseSimpleNumExpr input fuel pos with
    | .error e => .error e
    | .ok (s, pos) =>
      let pos := skipWhitespace input pos
      match parseNumExprLoop input fuel pos with
      | .error e => .error e
      | .ok (rest, pos) => .ok (.mk "Expr" "" (s :: rest), pos)
/-- Loop of `Parser::parseNumExpr`: the children it appends and the new cursor. -/
def parseNumExprLoop (input : List Char) : Nat → Nat → Except Abort (List TreeNode × Nat)
  | 0, pos =>
    if pos < input.length ∧ (charAt input pos = '+' ∨ charAt input pos = '-') then
      .error .fuel
    else .ok ([], pos)
  | fuel + 1, pos =>
    if pos < input.length ∧ (charAt input pos = '+' ∨ charAt input pos = '-') then
      match parseSimpleNumExpr input fuel (pos + 1) with
      | .error e => .error e
      | .ok (s, pos1) =>
        match parseNumExprLoop input fuel pos1 with
        | .error e => .error e
        | .ok (rest, pos2) =>
          .ok (leaf (String.singleton (charAt input pos)) "Symbols_of_Operation" :: s :: rest,
            pos2)
    else .ok ([], pos)
/-- Embedding of `Parser::parseSimpleNumExpr`. -/
def parseSimpleNumExpr (input : List Char) : Nat → Nat → Except Abort (TreeNode × Nat)
  | 0, _ => .error .fuel
  | fuel + 1, pos =>
    let pos := skipWhitespace input pos
    if isalpha (charAt input pos) then
      match parseId input pos with
      | .error e => .error e
      | .ok (id, pos) => .ok (.mk "SimpleExpr" "" [leaf (String.mk id) "Id"], pos)
    else if isdigit (charAt input pos) then
      match parseNumber input pos with
      | .error e => .error e
      | .ok (n, pos) => .ok (.mk "SimpleExpr" "" [leaf (String.mk n) "Const"], pos)
    else if charAt input pos = '(' then
      match matchToken input pos "(" with
      | .error e => .error e
      | .ok pos =>
        match parseNumExpr input fuel pos with
        | .error e => .error e
        | .ok (e, pos) =>
          match matchToken input pos ")" with
          | .error e => .error e
          | .ok pos =>
            .ok (.mk "SimpleExpr" "" [leaf "(" "Symbols_of_Separating", e,
              leaf ")" "Symbols_of_Separating"], pos)
    else
      .error (.exit pos "Expected simple numerical expression")
end

/-- The three-way branch that `Parser::parseOp` runs for each operand (lines 297-305 and
313-321 of the source are the same branch): a string constant, a number, or a numeric
expression. -/
def parseOperand (input : List Char) (pos : Nat) : Except Abort (TreeNode × Nat) :=
  if charAt input pos = '"' then
    match parseStringConst input pos with
    | .error e => .error e
    | .ok (s, pos) => .ok (leaf (String.mk s) "Const", pos)
  else if isdigit (charAt input pos) then
    match parseNumber input pos with
    | .error e => .error e
    | .ok (n, pos) => .ok (leaf (String.mk n) "Const", pos)
  else
    parseNumExpr input (2 * (input.length - pos) + 2) pos

/-- Embedding of `Parser::parseOp`. -/
def parseOp (input : List Char) (pos : Nat) : Except Abort (TreeNode × Nat) :=
  match parseId input pos with
  | .error e => .error e
  | .ok (id, pos) =>
    match matchToken input pos ":=" with
    | .error e => .error e
    | .ok pos =>
      match parseOperand input (skipWhitespace input pos) with
      | .error e => .error e
      | .ok (v, pos) =>
        let pos := skipWhitespace input pos
        if pos < input.length ∧ (charAt input pos = '+' ∨ charAt input pos = '-') then
          match parseOperand input (skipWhitespace input (pos + 1)) with
          | .error e => .error e
          | .ok (w, pos1) =>
            match matchToken input pos1 ";" with
            | .error e => .error e
            | .ok pos2 =>
              .ok (.mk "Op" "" [leaf (String.mk id) "Id", leaf ":=" "Symbols_of_Operation", v,
                leaf (String.singleton (charAt input pos)) "Symbols_of_Operation", w,
                leaf ";" "Symbols_of_Separating"], pos2)
        else
          match matchToken input pos ";" with
          | .error e => .error e
          | .ok pos =>
            .ok (.mk "Op" "" [leaf (String.mk id) "Id", leaf ":=" "Symbols_of_Operation", v,
              leaf ";" "Symbols_of_Separating"], pos)

/-- The `do ... while` loop of `Parser::parseOperators`: the body runs, then the guard
decides on another round. -/
def parseOperatorsLoop (input : List Char) : Nat → Nat → Except Abort (List TreeNode × Nat)
  | 0, _ => .error .fuel
  | fuel + 1, pos =>
    match parseOp input pos with
    | .error e => .error e
    | .ok (op, pos) =>
      let pos := skipWhitespace input pos
      if pos < input.length ∧ substr input pos 3 ≠ "end".data then
        match parseOperatorsLoop input fuel pos with
        | .error e => .error e
        | .ok (rest, pos) => .ok (op :: rest, pos)
      else .ok ([op], pos)

/-- Embedding of `Parser::parseOperators`. -/
def parseOperators (input : List Char) (pos : Nat) : Except Abort (TreeNode × Nat) :=
  match parseOperatorsLoop input (input.length - pos + 1) pos with
  | .error e => .error e
  | .ok (ops, pos) => .ok (.mk "Operators" "" ops, pos)

/-- Embedding of `Parser::parseProcedure`. -/
def parseProcedure (input : List Char) (pos : Nat) : Except Abort (TreeNode × Nat) :=
  match matchToken input pos "procedure" with
  | .error e => .error e
  | .ok pos =>
    match parseId input pos with
    | .error e => .error e
    | .ok (id, pos) =>
      match matchToken input pos ";" with
      | .error e => .error e
      | .ok pos =>
        match matchToken input pos "begin" with
        | .error e => .error e
        | .ok pos =>
          match parseDescriptions input pos with
          | .error e => .error e
          | .ok (descriptions, pos) =>
            match parseOperators input pos with
            | .error e => .error e
            | .ok (operators, pos) =>
              match matchToken input pos "end" with
              | .error e => .error e
              | .ok pos =>
                .ok (.mk "Program" "Program" [leaf "procedure" "WordsKey",
                  leaf (String.mk id) "Id", leaf "begin" "WordsKey", descriptions, operators,
                  leaf "end" "WordsKey"], pos)

/-- Embedding of `Parser::parse` on a fresh parser (`pos = 0`): the tree left in `root`
when `parse` returns, or the abort. -/
def parse (input : List Char) : Except Abort TreeNode :=
  match parseProcedure input 0 with
  | .error e => .error e
  | .ok (root, pos) =>
    if pos < input.length then .error (.exit pos "Unexpected input at the end")
    else .ok root

/-! ## Notions of the specification and the programs of the claims -/

/-- The whitespace that `skipWhitespace` passes when started at `pos`. -/
def skippedWhitespace (input : List Char) (pos : Nat) : List Char :=
  (input.drop pos).takeWhile isspace

/-- The maximal run of non-delimiter characters that follows the whitespace at `pos`:
the lexeme in the words of the specification. -/
def maximalRun (input : List Char) (pos : Nat) : List Char :=
  ((input.drop pos).dropWhile isspace).takeWhile (fun c => !isDelimiter c)

/-- The node `parseDescr` builds for a declaration of one variable: `name:type;`. -/
def descrNode (name type : String) : TreeNode :=
  .mk "Descr" "" [.mk "VarList" "" [leaf name "Id"], leaf ":" "Symbols_of_Separating",
    leaf type "WordsKey", leaf ";" "Symbols_of_Separating"]

/-- The node `parseOp` builds for `target:=value;` with a constant on the right. -/
def assignNode (target value : String) : TreeNode :=
  .mk "Op" "" [leaf target "Id", leaf ":=" "Symbols_of_Operation", leaf value "Const",
    leaf ";" "Symbols_of_Separating"]

/-- The root `parseProcedure` builds, given the children of its `Descriptions` node and
of its `Operators` node. -/
def programNode (name : String) (descriptions operators : List TreeNode) : TreeNode :=
  .mk "Program" "Program" [leaf "procedure" "WordsKey", leaf name "Id",
    leaf "begin" "WordsKey", .mk "Descriptions" "" descriptions,
    .mk "Operators" "" operators, leaf "end" "WordsKey"]

/-- The `Descriptions` node of the program with the declarations `var x:integer;` and
`var y:char;`. -/
def twoDeclarationsNode : TreeNode :=
  .mk "Descriptions" "" [leaf "var" "WordsKey", .mk "DescrList" ""
    [descrNode "x" "integer", leaf "var" "WordsKey", descrNode "y" "char"]]

/-- The program of claim C4: `k` declarations `var x:integer; ` between
`procedure p; begin ` and `x:=1; end`. -/
def declarationsProgram (k : Nat) : List Char :=
  "procedure p; begin ".toList ++ (List.replicate k "var x:integer; ".toList).flatten ++
    "x:=1; end".toList

/-- The program of claim C5: `x:=a`, then `n - 1` times the text `plus` and the operand
`a`, between `procedure p; begin ` and `; end`. -/
def sumProgram (plus : String) (n : Nat) : List Char :=
  "procedure p; begin x:=a".toList ++ (List.replicate (n - 1) (plus.toList ++ ['a'])).flatten ++
    "; end".toList

/-- The keywords of the language. -/
def keywords : List String := ["procedure", "begin", "var", "integer", "char", "end"]

/-- The program of claim C7: `procedure p; begin x:=1; id:=2; end`. -/
def twoAssignmentsProgram (id : List Char) : List Char :=
  "procedure p; begin x:=1; ".toList ++ id ++ ":=2; end".toList

/-- The program of claim C8: `procedure p; begin id:=1; end`. -/
def oneAssignmentProgram (id : List Char) : List Char :=
  "procedure p; begin ".toList ++ id ++ ":=1; end".toList

/-- The program of claim C10: `procedure p; begin x:=` m o n `; end`. -/
def binaryProgram (m : List Char) (o : Char) (n : List Char) : List Char :=
  "procedure p; begin x:=".toList ++ m ++ o :: n ++ "; end".toList

/-- Concatenation of the labels of the tagged leaves of a list of trees. -/
def leafTextOfList (ts : List TreeNode) : List Char :=
  ((TreeNode.leavesOfList ts).map (fun l => l.1.data)).flatten

/-- A character that is neither whitespace nor a double quote. -/
def isTokenChar (c : Char) : Bool :=
  !isspace c && c != '"'

/-- The input with the whitespace and the double quotes removed. -/
def stripped (input : List Char) : List Char :=
  input.filter isTokenChar

/-- Between the cursors `pos` and `pos1` the text holds, whitespace and double quotes
apart, exactly `text`; the cursor does not move back. -/
def Consumes (input : List Char) (pos pos1 : Nat) (text : List Char) : Prop :=
  pos ≤ pos1 ∧ (substr input pos (pos1 - pos)).filter isTokenChar = text

/-- The position an abort reports, when it reports one. -/
def Abort.position : Abort → Option Nat
  | .exit pos _ => some pos
  | .fuel => none

/-- The position at which a call returned or reported its error. -/
def endPos {α : Type} : Except Abort (α × Nat) → Option Nat
  | .ok (_, pos) => some pos
  | .error e => e.position

/-- The position at which `matchToken` returned or reported its error. -/
def endPosOfCursor : Except Abort Nat → Option Nat
  | .ok pos => some pos
  | .error e => e.position

/-- The position `r`, when there is one, is not before `pos` and not after the end of
the input. -/
def InRange (input : List Char) (pos : Nat) (r : Option Nat) : Prop :=
  ∀ p, r = some p → pos ≤ p ∧ p ≤ input.length

mutual
/-- The predicate `p` holds at every node of the tree. -/
def TreeNode.all (p : TreeNode → Bool) : TreeNode → Bool
  | .mk v t cs => p (.mk v t cs) && TreeNode.allOfList p cs
/-- The predicate `p` holds at every node of every tree of the list. -/
def TreeNode.allOfList (p : TreeNode → Bool) : List TreeNode → Bool
  | [] => true
  | c :: cs => c.all p && TreeNode.allOfList p cs
end

/-- The category tags of the specification; the empty tag stands for an untagged node. -/
def categories : List String :=
  ["Program", "WordsKey", "Id", "Const", "Symbols_of_Separating", "Symbols_of_Operation", ""]

/-- The category tags of the nodes below the root that carry a tag. -/
def leafCategories : List String :=
  ["WordsKey", "Id", "Const", "Symbols_of_Separating", "Symbols_of_Operation"]

/-- The names of the nonterminals that label the untagged nodes. -/
def nonterminals : List String :=
  ["Descriptions", "DescrList", "Descr", "VarList", "Operators", "Op", "Expr", "SimpleExpr"]

/-- The category of the node is one of `categories`. -/
def hasCategory (n : TreeNode) : Bool :=
  categories.contains n.type

/-- An untagged node is labelled with the name of a nonterminal. -/
def untaggedIsNonterminal (n : TreeNode) : Bool :=
  n.type != "" || nonterminals.contains n.value

/-- The node is not tagged `Program`. -/
def notProgram (n : TreeNode) : Bool :=
  n.type != "Program"

/-- A tagged node has no children. -/
def taggedIsLeaf (n : TreeNode) : Bool :=
  n.type == "" || n.children.isEmpty

/-- The label of a node tagged `Id` consists of letters only. -/
def idIsLetters (n : TreeNode) : Bool :=
  n.type != "Id" || n.value.data.all isalpha

/-- The label of a node tagged `Const` consists of letters and digits only. -/
def constIsAlnum (n : TreeNode) : Bool :=
  n.type != "Const" || n.value.data.all (fun c => isalpha c || isdigit c)

/-- What holds of every node the grammar functions build below the root: it is untagged
and labelled with a nonterminal, or tagged with a leaf category and without children;
an `Id` label is letters, a `Const` label is letters and digits. -/
def isGrammarNode (n : TreeNode) : Bool :=
  ((n.type == "" && nonterminals.contains n.value) ||
      (leafCategories.contains n.type && n.children.isEmpty)) &&
    idIsLetters n && constIsAlnum n

/-- The text of a sum of numbers: the number `first`, then every operator of `rest`
followed by its number. -/
def numberSum (first : List Char) (rest : List (Char × List Char)) : List Char :=
  first ++ (rest.map (fun p => p.1 :: p.2)).flatten

/-- The program of claim C16: `procedure p; begin x:=`, a sum of numbers, `; end`. -/
def sumAssignmentProgram (first : List Char) (rest : List (Char × List Char)) : List Char :=
  "procedure p; begin x:=".toList ++ numberSum first rest ++ "; end".toList

/-! ## The cursor seen through the remaining text -/

theorem take_length_takeWhile (p : Char → Bool) (l : List Char) :
    l.take (l.takeWhile p).length = l.takeWhile p := by
  induction l with
  | nil => rfl
  | cons a l ih =>
    by_cases h : p a = true
    · simp [List.takeWhile_cons, h, ih]
    · simp [List.takeWhile_cons, h]

theorem drop_length_takeWhile (p : Char → Bool) (l : List Char) :
    l.drop (l.takeWhile p).length = l.dropWhile p := by
  induction l with
  | nil => rfl
  | cons a l ih =>
    by_cases h : p a = true
    · simp [List.takeWhile_cons, List.dropWhile_cons, h, ih]
    · simp [List.takeWhile_cons, List.dropWhile_cons, h]

theorem charAt_eq_headD (input : List Char) (pos : Nat) :
    charAt input pos = (input.drop pos).headD (Char.ofNat 0) := by
  unfold charAt
  induction input generalizing pos with
  | nil => simp
  | cons a l _ =>
    cases pos with
    | zero => simp
    | succ n => simp

theorem charAt_of_drop {input : List Char} {pos : Nat} {c : Char} {rest : List Char}
    (h : input.drop pos = c :: rest) : charAt input pos = c := by
  rw [charAt_eq_headD, h]; rfl

theorem lt_length_of_drop {input : List Char} {pos : Nat} {c : Char} {rest : List Char}
    (h : input.drop pos = c :: rest) : pos < input.length := by
  by_contra hn
  rw [List.drop_of_length_le (Nat.le_of_not_lt hn)] at h
  cases h

theorem drop_eq_charAt_cons {input : List Char} {pos : Nat} (h : pos < input.length) :
    input.drop pos = charAt input pos :: input.drop (pos + 1) := by
  rw [List.drop_eq_getElem_cons h]
  congr 1
  unfold charAt
  rw [List.getD_eq_getElem _ _ h]

theorem drop_add_of_drop {input : List Char} {pos : Nat} {a rest : List Char}
    (h : input.drop pos = a ++ rest) : input.drop (pos + a.length) = rest := by
  rw [← List.drop_drop, h]
  simp

theorem substr_of_drop {input : List Char} {pos : Nat} {a rest : List Char}
    (h : input.drop pos = a ++ rest) : substr input pos a.length = a := by
  unfold substr
  rw [h]
  simp

theorem skipWhitespaceLoop_eq (input : List Char) : ∀ fuel pos, input.length - pos ≤ fuel →
    skipWhitespaceLoop input fuel pos = pos + ((input.drop pos).takeWhile isspace).length := by
  intro fuel
  induction fuel with
  | zero =>
    intro pos h
    have hle : input.length ≤ pos := by omega
    simp [skipWhitespaceLoop, List.drop_of_length_le hle]
  | succ fuel ih =>
    intro pos h
    unfold skipWhitespaceLoop
    by_cases hlt : pos < input.length
    · rw [drop_eq_charAt_cons hlt]
      by_cases hs : isspace (charAt input pos) = true
      · rw [if_pos ⟨hlt, hs⟩, ih (pos + 1) (by omega), List.takeWhile_cons, if_pos hs]
        simp only [List.length_cons]
        omega
      · rw [if_neg (fun hc => hs hc.2), List.takeWhile_cons, if_neg hs]
        rfl
    · rw [if_neg (fun hc => hlt hc.1), List.drop_of_length_le (Nat.le_of_not_lt hlt)]
      rfl

theorem skipWhitespace_eq (input : List Char) (pos : Nat) :
    skipWhitespace input pos = pos + ((input.drop pos).takeWhile isspace).length :=
  skipWhitespaceLoop_eq input _ pos (Nat.le_refl _)

theorem scanLexemeLoop_eq (input : List Char) : ∀ fuel pos, input.length - pos ≤ fuel →
    scanLexemeLoop input fuel pos =
      pos + ((input.drop pos).takeWhile (fun c => !isDelimiter c)).length := by
  intro fuel
  induction fuel with
  | zero =>
    intro pos h
    have hle : input.length ≤ pos := by omega
    simp [scanLexemeLoop, List.drop_of_length_le hle]
  | succ fuel ih =>
    intro pos h
    unfold scanLexemeLoop
    by_cases hlt : pos < input.length
    · rw [drop_eq_charAt_cons hlt]
      by_cases hs : isDelimiter (charAt input pos) = false
      · rw [if_pos ⟨hlt, hs⟩, ih (pos + 1) (by omega), List.takeWhile_cons, hs]
        simp only [Bool.not_false, if_true, List.length_cons]
        omega
      · rw [if_neg (fun hc => hs hc.2), List.takeWhile_cons]
        simp only [Bool.not_eq_false] at hs
        simp [hs]
    · rw [if_neg (fun hc => hlt hc.1), List.drop_of_length_le (Nat.le_of_not_lt hlt)]
      rfl

theorem scanLexeme_eq (input : List Char) (pos : Nat) :
    scanLexeme input pos = pos + ((input.drop pos).takeWhile (fun c => !isDelimiter c)).length :=
  scanLexemeLoop_eq input _ pos (Nat.le_refl _)

theorem substr_scanLexeme (input : List Char) (pos : Nat) :
    substr input pos (scanLexeme input pos - pos) =
      (input.drop pos).takeWhile (fun c => !isDelimiter c) := by
  rw [scanLexeme_eq, Nat.add_sub_cancel_left]
  exact take_length_takeWhile _ _

theorem drop_skipWhitespace (input : List Char) (pos : Nat) :
    input.drop (skipWhitespace input pos) = (input.drop pos).dropWhile isspace := by
  rw [skipWhitespace_eq, ← List.drop_drop, drop_length_takeWhile]

theorem le_skipWhitespace (input : List Char) (pos : Nat) : pos ≤ skipWhitespace input pos := by
  rw [skipWhitespace_eq]; omega

theorem isalpha_of_isdigit_false {c : Char} (h : isdigit c = true) : isalpha c = false := by
  simp only [isdigit, isalpha, Bool.and_eq_true, Bool.or_eq_false_iff, Bool.and_eq_false_iff,
    decide_eq_true_eq, decide_eq_false_iff_not] at *
  omega

theorem parseId_eq (input : List Char) (pos : Nat) :
    parseId input pos =
      if (maximalRun input pos).all isalpha = true then
        .ok (maximalRun input pos, skipWhitespace input pos + (maximalRun input pos).length)
      else
        .error (.exit (skipWhitespace input pos + (maximalRun input pos).length)
          ("Invalid identifier: \x27" ++ String.mk (maximalRun input pos) ++
            "\x27 must consist of letters only")) := by
  unfold parseId maximalRun
  simp only [substr_scanLexeme]
  simp only [scanLexeme_eq, drop_skipWhitespace]

theorem parseNumber_eq (input : List Char) (pos : Nat) :
    parseNumber input pos =
      if (maximalRun input pos).all isdigit = true then
        .ok (maximalRun input pos, skipWhitespace input pos + (maximalRun input pos).length)
      else
        .error (.exit (skipWhitespace input pos + (maximalRun input pos).length)
          ("Invalid number: \x27" ++ String.mk (maximalRun input pos) ++
            "\x27 contains invalid characters")) := by
  unfold parseNumber maximalRun
  simp only [substr_scanLexeme]
  simp only [scanLexeme_eq, drop_skipWhitespace]

theorem parseId_ok {input : List Char} {pos pos1 : Nat} {lexeme : List Char}
    (h : parseId input pos = .ok (lexeme, pos1)) :
    lexeme.all isalpha = true ∧ lexeme = maximalRun input pos ∧
      pos1 = skipWhitespace input pos + lexeme.length ∧
      lexeme = substr input (skipWhitespace input pos) lexeme.length := by
  rw [parseId_eq] at h
  split at h
  · rename_i hall
    injection h with h
    injection h with h1 h2
    subst h1 h2
    refine ⟨hall, rfl, rfl, ?_⟩
    unfold substr maximalRun
    rw [drop_skipWhitespace, take_length_takeWhile]
  · cases h

theorem parseNumber_ok {input : List Char} {pos pos1 : Nat} {lexeme : List Char}
    (h : parseNumber input pos = .ok (lexeme, pos1)) :
    lexeme.all isdigit = true ∧ lexeme = maximalRun input pos ∧
      pos1 = skipWhitespace input pos + lexeme.length ∧
      lexeme = substr input (skipWhitespace input pos) lexeme.length := by
  rw [parseNumber_eq] at h
  split at h
  · rename_i hall
    injection h with h
    injection h with h1 h2
    subst h1 h2
    refine ⟨hall, rfl, rfl, ?_⟩
    unfold substr maximalRun
    rw [drop_skipWhitespace, take_length_takeWhile]
  · cases h

/-! ## Running the scanner on a text of known shape -/

theorem takeWhile_append_stop (p : Char → Bool) (a rest : List Char)
    (ha : ∀ c ∈ a, p c = true) (hr : ∀ c ∈ rest.head?, p c = false) :
    (a ++ rest).takeWhile p = a := by
  induction a with
  | nil =>
    cases rest with
    | nil => rfl
    | cons b rest => simp [List.takeWhile_cons, hr b (by simp)]
  | cons b a ih =>
    have hb : p b = true := ha b (by simp)
    have := ih (fun c hc => ha c (by simp [hc]))
    simp [List.takeWhile_cons, hb, this]

theorem dropWhile_append_stop (p : Char → Bool) (a rest : List Char)
    (ha : ∀ c ∈ a, p c = true) (hr : ∀ c ∈ rest.head?, p c = false) :
    (a ++ rest).dropWhile p = rest := by
  induction a with
  | nil =>
    cases rest with
    | nil => rfl
    | cons b rest => simp [List.dropWhile_cons, hr b (by simp)]
  | cons b a ih =>
    have hb : p b = true := ha b (by simp)
    have := ih (fun c hc => ha c (by simp [hc]))
    simp [List.dropWhile_cons, hb, this]

theorem isDelimiter_not_alnum {c : Char} (h : isDelimiter c = true) :
    isalpha c = false ∧ isdigit c = false := by
  unfold isDelimiter at h
  simp only [Bool.or_eq_true, decide_eq_true_eq] at h
  rcases h with (((((((h | h) | h) | h) | h) | h) | h) | h) | h
  · simp only [isspace, isdigit, isalpha, Bool.and_eq_true, Bool.or_eq_true,
      Bool.or_eq_false_iff, Bool.and_eq_false_iff, decide_eq_true_eq,
      decide_eq_false_iff_not] at *
    omega
  all_goals (subst h; exact ⟨by decide, by decide⟩)

theorem isDelimiter_of_isspace {c : Char} (h : isspace c = true) : isDelimiter c = true := by
  simp [isDelimiter, h]

theorem isDelimiter_false_of_isalpha {c : Char} (h : isalpha c = true) :
    isDelimiter c = false := by
  cases hd : isDelimiter c with
  | false => rfl
  | true => rw [(isDelimiter_not_alnum hd).1] at h; cases h

theorem isDelimiter_false_of_isdigit {c : Char} (h : isdigit c = true) :
    isDelimiter c = false := by
  cases hd : isDelimiter c with
  | false => rfl
  | true => rw [(isDelimiter_not_alnum hd).2] at h; cases h

theorem isspace_false_of_not_delimiter {c : Char} (h : isDelimiter c = false) :
    isspace c = false := by
  cases hs : isspace c with
  | false => rfl
  | true => rw [isDelimiter_of_isspace hs] at h; cases h

theorem skipWhitespace_fwd {input : List Char} {pos : Nat} (ws rest : List Char)
    (h : input.drop pos = ws ++ rest) (hws : ∀ c ∈ ws, isspace c = true)
    (hr : ∀ c ∈ rest.head?, isspace c = false) :
    skipWhitespace input pos = pos + ws.length ∧ input.drop (pos + ws.length) = rest := by
  refine ⟨?_, drop_add_of_drop h⟩
  rw [skipWhitespace_eq, h, takeWhile_append_stop isspace ws rest hws hr]

theorem matchToken_fwd {input : List Char} {pos : Nat} (ws : List Char) (token : String)
    (rest : List Char) (h : input.drop pos = ws ++ (token.data ++ rest))
    (hws : ∀ c ∈ ws, isspace c = true)
    (ht : ∀ c ∈ (token.data ++ rest).head?, isspace c = false) :
    ∃ pos1, matchToken input pos token = .ok pos1 ∧ input.drop pos1 = rest := by
  obtain ⟨e, hd⟩ := skipWhitespace_fwd ws _ h hws ht
  refine ⟨pos + ws.length + token.length, ?_, ?_⟩
  · unfold matchToken
    simp only [e]
    have : substr input (pos + ws.length) token.length = token.data := substr_of_drop hd
    rw [if_pos this]
  · exact drop_add_of_drop hd

theorem maximalRun_fwd {input : List Char} {pos : Nat} (ws lexeme rest : List Char)
    (h : input.drop pos = ws ++ (lexeme ++ rest)) (hws : ∀ c ∈ ws, isspace c = true)
    (hl : ∀ c ∈ lexeme, isDelimiter c = false) (hne : lexeme ≠ [])
    (hr : ∀ c ∈ rest.head?, isDelimiter c = true) :
    maximalRun input pos = lexeme ∧
      skipWhitespace input pos + lexeme.length = pos + ws.length + lexeme.length ∧
      input.drop (pos + ws.length + lexeme.length) = rest := by
  have hhead : ∀ c ∈ (lexeme ++ rest).head?, isspace c = false := by
    intro c hc
    cases lexeme with
    | nil => exact absurd rfl hne
    | cons a l =>
      simp only [List.cons_append, List.head?_cons, Option.mem_def, Option.some.injEq] at hc
      subst hc
      exact isspace_false_of_not_delimiter (hl _ (by simp))
  obtain ⟨e, hd⟩ := skipWhitespace_fwd ws _ h hws hhead
  refine ⟨?_, by rw [e], drop_add_of_drop hd⟩
  unfold maximalRun
  rw [h, dropWhile_append_stop isspace ws _ hws hhead]
  apply takeWhile_append_stop
  · intro c hc; simp [hl c hc]
  · intro c hc; simp [hr c hc]

theorem parseId_fwd {input : List Char} {pos : Nat} (ws id rest : List Char)
    (h : input.drop pos = ws ++ (id ++ rest)) (hws : ∀ c ∈ ws, isspace c = true)
    (hid : ∀ c ∈ id, isalpha c = true) (hne : id ≠ [])
    (hr : ∀ c ∈ rest.head?, isDelimiter c = true) :
    ∃ pos1, parseId input pos = .ok (id, pos1) ∧ input.drop pos1 = rest := by
  obtain ⟨e1, e2, e3⟩ := maximalRun_fwd ws id rest h hws
    (fun c hc => isDelimiter_false_of_isalpha (hid c hc)) hne hr
  refine ⟨pos + ws.length + id.length, ?_, e3⟩
  rw [parseId_eq, e1, if_pos (List.all_eq_true.mpr hid), e2]

theorem parseNumber_fwd {input : List Char} {pos : Nat} (ws num rest : List Char)
    (h : input.drop pos = ws ++ (num ++ rest)) (hws : ∀ c ∈ ws, isspace c = true)
    (hnum : ∀ c ∈ num, isdigit c = true) (hne : num ≠ [])
    (hr : ∀ c ∈ rest.head?, isDelimiter c = true) :
    ∃ pos1, parseNumber input pos = .ok (num, pos1) ∧ input.drop pos1 = rest := by
  obtain ⟨e1, e2, e3⟩ := maximalRun_fwd ws num rest h hws
    (fun c hc => isDelimiter_false_of_isdigit (hnum c hc)) hne hr
  refine ⟨pos + ws.length + num.length, ?_, e3⟩
  rw [parseNumber_eq, e1, if_pos (List.all_eq_true.mpr hnum), e2]

/-! ## Running the grammar functions on a text of known shape -/

theorem not_lt_length_of_drop_nil {input : List Char} {pos : Nat} (h : input.drop pos = []) :
    ¬ pos < input.length := by
  intro hlt
  rw [drop_eq_charAt_cons hlt] at h
  cases h

theorem skipWhitespace_none {input : List Char} {pos : Nat} (rest : List Char)
    (h : input.drop pos = rest) (hr : ∀ c ∈ rest.head?, isspace c = false) :
    skipWhitespace input pos = pos := by
  have := (skipWhitespace_fwd [] rest (by simpa using h) (by simp) hr).1
  simpa using this

theorem isspace_false_of_isdigit {c : Char} (h : isdigit c = true) : isspace c = false :=
  isspace_false_of_not_delimiter (isDelimiter_false_of_isdigit h)

theorem isspace_false_of_isalpha {c : Char} (h : isalpha c = true) : isspace c = false :=
  isspace_false_of_not_delimiter (isDelimiter_false_of_isalpha h)

theorem parseOperand_number_fwd {input : List Char} {pos : Nat} (num rest : List Char)
    (h : input.drop pos = num ++ rest) (hnum : ∀ c ∈ num, isdigit c = true) (hne : num ≠ [])
    (hr : ∀ c ∈ rest.head?, isDelimiter c = true) :
    ∃ pos1, parseOperand input pos = .ok (leaf (String.mk num) "Const", pos1) ∧
      input.drop pos1 = rest := by
  cases num with
  | nil => exact absurd rfl hne
  | cons d num =>
    have hd : isdigit d = true := hnum d (by simp)
    have hc : charAt input pos = d := charAt_of_drop (by simpa using h)
    obtain ⟨pos1, e, hrest⟩ := parseNumber_fwd [] (d :: num) rest (by simpa using h) (by simp)
      hnum hne hr
    refine ⟨pos1, ?_, hrest⟩
    unfold parseOperand
    have hq : ¬ d = '"' := by
      intro hq
      subst hq
      revert hd
      decide
    simp only [hc, hq, if_false, hd, if_true, e]

theorem parseOp_const_fwd {input : List Char} {pos : Nat} (ws id num rest : List Char)
    (h : input.drop pos = ws ++ (id ++ (':' :: '=' :: (num ++ (';' :: rest)))))
    (hws : ∀ c ∈ ws, isspace c = true) (hid : ∀ c ∈ id, isalpha c = true) (hne : id ≠ [])
    (hnum : ∀ c ∈ num, isdigit c = true) (hnn : num ≠ []) :
    ∃ pos1, parseOp input pos = .ok (assignNode (String.mk id) (String.mk num), pos1) ∧
      input.drop pos1 = rest := by
  obtain ⟨p1, e1, h1⟩ := parseId_fwd ws id _ h hws hid hne (by simp; decide)
  obtain ⟨p2, e2, h2⟩ := @matchToken_fwd _ p1 [] ":=" (num ++ (';' :: rest))
    (by simpa using h1) (by simp) (by simp; decide)
  have hs2 : skipWhitespace input p2 = p2 := by
    apply skipWhitespace_none _ h2
    cases num with
    | nil => exact absurd rfl hnn
    | cons d num =>
      intro c hc
      simp only [List.cons_append, List.head?_cons, Option.mem_def, Option.some.injEq] at hc
      subst hc
      exact isspace_false_of_isdigit (hnum _ (by simp))
  obtain ⟨p3, e3, h3⟩ := parseOperand_number_fwd num (';' :: rest) h2 hnum hnn (by simp; decide)
  have hs3 : skipWhitespace input p3 = p3 := skipWhitespace_none _ h3 (by simp; decide)
  have hc3 : charAt input p3 = ';' := charAt_of_drop h3
  obtain ⟨p4, e4, h4⟩ := @matchToken_fwd _ p3 [] ";" rest (by simpa using h3) (by simp)
    (by simp; decide)
  refine ⟨p4, ?_, h4⟩
  unfold parseOp
  simp only [e1, e2, hs2, e3, hs3, hc3, e4]
  rw [if_neg (fun hc => absurd hc.2 (by decide))]
  rfl

theorem parseOp_two_numbers_fwd {input : List Char} {pos : Nat} (ws id m : List Char) (o : Char)
    (n rest : List Char)
    (h : input.drop pos = ws ++ (id ++ (':' :: '=' :: (m ++ (o :: (n ++ (';' :: rest)))))))
    (hws : ∀ c ∈ ws, isspace c = true) (hid : ∀ c ∈ id, isalpha c = true) (hne : id ≠ [])
    (hm : ∀ c ∈ m, isdigit c = true) (hmn : m ≠ []) (ho : o = '+' ∨ o = '-')
    (hn : ∀ c ∈ n, isdigit c = true) (hnn : n ≠ []) :
    ∃ pos1, parseOp input pos = .ok (.mk "Op" "" [leaf (String.mk id) "Id",
        leaf ":=" "Symbols_of_Operation", leaf (String.mk m) "Const",
        leaf (String.singleton o) "Symbols_of_Operation", leaf (String.mk n) "Const",
        leaf ";" "Symbols_of_Separating"], pos1) ∧
      input.drop pos1 = rest := by
  have hod : isDelimiter o = true := by rcases ho with ho | ho <;> subst ho <;> decide
  have hos : isspace o = false := by rcases ho with ho | ho <;> subst ho <;> decide
  obtain ⟨p1, e1, h1⟩ := parseId_fwd ws id _ h hws hid hne (by simp; decide)
  obtain ⟨p2, e2, h2⟩ := @matchToken_fwd _ p1 [] ":=" (m ++ (o :: (n ++ (';' :: rest))))
    (by simpa using h1) (by simp) (by simp; decide)
  have hs2 : skipWhitespace input p2 = p2 := by
    apply skipWhitespace_none _ h2
    cases m with
    | nil => exact absurd rfl hmn
    | cons d m =>
      intro c hc
      simp only [List.cons_append, List.head?_cons, Option.mem_def, Option.some.injEq] at hc
      subst hc
      exact isspace_false_of_isdigit (hm _ (by simp))
  obtain ⟨p3, e3, h3⟩ := parseOperand_number_fwd m _ h2 hm hmn (by simpa using hod)
  have hs3 : skipWhitespace input p3 = p3 := skipWhitespace_none _ h3 (by simpa using hos)
  have hc3 : charAt input p3 = o := charAt_of_drop h3
  have hlt3 : p3 < input.length := lt_length_of_drop h3
  have h3s : input.drop (p3 + 1) = n ++ (';' :: rest) := by
    have := drop_add_of_drop (a := [o]) (by simpa using h3)
    simpa using this
  have hs4 : skipWhitespace input (p3 + 1) = p3 + 1 := by
    apply skipWhitespace_none _ h3s
    cases n with
    | nil => exact absurd rfl hnn
    | cons d n =>
      intro c hc
      simp only [List.cons_append, List.head?_cons, Option.mem_def, Option.some.injEq] at hc
      subst hc
      exact isspace_false_of_isdigit (hn _ (by simp))
  obtain ⟨p4, e4, h4⟩ := parseOperand_number_fwd n (';' :: rest) h3s hn hnn (by simp; decide)
  obtain ⟨p5, e5, h5⟩ := @matchToken_fwd _ p4 [] ";" rest (by simpa using h4) (by simp)
    (by simp; decide)
  refine ⟨p5, ?_, h5⟩
  unfold parseOp
  simp only [e1, e2, hs2, e3, hs3, hc3]
  rw [if_pos ⟨hlt3, ho⟩]
  simp only [hs4, e4, e5]

theorem parseDescriptions_absent_fwd {input : List Char} {pos : Nat} (ws rest : List Char)
    (h : input.drop pos = ws ++ rest) (hws : ∀ c ∈ ws, isspace c = true)
    (hr : ∀ c ∈ rest.head?, isspace c = false) (hv : rest.take 3 ≠ "var".data) :
    ∃ pos1, parseDescriptions input pos = .ok (.mk "Descriptions" "" [], pos1) ∧
      input.drop pos1 = rest := by
  obtain ⟨e, hd⟩ := skipWhitespace_fwd ws rest h hws hr
  refine ⟨pos + ws.length, ?_, hd⟩
  unfold parseDescriptions
  simp only [e]
  have : substr input (pos + ws.length) 3 = rest.take 3 := by
    unfold substr; rw [hd]
  rw [this, if_neg hv]

theorem parseOperatorsLoop_last {input : List Char} {pos pos1 : Nat} {op : TreeNode} (fuel : Nat)
    (ws rest : List Char) (e : parseOp input pos = .ok (op, pos1))
    (h : input.drop pos1 = ws ++ ('e' :: 'n' :: 'd' :: rest))
    (hws : ∀ c ∈ ws, isspace c = true) :
    ∃ pos2, parseOperatorsLoop input (fuel + 1) pos = .ok ([op], pos2) ∧
      input.drop pos2 = 'e' :: 'n' :: 'd' :: rest := by
  obtain ⟨es, hd⟩ := skipWhitespace_fwd ws _ h hws (by simp; decide)
  refine ⟨pos1 + ws.length, ?_, hd⟩
  rw [parseOperatorsLoop]
  simp only [e, es]
  have : substr input (pos1 + ws.length) 3 = "end".data := by
    unfold substr; rw [hd]; rfl
  rw [if_neg (by simp [this])]

theorem parseOperatorsLoop_more {input : List Char} {pos pos1 : Nat} {op : TreeNode} (fuel : Nat)
    (ws : List Char) (c : Char) (rest : List Char) (e : parseOp input pos = .ok (op, pos1))
    (h : input.drop pos1 = ws ++ (c :: rest)) (hws : ∀ c ∈ ws, isspace c = true)
    (hc : isspace c = false) (hend : (c :: rest).take 3 ≠ "end".data) :
    ∃ pos2, input.drop pos2 = c :: rest ∧
      parseOperatorsLoop input (fuel + 1) pos =
        match parseOperatorsLoop input fuel pos2 with
        | .error e => .error e
        | .ok (ops, pos3) => .ok (op :: ops, pos3) := by
  obtain ⟨es, hd⟩ := skipWhitespace_fwd ws _ h hws (by simpa using hc)
  refine ⟨pos1 + ws.length, hd, ?_⟩
  rw [parseOperatorsLoop]
  simp only [e, es]
  have : substr input (pos1 + ws.length) 3 = (c :: rest).take 3 := by
    unfold substr; rw [hd]
  rw [if_pos ⟨lt_length_of_drop hd, by rw [this]; exact hend⟩]

theorem parse_of_steps {input : List Char} {p1 p2 p3 p4 p5 p6 p7 : Nat} {id : List Char}
    {descriptions operators : List TreeNode}
    (e1 : matchToken input 0 "procedure" = .ok p1) (e2 : parseId input p1 = .ok (id, p2))
    (e3 : matchToken input p2 ";" = .ok p3) (e4 : matchToken input p3 "begin" = .ok p4)
    (e5 : parseDescriptions input p4 = .ok (.mk "Descriptions" "" descriptions, p5))
    (e6 : parseOperatorsLoop input (input.length - p5 + 1) p5 = .ok (operators, p6))
    (e7 : matchToken input p6 "end" = .ok p7) (h7 : input.drop p7 = []) :
    parse input = .ok (programNode (String.mk id) descriptions operators) := by
  unfold parse parseProcedure parseOperators
  simp only [e1, e2, e3, e4, e5, e6, e7]
  rw [if_neg (not_lt_length_of_drop_nil h7)]
  rfl

theorem header_fwd {input : List Char} (rest : List Char)
    (h : input = "procedure p; begin".data ++ rest) :
    ∃ p1 p2 p3 p4, matchToken input 0 "procedure" = .ok p1 ∧
      parseId input p1 = .ok (['p'], p2) ∧ matchToken input p2 ";" = .ok p3 ∧
      matchToken input p3 "begin" = .ok p4 ∧ input.drop p4 = rest := by
  obtain ⟨p1, e1, h1⟩ := @matchToken_fwd input 0 [] "procedure" (" p; begin".data ++ rest)
    (by rw [h]; rfl) (by simp) (by simp; decide)
  obtain ⟨p2, e2, h2⟩ := @parseId_fwd _ p1 [' '] ['p'] ("; begin".data ++ rest)
    (by rw [h1]; rfl) (by simp; decide) (by simp; decide) (by simp) (by simp; decide)
  obtain ⟨p3, e3, h3⟩ := @matchToken_fwd _ p2 [] ";" (" begin".data ++ rest)
    (by rw [h2]; rfl) (by simp) (by simp; decide)
  obtain ⟨p4, e4, h4⟩ := @matchToken_fwd _ p3 [' '] "begin" rest
    (by rw [h3]; rfl) (by simp; decide) (by simp; decide)
  exact ⟨p1, p2, p3, p4, e1, e2, e3, e4, h4⟩

theorem take_three_append_ne {id : List Char} (kw : List Char) (d : Char) (tail : List Char)
    (hk : ∀ c ∈ kw, isalpha c = true) (hd : isalpha d = false) (h : id.take 3 ≠ kw) :
    (id ++ d :: tail).take 3 ≠ kw := by
  intro heq
  by_cases hlen : 3 ≤ id.length
  · rw [List.take_append_of_le_length hlen] at heq
    exact h heq
  · have hmem : d ∈ (id ++ d :: tail).take 3 := by
      rw [List.take_append_eq_append_take]
      obtain ⟨k, hk3⟩ : ∃ k, 3 - id.length = k + 1 := ⟨2 - id.length, by omega⟩
      rw [hk3, List.take_succ_cons]
      simp
    rw [heq] at hmem
    rw [hk d hmem] at hd
    cases hd

theorem head_isalpha_not_space {id : List Char} (rest : List Char)
    (hid : ∀ c ∈ id, isalpha c = true) (hne : id ≠ []) :
    ∃ a tail, id ++ rest = a :: tail ∧ isspace a = false := by
  cases id with
  | nil => exact absurd rfl hne
  | cons a id => exact ⟨a, id ++ rest, rfl, isspace_false_of_isalpha (hid a (by simp))⟩

/-! ## What a successful call went through -/

theorem matchToken_ok {input : List Char} {pos pos1 : Nat} {token : String}
    (h : matchToken input pos token = .ok pos1) :
    substr input (skipWhitespace input pos) token.length = token.data ∧
      pos1 = skipWhitespace input pos + token.length := by
  unfold matchToken at h
  simp only at h
  split at h
  · rename_i heq
    injection h with h
    exact ⟨heq, h.symm⟩
  · cases h

theorem parseVarListLoop_ok {input : List Char} {fuel pos pos1 : Nat} {nodes : List TreeNode}
    (h : parseVarListLoop input fuel pos = .ok (nodes, pos1)) :
    (¬ (pos < input.length ∧ charAt input pos = ',') ∧ nodes = [] ∧ pos1 = pos) ∨
    ((pos < input.length ∧ charAt input pos = ',') ∧
      ∃ fuel1 q id q1 rest, fuel = fuel1 + 1 ∧ matchToken input pos "," = .ok q ∧
        parseId input q = .ok (id, q1) ∧ parseVarListLoop input fuel1 q1 = .ok (rest, pos1) ∧
        nodes = leaf "," "Symbols_of_Separating" :: leaf (String.mk id) "Id" :: rest) := by
  cases fuel with
  | zero =>
    rw [parseVarListLoop] at h
    split at h
    · cases h
    · rename_i hg
      injection h with h
      injection h with h1 h2
      exact Or.inl ⟨hg, h1.symm, h2.symm⟩
  | succ fuel =>
    rw [parseVarListLoop] at h
    split at h
    · rename_i hg
      split at h
      · cases h
      · rename_i q e1
        split at h
        · cases h
        · rename_i id q1 e2
          split at h
          · cases h
          · rename_i rest q2 e3
            injection h with h
            injection h with h1 h2
            subst h2
            exact Or.inr ⟨hg, fuel, q, id, q1, rest, rfl, e1, e2, e3, h1.symm⟩
    · rename_i hg
      injection h with h
      injection h with h1 h2
      exact Or.inl ⟨hg, h1.symm, h2.symm⟩

theorem parseVarList_ok {input : List Char} {pos pos1 : Nat} {t : TreeNode}
    (h : parseVarList input pos = .ok (t, pos1)) :
    ∃ id q rest, parseId input pos = .ok (id, q) ∧
      parseVarListLoop input (input.length - skipWhitespace input q) (skipWhitespace input q) =
        .ok (rest, pos1) ∧
      t = .mk "VarList" "" (leaf (String.mk id) "Id" :: rest) := by
  unfold parseVarList at h
  split at h
  · cases h
  · rename_i id q e1
    simp only at h
    split at h
    · cases h
    · rename_i rest q1 e2
      injection h with h
      injection h with h1 h2
      subst h2
      exact ⟨id, q, rest, e1, e2, h1.symm⟩

theorem parseType_ok {input : List Char} {pos pos1 : Nat} {ty : String}
    (h : parseType input pos = .ok (ty, pos1)) :
    (ty = "integer" ∧ substr input (skipWhitespace input pos) 7 = "integer".data ∧
      matchToken input (skipWhitespace input pos) "integer" = .ok pos1) ∨
    (ty = "char" ∧ substr input (skipWhitespace input pos) 7 ≠ "integer".data ∧
      substr input (skipWhitespace input pos) 4 = "char".data ∧
      matchToken input (skipWhitespace input pos) "char" = .ok pos1) := by
  unfold parseType at h
  simp only at h
  split at h
  · rename_i hi
    split at h
    · cases h
    · rename_i q e
      injection h with h
      injection h with h1 h2
      subst h1 h2
      exact Or.inl ⟨rfl, hi, e⟩
  · rename_i hni
    split at h
    · rename_i hc
      split at h
      · cases h
      · rename_i q e
        injection h with h
        injection h with h1 h2
        subst h1 h2
        exact Or.inr ⟨rfl, hni, hc, e⟩
    · cases h

theorem parseDescr_ok {input : List Char} {pos pos1 : Nat} {t : TreeNode}
    (h : parseDescr input pos = .ok (t, pos1)) :
    ∃ vars q q1 ty q2, parseVarList input pos = .ok (vars, q) ∧
      charAt input (skipWhitespace input q) = ':' ∧
      matchToken input (skipWhitespace input q) ":" = .ok q1 ∧
      parseType input q1 = .ok (ty, q2) ∧ matchToken input q2 ";" = .ok pos1 ∧
      t = .mk "Descr" "" [vars, leaf ":" "Symbols_of_Separating", leaf ty "WordsKey",
        leaf ";" "Symbols_of_Separating"] := by
  unfold parseDescr at h
  split at h
  · cases h
  · rename_i vars q e1
    simp only at h
    split at h
    · rename_i hc
      split at h
      · cases h
      · rename_i q1 e2
        split at h
        · cases h
        · rename_i ty q2 e3
          split at h
          · cases h
          · rename_i q3 e4
            injection h with h
            injection h with h1 h2
            subst h2
            exact ⟨vars, q, q1, ty, q2, e1, hc, e2, e3, e4, h1.symm⟩
    · cases h

theorem parseDescrListLoop_ok {input : List Char} {fuel pos pos1 : Nat} {nodes : List TreeNode}
    (h : parseDescrListLoop input fuel pos = .ok (nodes, pos1)) :
    (¬ (pos < input.length ∧ substr input pos 3 = "var".data) ∧ nodes = [] ∧ pos1 = pos) ∨
    ((pos < input.length ∧ substr input pos 3 = "var".data) ∧
      ∃ fuel1 q d q1 rest, fuel = fuel1 + 1 ∧ matchToken input pos "var" = .ok q ∧
        parseDescr input q = .ok (d, q1) ∧
        parseDescrListLoop input fuel1 q1 = .ok (rest, pos1) ∧
        nodes = leaf "var" "WordsKey" :: d :: rest) := by
  cases fuel with
  | zero =>
    rw [parseDescrListLoop] at h
    split at h
    · cases h
    · rename_i hg
      injection h with h
      injection h with h1 h2
      exact Or.inl ⟨hg, h1.symm, h2.symm⟩
  | succ fuel =>
    rw [parseDescrListLoop] at h
    split at h
    · rename_i hg
      split at h
      · cases h
      · rename_i q e1
        split at h
        · cases h
        · rename_i d q1 e2
          split at h
          · cases h
          · rename_i rest q2 e3
            injection h with h
            injection h with h1 h2
            subst h2
            exact Or.inr ⟨hg, fuel, q, d, q1, rest, rfl, e1, e2, e3, h1.symm⟩
    · rename_i hg
      injection h with h
      injection h with h1 h2
      exact Or.inl ⟨hg, h1.symm, h2.symm⟩

theorem parseDescrList_ok {input : List Char} {pos pos1 : Nat} {t : TreeNode}
    (h : parseDescrList input pos = .ok (t, pos1)) :
    ∃ d q rest, parseDescr input pos = .ok (d, q) ∧
      parseDescrListLoop input (input.length - skipWhitespace input q)
        (skipWhitespace input q) = .ok (rest, pos1) ∧
      t = .mk "DescrList" "" (d :: rest) := by
  unfold parseDescrList at h
  split at h
  · cases h
  · rename_i d q e1
    simp only at h
    split at h
    · cases h
    · rename_i rest q1 e2
      injection h with h
      injection h with h1 h2
      subst h2
      exact ⟨d, q, rest, e1, e2, h1.symm⟩

theorem parseDescriptions_ok {input : List Char} {pos pos1 : Nat} {t : TreeNode}
    (h : parseDescriptions input pos = .ok (t, pos1)) :
    (substr input (skipWhitespace input pos) 3 ≠ "var".data ∧ t = .mk "Descriptions" "" [] ∧
      pos1 = skipWhitespace input pos) ∨
    (substr input (skipWhitespace input pos) 3 = "var".data ∧
      ∃ q l, matchToken input (skipWhitespace input pos) "var" = .ok q ∧
        parseDescrList input q = .ok (l, pos1) ∧
        t = .mk "Descriptions" "" [leaf "var" "WordsKey", l]) := by
  unfold parseDescriptions at h
  simp only at h
  split at h
  · rename_i hv
    split at h
    · cases h
    · rename_i q e1
      split at h
      · cases h
      · rename_i l q1 e2
        injection h with h
        injection h with h1 h2
        subst h2
        exact Or.inr ⟨hv, q, l, e1, e2, h1.symm⟩
  · rename_i hv
    injection h with h
    injection h with h1 h2
    exact Or.inl ⟨hv, h1.symm, h2.symm⟩

theorem parseNumExpr_ok {input : List Char} {fuel pos pos1 : Nat} {t : TreeNode}
    (h : parseNumExpr input fuel pos = .ok (t, pos1)) :
    ∃ fuel1 s q rest, fuel = fuel1 + 1 ∧ parseSimpleNumExpr input fuel1 pos = .ok (s, q) ∧
      parseNumExprLoop input fuel1 (skipWhitespace input q) = .ok (rest, pos1) ∧
      t = .mk "Expr" "" (s :: rest) := by
  cases fuel with
  | zero => rw [parseNumExpr] at h; cases h
  | succ fuel =>
    rw [parseNumExpr] at h
    split at h
    · cases h
    · rename_i s q e1
      simp only at h
      split at h
      · cases h
      · rename_i rest q1 e2
        injection h with h
        injection h with h1 h2
        subst h2
        exact ⟨fuel, s, q, rest, rfl, e1, e2, h1.symm⟩

theorem parseNumExprLoop_ok {input : List Char} {fuel pos pos1 : Nat} {nodes : List TreeNode}
    (h : parseNumExprLoop input fuel pos = .ok (nodes, pos1)) :
    (¬ (pos < input.length ∧ (charAt input pos = '+' ∨ charAt input pos = '-')) ∧ nodes = [] ∧
      pos1 = pos) ∨
    ((pos < input.length ∧ (charAt input pos = '+' ∨ charAt input pos = '-')) ∧
      ∃ fuel1 s q rest, fuel = fuel1 + 1 ∧
        parseSimpleNumExpr input fuel1 (pos + 1) = .ok (s, q) ∧
        parseNumExprLoop input fuel1 q = .ok (rest, pos1) ∧
        nodes = leaf (String.singleton (charAt input pos)) "Symbols_of_Operation" ::
          s :: rest) := by
  cases fuel with
  | zero =>
    rw [parseNumExprLoop] at h
    split at h
    · cases h
    · rename_i hg
      injection h with h
      injection h with h1 h2
      exact Or.inl ⟨hg, h1.symm, h2.symm⟩
  | succ fuel =>
    rw [parseNumExprLoop] at h
    split at h
    · rename_i hg
      split at h
      · cases h
      · rename_i s q e1
        split at h
        · cases h
        · rename_i rest q1 e2
          injection h with h
          injection h with h1 h2
          subst h2
          exact Or.inr ⟨hg, fuel, s, q, rest, rfl, e1, e2, h1.symm⟩
    · rename_i hg
      injection h with h
      injection h with h1 h2
      exact Or.inl ⟨hg, h1.symm, h2.symm⟩

theorem parseSimpleNumExpr_ok {input : List Char} {fuel pos pos1 : Nat} {t : TreeNode}
    (h : parseSimpleNumExpr input fuel pos = .ok (t, pos1)) :
    ∃ fuel1, fuel = fuel1 + 1 ∧
    ((isalpha (charAt input (skipWhitespace input pos)) = true ∧
        ∃ id, parseId input (skipWhitespace input pos) = .ok (id, pos1) ∧
          t = .mk "SimpleExpr" "" [leaf (String.mk id) "Id"]) ∨
      (isalpha (charAt input (skipWhitespace input pos)) = false ∧
        isdigit (charAt input (skipWhitespace input pos)) = true ∧
        ∃ n, parseNumber input (skipWhitespace input pos) = .ok (n, pos1) ∧
          t = .mk "SimpleExpr" "" [leaf (String.mk n) "Const"]) ∨
      (isalpha (charAt input (skipWhitespace input pos)) = false ∧
        isdigit (charAt input (skipWhitespace input pos)) = false ∧
        charAt input (skipWhitespace input pos) = '(' ∧
        ∃ q e q1, matchToken input (skipWhitespace input pos) "(" = .ok q ∧
          parseNumExpr input fuel1 q = .ok (e, q1) ∧ matchToken input q1 ")" = .ok pos1 ∧
          t = .mk "SimpleExpr" "" [leaf "(" "Symbols_of_Separating", e,
            leaf ")" "Symbols_of_Separating"])) := by
  cases fuel with
  | zero => rw [parseSimpleNumExpr] at h; cases h
  | succ fuel =>
    refine ⟨fuel, rfl, ?_⟩
    rw [parseSimpleNumExpr] at h
    split at h
    · rename_i ha
      split at h
      · cases h
      · rename_i id q e1
        injection h with h
        injection h with h1 h2
        subst h2
        exact Or.inl ⟨ha, id, e1, h1.symm⟩
    · rename_i ha
      simp only [Bool.not_eq_true] at ha
      split at h
      · rename_i hd
        split at h
        · cases h
        · rename_i n q e1
          injection h with h
          injection h with h1 h2
          subst h2
          exact Or.inr (Or.inl ⟨ha, hd, n, e1, h1.symm⟩)
      · rename_i hd
        simp only [Bool.not_eq_true] at hd
        split at h
        · rename_i hp
          split at h
          · cases h
          · rename_i q e1
            split at h
            · cases h
            · rename_i e q1 e2
              split at h
              · cases h
              · rename_i q2 e3
                injection h with h
                injection h with h1 h2
                subst h2
                exact Or.inr (Or.inr ⟨ha, hd, hp, q, e, q1, e1, e2, e3, h1.symm⟩)
        · cases h

theorem parseOperand_ok {input : List Char} {pos pos1 : Nat} {t : TreeNode}
    (h : parseOperand input pos = .ok (t, pos1)) :
    (charAt input pos = '"' ∧
      ∃ s, parseStringConst input pos = .ok (s, pos1) ∧ t = leaf (String.mk s) "Const") ∨
    (charAt input pos ≠ '"' ∧ isdigit (charAt input pos) = true ∧
      ∃ n, parseNumber input pos = .ok (n, pos1) ∧ t = leaf (String.mk n) "Const") ∨
    (charAt input pos ≠ '"' ∧ isdigit (charAt input pos) = false ∧
      parseNumExpr input (2 * (input.length - pos) + 2) pos = .ok (t, pos1)) := by
  unfold parseOperand at h
  split at h
  · rename_i hq
    split at h
    · cases h
    · rename_i s q e1
      injection h with h
      injection h with h1 h2
      subst h2
      exact Or.inl ⟨hq, s, e1, h1.symm⟩
  · rename_i hq
    split at h
    · rename_i hd
      split at h
      · cases h
      · rename_i n q e1
        injection h with h
        injection h with h1 h2
        subst h2
        exact Or.inr (Or.inl ⟨hq, hd, n, e1, h1.symm⟩)
    · rename_i hd
      simp only [Bool.not_eq_true] at hd
      exact Or.inr (Or.inr ⟨hq, hd, h⟩)

theorem parseOp_ok {input : List Char} {pos pos1 : Nat} {t : TreeNode}
    (h : parseOp input pos = .ok (t, pos1)) :
    ∃ id q q1 v q2, parseId input pos = .ok (id, q) ∧ matchToken input q ":=" = .ok q1 ∧
      parseOperand input (skipWhitespace input q1) = .ok (v, q2) ∧
      ((¬ (skipWhitespace input q2 < input.length ∧
            (charAt input (skipWhitespace input q2) = '+' ∨
              charAt input (skipWhitespace input q2) = '-')) ∧
          matchToken input (skipWhitespace input q2) ";" = .ok pos1 ∧
          t = .mk "Op" "" [leaf (String.mk id) "Id", leaf ":=" "Symbols_of_Operation", v,
            leaf ";" "Symbols_of_Separating"]) ∨
        ((skipWhitespace input q2 < input.length ∧
            (charAt input (skipWhitespace input q2) = '+' ∨
              charAt input (skipWhitespace input q2) = '-')) ∧
          ∃ w q3, parseOperand input (skipWhitespace input (skipWhitespace input q2 + 1)) =
              .ok (w, q3) ∧
            matchToken input q3 ";" = .ok pos1 ∧
            t = .mk "Op" "" [leaf (String.mk id) "Id", leaf ":=" "Symbols_of_Operation", v,
              leaf (String.singleton (charAt input (skipWhitespace input q2)))
                "Symbols_of_Operation", w, leaf ";" "Symbols_of_Separating"])) := by
  unfold parseOp at h
  split at h
  · cases h
  · rename_i id q e1
    split at h
    · cases h
    · rename_i q1 e2
      split at h
      · cases h
      · rename_i v q2 e3
        simp only at h
        split at h
        · rename_i hg
          split at h
          · cases h
          · rename_i w q3 e4
            split at h
            · cases h
            · rename_i q4 e5
              injection h with h
              injection h with h1 h2
              subst h2
              exact ⟨id, q, q1, v, q2, e1, e2, e3, Or.inr ⟨hg, w, q3, e4, e5, h1.symm⟩⟩
        · rename_i hg
          split at h
          · cases h
          · rename_i q3 e4
            injection h with h
            injection h with h1 h2
            subst h2
            exact ⟨id, q, q1, v, q2, e1, e2, e3, Or.inl ⟨hg, e4, h1.symm⟩⟩

theorem parseOperatorsLoop_ok {input : List Char} {fuel pos pos1 : Nat} {nodes : List TreeNode}
    (h : parseOperatorsLoop input fuel pos = .ok (nodes, pos1)) :
    ∃ fuel1 op q, fuel = fuel1 + 1 ∧ parseOp input pos = .ok (op, q) ∧
      ((¬ (skipWhitespace input q < input.length ∧
            substr input (skipWhitespace input q) 3 ≠ "end".data) ∧
          nodes = [op] ∧ pos1 = skipWhitespace input q) ∨
        ((skipWhitespace input q < input.length ∧
            substr input (skipWhitespace input q) 3 ≠ "end".data) ∧
          ∃ rest, parseOperatorsLoop input fuel1 (skipWhitespace input q) = .ok (rest, pos1) ∧
            nodes = op :: rest)) := by
  cases fuel with
  | zero => rw [parseOperatorsLoop] at h; cases h
  | succ fuel =>
    rw [parseOperatorsLoop] at h
    split at h
    · cases h
    · rename_i op q e1
      simp only at h
      split at h
      · rename_i hg
        split at h
        · cases h
        · rename_i rest q1 e2
          injection h with h
          injection h with h1 h2
          subst h2
          exact ⟨fuel, op, q, rfl, e1, Or.inr ⟨hg, rest, e2, h1.symm⟩⟩
      · rename_i hg
        injection h with h
        injection h with h1 h2
        exact ⟨fuel, op, q, rfl, e1, Or.inl ⟨hg, h1.symm, h2.symm⟩⟩

theorem parseOperators_ok {input : List Char} {pos pos1 : Nat} {t : TreeNode}
    (h : parseOperators input pos = .ok (t, pos1)) :
    ∃ ops, parseOperatorsLoop input (input.length - pos + 1) pos = .ok (ops, pos1) ∧
      t = .mk "Operators" "" ops := by
  unfold parseOperators at h
  split at h
  · cases h
  · rename_i ops q e1
    injection h with h
    injection h with h1 h2
    subst h2
    exact ⟨ops, e1, h1.symm⟩

theorem parseProcedure_ok {input : List Char} {pos pos1 : Nat} {t : TreeNode}
    (h : parseProcedure input pos = .ok (t, pos1)) :
    ∃ p1 id p2 p3 p4 descriptions p5 operators p6,
      matchToken input pos "procedure" = .ok p1 ∧ parseId input p1 = .ok (id, p2) ∧
      matchToken input p2 ";" = .ok p3 ∧ matchToken input p3 "begin" = .ok p4 ∧
      parseDescriptions input p4 = .ok (descriptions, p5) ∧
      parseOperators input p5 = .ok (operators, p6) ∧ matchToken input p6 "end" = .ok pos1 ∧
      t = .mk "Program" "Program" [leaf "procedure" "WordsKey", leaf (String.mk id) "Id",
        leaf "begin" "WordsKey", descriptions, operators, leaf "end" "WordsKey"] := by
  unfold parseProcedure at h
  split at h
  · cases h
  · rename_i p1 e1
    split at h
    · cases h
    · rename_i id p2 e2
      split at h
      · cases h
      · rename_i p3 e3
        split at h
        · cases h
        · rename_i p4 e4
          split at h
          · cases h
          · rename_i descriptions p5 e5
            split at h
            · cases h
            · rename_i operators p6 e6
              split at h
              · cases h
              · rename_i p7 e7
                injection h with h
                injection h with h1 h2
                subst h2
                exact ⟨p1, id, p2, p3, p4, descriptions, p5, operators, p6, e1, e2, e3, e4,
                  e5, e6, e7, h1.symm⟩

theorem parse_ok {input : List Char} {t : TreeNode} (h : parse input = .ok t) :
    ∃ pos1, parseProcedure input 0 = .ok (t, pos1) ∧ ¬ pos1 < input.length := by
  unfold parse at h
  split at h
  · cases h
  · rename_i root p e
    split at h
    · cases h
    · rename_i hlt
      injection h with h
      subst h
      exact ⟨p, e, hlt⟩

/-! ## What a successful call consumes -/

theorem leafTextOfList_nil : leafTextOfList [] = [] := rfl

theorem leafTextOfList_cons (t : TreeNode) (ts : List TreeNode) :
    leafTextOfList (t :: ts) = t.leafText ++ leafTextOfList ts := by
  simp [leafTextOfList, TreeNode.leafText, TreeNode.leavesOfList]

theorem leafText_untagged (v : String) (cs : List TreeNode) :
    (TreeNode.mk v "" cs).leafText = leafTextOfList cs := by
  simp [leafTextOfList, TreeNode.leafText, TreeNode.leaves]

theorem leafText_leaf (v t : String) (h : t ≠ "") : (leaf v t).leafText = v.data := by
  simp [leaf, TreeNode.leafText, TreeNode.leaves, h]

theorem leafText_parent (v t : String) (c : TreeNode) (cs : List TreeNode) :
    (TreeNode.mk v t (c :: cs)).leafText = leafTextOfList (c :: cs) := by
  simp [leafTextOfList, TreeNode.leafText, TreeNode.leaves]

theorem substr_split (input : List Char) {p q r : Nat} (hpq : p ≤ q) (hqr : q ≤ r) :
    substr input p (r - p) = substr input p (q - p) ++ substr input q (r - q) := by
  unfold substr
  have h1 : r - p = (q - p) + (r - q) := by omega
  have h2 : input.drop q = (input.drop p).drop (q - p) := by
    rw [List.drop_drop]; congr 1; omega
  rw [h1, List.take_add, h2]

theorem Consumes.refl (input : List Char) (p : Nat) : Consumes input p p [] := by
  simp [Consumes, substr]

theorem Consumes.trans {input : List Char} {p q r : Nat} {a b : List Char}
    (h1 : Consumes input p q a) (h2 : Consumes input q r b) : Consumes input p r (a ++ b) := by
  refine ⟨Nat.le_trans h1.1 h2.1, ?_⟩
  rw [substr_split input h1.1 h2.1, List.filter_append, h1.2, h2.2]

theorem isTokenChar_of_isalpha {c : Char} (h : isalpha c = true) : isTokenChar c = true := by
  unfold isTokenChar
  rw [isspace_false_of_isalpha h]
  have : c ≠ '"' := by
    intro hq; subst hq; revert h; decide
  simp [this]

theorem isTokenChar_of_isdigit {c : Char} (h : isdigit c = true) : isTokenChar c = true := by
  unfold isTokenChar
  rw [isspace_false_of_isdigit h]
  have : c ≠ '"' := by
    intro hq; subst hq; revert h; decide
  simp [this]

theorem filter_eq_self_of_all {p : Char → Bool} {l : List Char} (h : ∀ c ∈ l, p c = true) :
    l.filter p = l :=
  List.filter_eq_self.mpr h

theorem consumes_skipWhitespace (input : List Char) (pos : Nat) :
    Consumes input pos (skipWhitespace input pos) [] := by
  refine ⟨le_skipWhitespace input pos, ?_⟩
  rw [skipWhitespace_eq, Nat.add_sub_cancel_left]
  unfold substr
  rw [take_length_takeWhile, List.filter_eq_nil_iff]
  intro c hc
  have := List.mem_takeWhile_imp hc
  simp [isTokenChar, this]

theorem consumes_matchToken {input : List Char} {pos pos1 : Nat} {token : String}
    (h : matchToken input pos token = .ok pos1) (ht : ∀ c ∈ token.data, isTokenChar c = true) :
    Consumes input pos pos1 token.data := by
  unfold matchToken at h
  simp only at h
  split at h
  · rename_i heq
    injection h with h
    subst h
    have h2 : Consumes input (skipWhitespace input pos)
        (skipWhitespace input pos + token.length) token.data := by
      refine ⟨Nat.le_add_right _ _, ?_⟩
      rw [Nat.add_sub_cancel_left, heq]
      exact filter_eq_self_of_all ht
    simpa using (consumes_skipWhitespace input pos).trans h2
  · cases h

theorem consumes_parseId {input : List Char} {pos pos1 : Nat} {lexeme : List Char}
    (h : parseId input pos = .ok (lexeme, pos1)) :
    Consumes input pos pos1 lexeme ∧ ∀ c ∈ lexeme, isalpha c = true := by
  obtain ⟨hall, _, hp, hl⟩ := parseId_ok h
  have hall2 : ∀ c ∈ lexeme, isalpha c = true := List.all_eq_true.mp hall
  refine ⟨?_, hall2⟩
  have h2 : Consumes input (skipWhitespace input pos) pos1 lexeme := by
    refine ⟨by omega, ?_⟩
    rw [hp, Nat.add_sub_cancel_left, ← hl]
    exact filter_eq_self_of_all (fun c hc => isTokenChar_of_isalpha (hall2 c hc))
  simpa using (consumes_skipWhitespace input pos).trans h2

theorem consumes_parseNumber {input : List Char} {pos pos1 : Nat} {lexeme : List Char}
    (h : parseNumber input pos = .ok (lexeme, pos1)) :
    Consumes input pos pos1 lexeme ∧ ∀ c ∈ lexeme, isdigit c = true := by
  obtain ⟨hall, _, hp, hl⟩ := parseNumber_ok h
  have hall2 : ∀ c ∈ lexeme, isdigit c = true := List.all_eq_true.mp hall
  refine ⟨?_, hall2⟩
  have h2 : Consumes input (skipWhitespace input pos) pos1 lexeme := by
    refine ⟨by omega, ?_⟩
    rw [hp, Nat.add_sub_cancel_left, ← hl]
    exact filter_eq_self_of_all (fun c hc => isTokenChar_of_isdigit (hall2 c hc))
  simpa using (consumes_skipWhitespace input pos).trans h2

theorem consumes_step {input : List Char} {pos : Nat} (h : pos < input.length) :
    Consumes input pos (pos + 1) ([charAt input pos].filter isTokenChar) := by
  refine ⟨Nat.le_succ _, ?_⟩
  unfold substr
  rw [Nat.add_sub_cancel_left, drop_eq_charAt_cons h]
  simp

theorem consumes_stringConstLoop (input : List Char) : ∀ (fuel pos : Nat) (acc result : List Char)
    (pos1 : Nat), stringConstLoop input fuel pos acc = .ok (result, pos1) →
    ∃ text, result = acc ++ text ∧ Consumes input pos pos1 text ∧
      ∀ c ∈ text, (isdigit c || isalpha c) = true := by
  intro fuel
  induction fuel with
  | zero =>
    intro pos acc result pos1 h
    rw [stringConstLoop] at h
    split at h
    · cases h
    · injection h with h
      injection h with h1 h2
      subst h1 h2
      exact ⟨[], by simp, Consumes.refl _ _, by simp⟩
  | succ fuel ih =>
    intro pos acc result pos1 h
    rw [stringConstLoop] at h
    split at h
    · rename_i hg
      split at h
      · rename_i hc
        obtain ⟨text, ht, hcons, hall⟩ := ih _ _ _ _ h
        refine ⟨charAt input pos :: text, by simp [ht], ?_, ?_⟩
        · have := (consumes_step hg.1).trans hcons
          have hk : isTokenChar (charAt input pos) = true := by
            rcases Bool.or_eq_true _ _ ▸ hc with hd | ha
            · exact isTokenChar_of_isdigit hd
            · exact isTokenChar_of_isalpha ha
          simpa [hk] using this
        · intro c hc2
          rcases List.mem_cons.mp hc2 with hc3 | hc3
          · subst hc3; exact hc
          · exact hall c hc3
      · cases h
    · injection h with h
      injection h with h1 h2
      subst h1 h2
      exact ⟨[], by simp, Consumes.refl _ _, by simp⟩

theorem consumes_parseStringConst {input : List Char} {pos pos1 : Nat} {text : List Char}
    (h : parseStringConst input pos = .ok (text, pos1)) :
    Consumes input pos pos1 text ∧ ∀ c ∈ text, (isdigit c || isalpha c) = true := by
  unfold parseStringConst at h
  simp only at h
  split at h
  · rename_i hq
    split at h
    · cases h
    · rename_i result pos2 hloop
      split at h
      · rename_i hq2
        injection h with h
        injection h with h1 h2
        subst h1 h2
        obtain ⟨text, ht, hcons, hall⟩ := consumes_stringConstLoop input _ _ _ _ _ hloop
        simp only [List.nil_append] at ht
        subst ht
        refine ⟨?_, hall⟩
        have c1 := consumes_skipWhitespace input pos
        have c2 := consumes_step hq.1
        have c3 := consumes_step hq2.1
        rw [hq.2] at c2
        rw [hq2.2] at c3
        have hqf : [('"' : Char)].filter isTokenChar = [] := by decide
        rw [hqf] at c2 c3
        simpa using ((c1.trans c2).trans hcons).trans c3
      · cases h
  · cases h

theorem leafText_leaf_id (v : String) : (leaf v "Id").leafText = v.data :=
  leafText_leaf v _ (by decide)

theorem leafText_leaf_const (v : String) : (leaf v "Const").leafText = v.data :=
  leafText_leaf v _ (by decide)

theorem leafText_leaf_key (v : String) : (leaf v "WordsKey").leafText = v.data :=
  leafText_leaf v _ (by decide)

theorem leafText_leaf_sep (v : String) : (leaf v "Symbols_of_Separating").leafText = v.data :=
  leafText_leaf v _ (by decide)

theorem leafText_leaf_op (v : String) : (leaf v "Symbols_of_Operation").leafText = v.data :=
  leafText_leaf v _ (by decide)

theorem consumes_parseVarListLoop (input : List Char) : ∀ (fuel pos pos1 : Nat)
    (nodes : List TreeNode), parseVarListLoop input fuel pos = .ok (nodes, pos1) →
    Consumes input pos pos1 (leafTextOfList nodes) := by
  intro fuel
  induction fuel with
  | zero =>
    intro pos pos1 nodes h
    rcases parseVarListLoop_ok h with ⟨_, hn, hp⟩ | ⟨_, f, _, _, _, _, hf, _⟩
    · subst hn hp; exact Consumes.refl _ _
    · cases hf
  | succ fuel ih =>
    intro pos pos1 nodes h
    rcases parseVarListLoop_ok h with ⟨_, hn, hp⟩ | ⟨_, f, q, id, q1, rest, hf, e1, e2, e3, hn⟩
    · subst hn hp; exact Consumes.refl _ _
    · injection hf with hf
      subst hf hn
      have c1 := consumes_matchToken e1 (by decide)
      have c2 := (consumes_parseId e2).1
      have c3 := ih _ _ _ e3
      simpa [leafTextOfList_cons, leafText_leaf_sep, leafText_leaf_id] using
        (c1.trans c2).trans c3

theorem consumes_parseVarList {input : List Char} {pos pos1 : Nat} {t : TreeNode}
    (h : parseVarList input pos = .ok (t, pos1)) : Consumes input pos pos1 t.leafText := by
  obtain ⟨id, q, rest, e1, e2, ht⟩ := parseVarList_ok h
  subst ht
  have c1 := (consumes_parseId e1).1
  have c2 := consumes_skipWhitespace input q
  have c3 := consumes_parseVarListLoop input _ _ _ _ e2
  simpa [leafText_untagged, leafTextOfList_cons, leafText_leaf_id] using (c1.trans c2).trans c3

theorem consumes_parseType {input : List Char} {pos pos1 : Nat} {ty : String}
    (h : parseType input pos = .ok (ty, pos1)) : Consumes input pos pos1 ty.data := by
  have c1 := consumes_skipWhitespace input pos
  have c2 : Consumes input (skipWhitespace input pos) pos1 ty.data := by
    rcases parseType_ok h with ⟨hty, _, e⟩ | ⟨hty, _, _, e⟩ <;> subst hty <;>
      exact consumes_matchToken e (by decide)
  simpa using c1.trans c2

theorem consumes_parseDescr {input : List Char} {pos pos1 : Nat} {t : TreeNode}
    (h : parseDescr input pos = .ok (t, pos1)) : Consumes input pos pos1 t.leafText := by
  obtain ⟨vars, q, q1, ty, q2, e1, _, e2, e3, e4, ht⟩ := parseDescr_ok h
  subst ht
  have c1 := consumes_parseVarList e1
  have c2 := consumes_skipWhitespace input q
  have c3 := consumes_matchToken e2 (by decide)
  have c4 := consumes_parseType e3
  have c5 := consumes_matchToken e4 (by decide)
  simpa [leafText_untagged, leafTextOfList_cons, leafTextOfList_nil, leafText_leaf_sep,
    leafText_leaf_key] using (((c1.trans c2).trans c3).trans c4).trans c5

theorem consumes_parseDescrListLoop (input : List Char) : ∀ (fuel pos pos1 : Nat)
    (nodes : List TreeNode), parseDescrListLoop input fuel pos = .ok (nodes, pos1) →
    Consumes input pos pos1 (leafTextOfList nodes) := by
  intro fuel
  induction fuel with
  | zero =>
    intro pos pos1 nodes h
    rcases parseDescrListLoop_ok h with ⟨_, hn, hp⟩ | ⟨_, f, _, _, _, _, hf, _⟩
    · subst hn hp; exact Consumes.refl _ _
    · cases hf
  | succ fuel ih =>
    intro pos pos1 nodes h
    rcases parseDescrListLoop_ok h with ⟨_, hn, hp⟩ | ⟨_, f, q, d, q1, rest, hf, e1, e2, e3, hn⟩
    · subst hn hp; exact Consumes.refl _ _
    · injection hf with hf
      subst hf hn
      have c1 := consumes_matchToken e1 (by decide)
      have c2 := consumes_parseDescr e2
      have c3 := ih _ _ _ e3
      simpa [leafTextOfList_cons, leafText_leaf_key] using (c1.trans c2).trans c3

theorem consumes_parseDescrList {input : List Char} {pos pos1 : Nat} {t : TreeNode}
    (h : parseDescrList input pos = .ok (t, pos1)) : Consumes input pos pos1 t.leafText := by
  obtain ⟨d, q, rest, e1, e2, ht⟩ := parseDescrList_ok h
  subst ht
  have c1 := consumes_parseDescr e1
  have c2 := consumes_skipWhitespace input q
  have c3 := consumes_parseDescrListLoop input _ _ _ _ e2
  simpa [leafText_untagged, leafTextOfList_cons] using (c1.trans c2).trans c3

theorem consumes_parseDescriptions {input : List Char} {pos pos1 : Nat} {t : TreeNode}
    (h : parseDescriptions input pos = .ok (t, pos1)) : Consumes input pos pos1 t.leafText := by
  have c1 := consumes_skipWhitespace input pos
  rcases parseDescriptions_ok h with ⟨_, ht, hp⟩ | ⟨_, q, l, e1, e2, ht⟩
  · subst ht hp
    simpa [leafText_untagged, leafTextOfList_nil] using c1
  · subst ht
    have c2 := consumes_matchToken e1 (by decide)
    have c3 := consumes_parseDescrList e2
    simpa [leafText_untagged, leafTextOfList_cons, leafTextOfList_nil, leafText_leaf_key] using
      (c1.trans c2).trans c3

theorem consumes_sign {input : List Char} {pos : Nat}
    (hg : pos < input.length ∧ (charAt input pos = '+' ∨ charAt input pos = '-')) :
    Consumes input pos (pos + 1)
      (leaf (String.singleton (charAt input pos)) "Symbols_of_Operation").leafText := by
  have c := consumes_step hg.1
  have hk : isTokenChar (charAt input pos) = true := by
    rcases hg.2 with hc | hc <;> rw [hc] <;> decide
  rw [leafText_leaf_op]
  simpa [hk] using c

theorem consumes_numExpr (input : List Char) : ∀ fuel : Nat,
    (∀ (pos pos1 : Nat) (t : TreeNode), parseNumExpr input fuel pos = .ok (t, pos1) →
      Consumes input pos pos1 t.leafText) ∧
    (∀ (pos pos1 : Nat) (nodes : List TreeNode),
      parseNumExprLoop input fuel pos = .ok (nodes, pos1) →
      Consumes input pos pos1 (leafTextOfList nodes)) ∧
    (∀ (pos pos1 : Nat) (t : TreeNode), parseSimpleNumExpr input fuel pos = .ok (t, pos1) →
      Consumes input pos pos1 t.leafText) := by
  intro fuel
  induction fuel with
  | zero =>
    refine ⟨?_, ?_, ?_⟩
    · intro pos pos1 t h
      obtain ⟨f, _, _, _, hf, _⟩ := parseNumExpr_ok h
      cases hf
    · intro pos pos1 nodes h
      rcases parseNumExprLoop_ok h with ⟨_, hn, hp⟩ | ⟨_, f, _, _, _, hf, _⟩
      · subst hn hp; exact Consumes.refl _ _
      · cases hf
    · intro pos pos1 t h
      obtain ⟨f, hf, _⟩ := parseSimpleNumExpr_ok h
      cases hf
  | succ fuel ih =>
    obtain ⟨ihE, ihL, ihS⟩ := ih
    refine ⟨?_, ?_, ?_⟩
    · intro pos pos1 t h
      obtain ⟨f, s, q, rest, hf, e1, e2, ht⟩ := parseNumExpr_ok h
      injection hf with hf
      subst hf ht
      have c1 := ihS _ _ _ e1
      have c2 := consumes_skipWhitespace input q
      have c3 := ihL _ _ _ e2
      simpa [leafText_untagged, leafTextOfList_cons] using (c1.trans c2).trans c3
    · intro pos pos1 nodes h
      rcases parseNumExprLoop_ok h with ⟨_, hn, hp⟩ | ⟨hg, f, s, q, rest, hf, e1, e2, hn⟩
      · subst hn hp; exact Consumes.refl _ _
      · injection hf with hf
        subst hf hn
        have c1 := consumes_sign hg
        have c2 := ihS _ _ _ e1
        have c3 := ihL _ _ _ e2
        simpa [leafTextOfList_cons] using (c1.trans c2).trans c3
    · intro pos pos1 t h
      obtain ⟨f, hf, hcase⟩ := parseSimpleNumExpr_ok h
      injection hf with hf
      subst hf
      have c0 := consumes_skipWhitespace input pos
      rcases hcase with ⟨_, id, e, ht⟩ | ⟨_, _, n, e, ht⟩ | ⟨_, _, _, q, e, q1, e1, e2, e3, ht⟩
      · subst ht
        have c1 := (consumes_parseId e).1
        simpa [leafText_untagged, leafTextOfList_cons, leafTextOfList_nil, leafText_leaf_id]
          using c0.trans c1
      · subst ht
        have c1 := (consumes_parseNumber e).1
        simpa [leafText_untagged, leafTextOfList_cons, leafTextOfList_nil,
          leafText_leaf_const] using c0.trans c1
      · subst ht
        have c1 := consumes_matchToken e1 (by decide)
        have c2 := ihE _ _ _ e2
        have c3 := consumes_matchToken e3 (by decide)
        simpa [leafText_untagged, leafTextOfList_cons, leafTextOfList_nil, leafText_leaf_sep]
          using ((c0.trans c1).trans c2).trans c3

theorem consumes_parseOperand {input : List Char} {pos pos1 : Nat} {t : TreeNode}
    (h : parseOperand input pos = .ok (t, pos1)) : Consumes input pos pos1 t.leafText := by
  rcases parseOperand_ok h with ⟨_, s, e, ht⟩ | ⟨_, _, n, e, ht⟩ | ⟨_, _, e⟩
  · subst ht
    simpa [leafText_leaf_const] using (consumes_parseStringConst e).1
  · subst ht
    simpa [leafText_leaf_const] using (consumes_parseNumber e).1
  · exact (consumes_numExpr input _).1 _ _ _ e

theorem consumes_parseOp {input : List Char} {pos pos1 : Nat} {t : TreeNode}
    (h : parseOp input pos = .ok (t, pos1)) : Consumes input pos pos1 t.leafText := by
  obtain ⟨id, q, q1, v, q2, e1, e2, e3, hcase⟩ := parseOp_ok h
  have c1 := (consumes_parseId e1).1
  have c2 := consumes_matchToken e2 (by decide)
  have c3 := consumes_skipWhitespace input q1
  have c4 := consumes_parseOperand e3
  have c5 := consumes_skipWhitespace input q2
  rcases hcase with ⟨_, e4, ht⟩ | ⟨hg, w, q3, e4, e5, ht⟩
  · subst ht
    have c6 := consumes_matchToken e4 (by decide)
    simpa [leafText_untagged, leafTextOfList_cons, leafTextOfList_nil, leafText_leaf_sep,
      leafText_leaf_id, leafText_leaf_op] using
      ((((c1.trans c2).trans c3).trans c4).trans c5).trans c6
  · subst ht
    have c6 := consumes_sign hg
    have c7 := consumes_skipWhitespace input (skipWhitespace input q2 + 1)
    have c8 := consumes_parseOperand e4
    have c9 := consumes_matchToken e5 (by decide)
    rw [leafText_leaf_op] at c6
    simpa [leafText_untagged, leafTextOfList_cons, leafTextOfList_nil, leafText_leaf_sep,
      leafText_leaf_id, leafText_leaf_op] using
      (((((((c1.trans c2).trans c3).trans c4).trans c5).trans c6).trans c7).trans c8).trans c9

theorem consumes_parseOperatorsLoop (input : List Char) : ∀ (fuel pos pos1 : Nat)
    (nodes : List TreeNode), parseOperatorsLoop input fuel pos = .ok (nodes, pos1) →
    Consumes input pos pos1 (leafTextOfList nodes) := by
  intro fuel
  induction fuel with
  | zero =>
    intro pos pos1 nodes h
    obtain ⟨f, _, _, hf, _⟩ := parseOperatorsLoop_ok h
    cases hf
  | succ fuel ih =>
    intro pos pos1 nodes h
    obtain ⟨f, op, q, hf, e1, hcase⟩ := parseOperatorsLoop_ok h
    injection hf with hf
    subst hf
    have c1 := consumes_parseOp e1
    have c2 := consumes_skipWhitespace input q
    rcases hcase with ⟨_, hn, hp⟩ | ⟨_, rest, e2, hn⟩
    · subst hn hp
      simpa [leafTextOfList_cons, leafTextOfList_nil] using c1.trans c2
    · subst hn
      have c3 := ih _ _ _ e2
      simpa [leafTextOfList_cons] using (c1.trans c2).trans c3

theorem consumes_parseOperators {input : List Char} {pos pos1 : Nat} {t : TreeNode}
    (h : parseOperators input pos = .ok (t, pos1)) : Consumes input pos pos1 t.leafText := by
  obtain ⟨ops, e, ht⟩ := parseOperators_ok h
  subst ht
  simpa [leafText_untagged] using consumes_parseOperatorsLoop input _ _ _ _ e

theorem consumes_parseProcedure {input : List Char} {pos pos1 : Nat} {t : TreeNode}
    (h : parseProcedure input pos = .ok (t, pos1)) :
    ∃ id body, (∀ c ∈ id, isalpha c = true) ∧
      Consumes input pos pos1 ("procedure".data ++ id ++ (';' :: body)) ∧
      t.leafText = "procedure".data ++ id ++ body := by
  obtain ⟨p1, id, p2, p3, p4, descriptions, p5, operators, p6, e1, e2, e3, e4, e5, e6, e7, ht⟩ :=
    parseProcedure_ok h
  subst ht
  have c1 := consumes_matchToken e1 (by decide)
  have c2 := consumes_parseId e2
  have c3 := consumes_matchToken e3 (by decide)
  have c4 := consumes_matchToken e4 (by decide)
  have c5 := consumes_parseDescriptions e5
  have c6 := consumes_parseOperators e6
  have c7 := consumes_matchToken e7 (by decide)
  refine ⟨id, "begin".data ++ (descriptions.leafText ++ (operators.leafText ++ "end".data)),
    c2.2, ?_, ?_⟩
  · have := (((((c1.trans c2.1).trans c3).trans c4).trans c5).trans c6).trans c7
    simpa using this
  · simp [leafText_parent, leafTextOfList_cons, leafTextOfList_nil, leafText_leaf_key,
      leafText_leaf_id]

theorem stripped_of_parse {input : List Char} {t : TreeNode} (h : parse input = .ok t) :
    ∃ id body, (∀ c ∈ id, isalpha c = true) ∧
      stripped input = "procedure".data ++ id ++ (';' :: body) ∧
      t.leafText = "procedure".data ++ id ++ body := by
  obtain ⟨pos1, e, hlt⟩ := parse_ok h
  obtain ⟨id, body, hid, hc, ht⟩ := consumes_parseProcedure e
  refine ⟨id, body, hid, ?_, ht⟩
  rw [← hc.2]
  unfold stripped substr
  rw [List.drop_zero, Nat.sub_zero, List.take_of_length_le (Nat.le_of_not_lt hlt)]

/-! ## A successful call does not depend on text appended after what it read -/

theorem charAt_append {s : List Char} (t : List Char) {p : Nat} (h : p < s.length) :
    charAt (s ++ t) p = charAt s p := by
  unfold charAt
  exact List.getD_append s t _ p h

theorem substr_append {s : List Char} (t : List Char) {p n : Nat} (h : p + n ≤ s.length) :
    substr (s ++ t) p n = substr s p n := by
  unfold substr
  rw [List.drop_append_of_le_length (by omega), List.take_append_of_le_length]
  rw [List.length_drop]
  omega

theorem bound_of_substr {s : List Char} {p n : Nat} {a : List Char} (h : substr s p n = a)
    (hn : a.length = n) (hpos : 0 < n) : p + n ≤ s.length := by
  have := congrArg List.length h
  unfold substr at this
  rw [List.length_take, List.length_drop, hn] at this
  omega

theorem takeWhile_append_of_lt (q : Char → Bool) (l t : List Char)
    (h : (l.takeWhile q).length < l.length) : (l ++ t).takeWhile q = l.takeWhile q := by
  induction l with
  | nil => simp at h
  | cons a l ih =>
    by_cases ha : q a = true
    · simp only [List.cons_append, List.takeWhile_cons, ha, if_true, List.length_cons] at h ⊢
      rw [ih (by omega)]
    · simp [List.takeWhile_cons, ha]

theorem skipWhitespace_append {s : List Char} (t : List Char) {p : Nat}
    (h : skipWhitespace s p < s.length) : skipWhitespace (s ++ t) p = skipWhitespace s p := by
  rw [skipWhitespace_eq] at h
  rw [skipWhitespace_eq, skipWhitespace_eq, List.drop_append_of_le_length (by omega),
    takeWhile_append_of_lt]
  rw [List.length_drop]
  omega

theorem maximalRun_eq (s : List Char) (p : Nat) :
    maximalRun s p = (s.drop (skipWhitespace s p)).takeWhile (fun c => !isDelimiter c) := by
  rw [drop_skipWhitespace]; rfl

theorem maximalRun_append {s : List Char} (t : List Char) {p : Nat}
    (h : skipWhitespace s p + (maximalRun s p).length < s.length) :
    maximalRun (s ++ t) p = maximalRun s p := by
  have hs : skipWhitespace (s ++ t) p = skipWhitespace s p :=
    skipWhitespace_append t (by omega)
  rw [maximalRun_eq, maximalRun_eq, hs, List.drop_append_of_le_length (by omega)]
  apply takeWhile_append_of_lt
  rw [maximalRun_eq] at h
  rw [List.length_drop]
  omega

theorem matchToken_append {s : List Char} (t : List Char) {p p1 : Nat} {token : String}
    (h : matchToken s p token = .ok p1) (hpos : 0 < token.length) :
    matchToken (s ++ t) p token = .ok p1 := by
  obtain ⟨hsub, hp⟩ := matchToken_ok h
  have hb := bound_of_substr hsub rfl hpos
  unfold matchToken
  simp only
  rw [skipWhitespace_append t (by omega), substr_append t hb, if_pos hsub, hp]

theorem le_of_matchToken {s : List Char} {p p1 : Nat} {token : String}
    (h : matchToken s p token = .ok p1) (hpos : 0 < token.length) :
    p + token.length ≤ p1 ∧ p1 ≤ s.length := by
  obtain ⟨hsub, hp⟩ := matchToken_ok h
  have hb := bound_of_substr hsub rfl hpos
  have := le_skipWhitespace s p
  omega

theorem parseId_append {s : List Char} (t : List Char) {p p1 : Nat} {lexeme : List Char}
    (h : parseId s p = .ok (lexeme, p1)) (hlt : p1 < s.length) :
    parseId (s ++ t) p = .ok (lexeme, p1) := by
  obtain ⟨hall, hrun, hp, _⟩ := parseId_ok h
  rw [hrun] at hp hall
  have hm := maximalRun_append (s := s) t (p := p) (by omega)
  rw [parseId_eq, hm, if_pos hall, skipWhitespace_append t (by omega), ← hp, ← hrun]

theorem parseNumber_append {s : List Char} (t : List Char) {p p1 : Nat} {lexeme : List Char}
    (h : parseNumber s p = .ok (lexeme, p1)) (hlt : p1 < s.length) :
    parseNumber (s ++ t) p = .ok (lexeme, p1) := by
  obtain ⟨hall, hrun, hp, _⟩ := parseNumber_ok h
  rw [hrun] at hp hall
  have hm := maximalRun_append (s := s) t (p := p) (by omega)
  rw [parseNumber_eq, hm, if_pos hall, skipWhitespace_append t (by omega), ← hp, ← hrun]

theorem stringConstLoop_append (s t : List Char) : ∀ (fuel fuel1 pos : Nat)
    (acc result : List Char) (pos1 : Nat),
    stringConstLoop s fuel pos acc = .ok (result, pos1) → pos1 < s.length →
    fuel ≤ fuel1 → stringConstLoop (s ++ t) fuel1 pos acc = .ok (result, pos1) := by
  have hstop : ∀ (fuel1 pos : Nat) (acc : List Char),
      ¬ (pos < s.length ∧ charAt s pos ≠ '"') → pos < s.length →
      stringConstLoop (s ++ t) fuel1 pos acc = .ok (acc, pos) := by
    intro fuel1 pos acc hg hlt
    have hg2 : ¬ (pos < (s ++ t).length ∧ charAt (s ++ t) pos ≠ '"') := by
      rw [charAt_append t hlt]
      exact fun hc => hg ⟨hlt, hc.2⟩
    cases fuel1 with
    | zero => rw [stringConstLoop, if_neg hg2]
    | succ k => rw [stringConstLoop, if_neg hg2]
  intro fuel
  induction fuel with
  | zero =>
    intro fuel1 pos acc result pos1 h hlt _
    rw [stringConstLoop] at h
    split at h
    · cases h
    · rename_i hg
      injection h with h
      injection h with h1 h2
      subst h1 h2
      exact hstop _ _ _ hg hlt
  | succ fuel ih =>
    intro fuel1 pos acc result pos1 h hlt hf
    rw [stringConstLoop] at h
    split at h
    · rename_i hg
      obtain ⟨k, hk⟩ : ∃ k, fuel1 = k + 1 := ⟨fuel1 - 1, by omega⟩
      subst hk
      have hg2 : pos < (s ++ t).length ∧ charAt (s ++ t) pos ≠ '"' := by
        rw [charAt_append t hg.1]
        exact ⟨Nat.lt_of_lt_of_le hg.1 (by rw [List.length_append]; omega), hg.2⟩
      rw [stringConstLoop, if_pos hg2, charAt_append t hg.1]
      split at h
      · rename_i hc
        rw [if_pos hc]
        exact ih _ _ _ _ _ h hlt (by omega)
      · cases h
    · rename_i hg
      injection h with h
      injection h with h1 h2
      subst h1 h2
      exact hstop _ _ _ hg hlt

theorem parseStringConst_append {s : List Char} (t : List Char) {p p1 : Nat}
    {text : List Char} (h : parseStringConst s p = .ok (text, p1)) :
    parseStringConst (s ++ t) p = .ok (text, p1) ∧ p1 ≤ s.length := by
  unfold parseStringConst at h
  simp only at h
  split at h
  · rename_i hq
    split at h
    · cases h
    · rename_i result pos2 hloop
      split at h
      · rename_i hq2
        injection h with h
        injection h with h1 h2
        subst h1 h2
        refine ⟨?_, hq2.1⟩
        have hlen : (s ++ t).length = s.length + t.length := List.length_append s t
        have hs := skipWhitespace_append t hq.1
        unfold parseStringConst
        simp only [hs]
        rw [charAt_append t hq.1, if_pos ⟨by omega, hq.2⟩,
          stringConstLoop_append s t _ _ _ _ _ _ hloop hq2.1 (by omega)]
        simp only
        rw [charAt_append t hq2.1, if_pos ⟨by omega, hq2.2⟩]
      · cases h
  · cases h

theorem length_le_append (s t : List Char) : s.length ≤ (s ++ t).length := by
  rw [List.length_append]; omega

theorem parseVarListLoop_append (s t : List Char) : ∀ (fuel fuel1 pos pos1 : Nat)
    (nodes : List TreeNode), parseVarListLoop s fuel pos = .ok (nodes, pos1) →
    pos1 < s.length → fuel ≤ fuel1 → parseVarListLoop (s ++ t) fuel1 pos = .ok (nodes, pos1) := by
  intro fuel
  induction fuel with
  | zero =>
    intro fuel1 pos pos1 nodes h hlt _
    rcases parseVarListLoop_ok h with ⟨hg, hn, hp⟩ | ⟨_, f, _, _, _, _, hf, _⟩
    · subst hn hp
      have hg2 : ¬ (pos1 < (s ++ t).length ∧ charAt (s ++ t) pos1 = ',') := by
        rw [charAt_append t hlt]
        exact fun hc => hg ⟨hlt, hc.2⟩
      cases fuel1 with
      | zero => rw [parseVarListLoop, if_neg hg2]
      | succ k => rw [parseVarListLoop, if_neg hg2]
    · cases hf
  | succ fuel ih =>
    intro fuel1 pos pos1 nodes h hlt hle
    rcases parseVarListLoop_ok h with ⟨hg, hn, hp⟩ | ⟨hg, f, q, id, q1, rest, hf, e1, e2, e3, hn⟩
    · subst hn hp
      have hg2 : ¬ (pos1 < (s ++ t).length ∧ charAt (s ++ t) pos1 = ',') := by
        rw [charAt_append t hlt]
        exact fun hc => hg ⟨hlt, hc.2⟩
      cases fuel1 with
      | zero => rw [parseVarListLoop, if_neg hg2]
      | succ k => rw [parseVarListLoop, if_neg hg2]
    · injection hf with hf
      subst hf hn
      obtain ⟨k, hk⟩ : ∃ k, fuel1 = k + 1 := ⟨fuel1 - 1, by omega⟩
      subst hk
      have hq1 : q1 < s.length := by
        have := (consumes_parseVarListLoop s _ _ _ _ e3).1
        omega
      have hg2 : pos < (s ++ t).length ∧ charAt (s ++ t) pos = ',' := by
        rw [charAt_append t hg.1]
        exact ⟨Nat.lt_of_lt_of_le hg.1 (length_le_append s t), hg.2⟩
      rw [parseVarListLoop, if_pos hg2, matchToken_append t e1 (by decide)]
      simp only
      rw [parseId_append t e2 hq1]
      simp only
      rw [ih _ _ _ _ e3 hlt (by omega)]

theorem parseVarList_append {s : List Char} (t : List Char) {pos pos1 : Nat} {n : TreeNode}
    (h : parseVarList s pos = .ok (n, pos1)) (hlt : pos1 < s.length) :
    parseVarList (s ++ t) pos = .ok (n, pos1) := by
  obtain ⟨id, q, rest, e1, e2, hn⟩ := parseVarList_ok h
  subst hn
  have h1 := (consumes_parseVarListLoop s _ _ _ _ e2).1
  have h2 := le_skipWhitespace s q
  unfold parseVarList
  rw [parseId_append t e1 (by omega)]
  simp only
  rw [skipWhitespace_append t (by omega),
    parseVarListLoop_append s t _ _ _ _ _ e2 hlt (by rw [List.length_append]; omega)]

theorem parseType_append {s : List Char} (t : List Char) {pos pos1 : Nat} {ty : String}
    (h : parseType s pos = .ok (ty, pos1)) (hlt : pos1 + 3 ≤ s.length) :
    parseType (s ++ t) pos = .ok (ty, pos1) := by
  rcases parseType_ok h with ⟨hty, hi, e⟩ | ⟨hty, hni, hc, e⟩
  · subst hty
    have hb := bound_of_substr hi rfl (by decide)
    unfold parseType
    simp only
    rw [skipWhitespace_append t (by omega), substr_append t hb, if_pos hi,
      matchToken_append t e (by decide)]
  · subst hty
    have hb := le_of_matchToken e (by decide)
    have hl : "char".length = 4 := by decide
    rw [hl] at hb
    have h2 := le_skipWhitespace s pos
    have h3 := le_skipWhitespace s (skipWhitespace s pos)
    have hq : skipWhitespace s pos + 4 ≤ pos1 := by
      obtain ⟨_, hp⟩ := matchToken_ok e
      rw [hl] at hp
      omega
    unfold parseType
    simp only
    rw [skipWhitespace_append t (by omega), substr_append t (by omega), if_neg hni,
      substr_append t (by omega), if_pos hc, matchToken_append t e (by decide)]

theorem parseDescr_append {s : List Char} (t : List Char) {pos pos1 : Nat} {n : TreeNode}
    (h : parseDescr s pos = .ok (n, pos1)) (hlt : pos1 + 2 ≤ s.length) :
    parseDescr (s ++ t) pos = .ok (n, pos1) := by
  obtain ⟨vars, q, q1, ty, q2, e1, hc, e2, e3, e4, hn⟩ := parseDescr_ok h
  subst hn
  have b1 := le_skipWhitespace s q
  have b2 := le_of_matchToken e2 (by decide)
  have b3 := (consumes_parseType e3).1
  have b4 := le_of_matchToken e4 (by decide)
  have hl1 : ":".length = 1 := by decide
  have hl2 : ";".length = 1 := by decide
  rw [hl1] at b2
  rw [hl2] at b4
  unfold parseDescr
  rw [parseVarList_append t e1 (by omega)]
  simp only
  rw [skipWhitespace_append t (by omega), charAt_append t (by omega), if_pos hc,
    matchToken_append t e2 (by decide)]
  simp only
  rw [parseType_append t e3 (by omega)]
  simp only
  rw [matchToken_append t e4 (by decide)]

theorem parseDescrListLoop_append (s t : List Char) : ∀ (fuel fuel1 pos pos1 : Nat)
    (nodes : List TreeNode), parseDescrListLoop s fuel pos = .ok (nodes, pos1) →
    pos1 + 3 ≤ s.length → fuel ≤ fuel1 →
    parseDescrListLoop (s ++ t) fuel1 pos = .ok (nodes, pos1) := by
  intro fuel
  induction fuel with
  | zero =>
    intro fuel1 pos pos1 nodes h hlt _
    rcases parseDescrListLoop_ok h with ⟨hg, hn, hp⟩ | ⟨_, f, _, _, _, _, hf, _⟩
    · subst hn hp
      have hg2 : ¬ (pos1 < (s ++ t).length ∧ substr (s ++ t) pos1 3 = "var".data) := by
        rw [substr_append t hlt]
        exact fun hc => hg ⟨by omega, hc.2⟩
      cases fuel1 with
      | zero => rw [parseDescrListLoop, if_neg hg2]
      | succ k => rw [parseDescrListLoop, if_neg hg2]
    · cases hf
  | succ fuel ih =>
    intro fuel1 pos pos1 nodes h hlt hle
    rcases parseDescrListLoop_ok h with ⟨hg, hn, hp⟩ | ⟨hg, f, q, d, q1, rest, hf, e1, e2, e3, hn⟩
    · subst hn hp
      have hg2 : ¬ (pos1 < (s ++ t).length ∧ substr (s ++ t) pos1 3 = "var".data) := by
        rw [substr_append t hlt]
        exact fun hc => hg ⟨by omega, hc.2⟩
      cases fuel1 with
      | zero => rw [parseDescrListLoop, if_neg hg2]
      | succ k => rw [parseDescrListLoop, if_neg hg2]
    · injection hf with hf
      subst hf hn
      obtain ⟨k, hk⟩ : ∃ k, fuel1 = k + 1 := ⟨fuel1 - 1, by omega⟩
      subst hk
      have hq1 := (consumes_parseDescrListLoop s _ _ _ _ e3).1
      have hb := bound_of_substr hg.2 rfl (by decide)
      have hg2 : pos < (s ++ t).length ∧ substr (s ++ t) pos 3 = "var".data := by
        rw [substr_append t hb]
        exact ⟨Nat.lt_of_lt_of_le hg.1 (length_le_append s t), hg.2⟩
      rw [parseDescrListLoop, if_pos hg2, matchToken_append t e1 (by decide)]
      simp only
      rw [parseDescr_append t e2 (by omega)]
      simp only
      rw [ih _ _ _ _ e3 hlt (by omega)]

theorem parseDescrList_append {s : List Char} (t : List Char) {pos pos1 : Nat} {n : TreeNode}
    (h : parseDescrList s pos = .ok (n, pos1)) (hlt : pos1 + 3 ≤ s.length) :
    parseDescrList (s ++ t) pos = .ok (n, pos1) := by
  obtain ⟨d, q, rest, e1, e2, hn⟩ := parseDescrList_ok h
  subst hn
  have h1 := (consumes_parseDescrListLoop s _ _ _ _ e2).1
  have h2 := le_skipWhitespace s q
  unfold parseDescrList
  rw [parseDescr_append t e1 (by omega)]
  simp only
  rw [skipWhitespace_append t (by omega),
    parseDescrListLoop_append s t _ _ _ _ _ e2 hlt (by rw [List.length_append]; omega)]

theorem parseDescriptions_append {s : List Char} (t : List Char) {pos pos1 : Nat}
    {n : TreeNode} (h : parseDescriptions s pos = .ok (n, pos1)) (hlt : pos1 + 3 ≤ s.length) :
    parseDescriptions (s ++ t) pos = .ok (n, pos1) := by
  rcases parseDescriptions_ok h with ⟨hv, hn, hp⟩ | ⟨hv, q, l, e1, e2, hn⟩
  · subst hn hp
    unfold parseDescriptions
    simp only
    rw [skipWhitespace_append t (by omega), substr_append t hlt, if_neg hv]
  · subst hn
    have hb := bound_of_substr hv rfl (by decide)
    unfold parseDescriptions
    simp only
    rw [skipWhitespace_append t (by omega), substr_append t hb, if_pos hv,
      matchToken_append t e1 (by decide)]
    simp only
    rw [parseDescrList_append t e2 hlt]

theorem numExpr_append (s t : List Char) : ∀ fuel : Nat,
    (∀ (fuel1 pos pos1 : Nat) (n : TreeNode), parseNumExpr s fuel pos = .ok (n, pos1) →
      pos1 < s.length → fuel ≤ fuel1 → parseNumExpr (s ++ t) fuel1 pos = .ok (n, pos1)) ∧
    (∀ (fuel1 pos pos1 : Nat) (nodes : List TreeNode),
      parseNumExprLoop s fuel pos = .ok (nodes, pos1) → pos1 < s.length → fuel ≤ fuel1 →
      parseNumExprLoop (s ++ t) fuel1 pos = .ok (nodes, pos1)) ∧
    (∀ (fuel1 pos pos1 : Nat) (n : TreeNode), parseSimpleNumExpr s fuel pos = .ok (n, pos1) →
      pos1 < s.length → fuel ≤ fuel1 →
      parseSimpleNumExpr (s ++ t) fuel1 pos = .ok (n, pos1)) := by
  have hloop0 : ∀ (fuel1 pos : Nat),
      ¬ (pos < s.length ∧ (charAt s pos = '+' ∨ charAt s pos = '-')) → pos < s.length →
      parseNumExprLoop (s ++ t) fuel1 pos = .ok ([], pos) := by
    intro fuel1 pos hg hlt
    have hg2 : ¬ (pos < (s ++ t).length ∧
        (charAt (s ++ t) pos = '+' ∨ charAt (s ++ t) pos = '-')) := by
      rw [charAt_append t hlt]
      exact fun hc => hg ⟨hlt, hc.2⟩
    cases fuel1 with
    | zero => rw [parseNumExprLoop, if_neg hg2]
    | succ k => rw [parseNumExprLoop, if_neg hg2]
  intro fuel
  induction fuel with
  | zero =>
    refine ⟨?_, ?_, ?_⟩
    · intro fuel1 pos pos1 n h
      obtain ⟨f, _, _, _, hf, _⟩ := parseNumExpr_ok h
      cases hf
    · intro fuel1 pos pos1 nodes h hlt _
      rcases parseNumExprLoop_ok h with ⟨hg, hn, hp⟩ | ⟨_, f, _, _, _, hf, _⟩
      · subst hn hp; exact hloop0 _ _ hg hlt
      · cases hf
    · intro fuel1 pos pos1 n h
      obtain ⟨f, hf, _⟩ := parseSimpleNumExpr_ok h
      cases hf
  | succ fuel ih =>
    obtain ⟨ihE, ihL, ihS⟩ := ih
    refine ⟨?_, ?_, ?_⟩
    · intro fuel1 pos pos1 n h hlt hle
      obtain ⟨f, a, q, rest, hf, e1, e2, hn⟩ := parseNumExpr_ok h
      injection hf with hf
      subst hf hn
      obtain ⟨k, hk⟩ : ∃ k, fuel1 = k + 1 := ⟨fuel1 - 1, by omega⟩
      subst hk
      have b1 := le_skipWhitespace s q
      have b2 := ((consumes_numExpr s _).2.1 _ _ _ e2).1
      rw [parseNumExpr, ihS _ _ _ _ e1 (by omega) (by omega)]
      simp only
      rw [skipWhitespace_append t (by omega), ihL _ _ _ _ e2 hlt (by omega)]
    · intro fuel1 pos pos1 nodes h hlt hle
      rcases parseNumExprLoop_ok h with ⟨hg, hn, hp⟩ | ⟨hg, f, a, q, rest, hf, e1, e2, hn⟩
      · subst hn hp; exact hloop0 _ _ hg hlt
      · injection hf with hf
        subst hf hn
        obtain ⟨k, hk⟩ : ∃ k, fuel1 = k + 1 := ⟨fuel1 - 1, by omega⟩
        subst hk
        have b2 := ((consumes_numExpr s _).2.1 _ _ _ e2).1
        have hg2 : pos < (s ++ t).length ∧
            (charAt (s ++ t) pos = '+' ∨ charAt (s ++ t) pos = '-') := by
          rw [charAt_append t hg.1]
          exact ⟨Nat.lt_of_lt_of_le hg.1 (length_le_append s t), hg.2⟩
        rw [parseNumExprLoop, if_pos hg2, ihS _ _ _ _ e1 (by omega) (by omega)]
        simp only
        rw [ihL _ _ _ _ e2 hlt (by omega), charAt_append t hg.1]
    · intro fuel1 pos pos1 n h hlt hle
      obtain ⟨f, hf, hcase⟩ := parseSimpleNumExpr_ok h
      injection hf with hf
      subst hf
      obtain ⟨k, hk⟩ : ∃ k, fuel1 = k + 1 := ⟨fuel1 - 1, by omega⟩
      subst hk
      rcases hcase with ⟨ha, id, e, hn⟩ | ⟨ha, hd, m, e, hn⟩ |
        ⟨ha, hd, hp, q, a, q1, e1, e2, e3, hn⟩
      · subst hn
        have b := (consumes_parseId e).1.1
        rw [parseSimpleNumExpr]
        rw [skipWhitespace_append t (by omega), charAt_append t (by omega), if_pos ha,
          parseId_append t e hlt]
      · subst hn
        have b := (consumes_parseNumber e).1.1
        rw [parseSimpleNumExpr]
        rw [skipWhitespace_append t (by omega), charAt_append t (by omega),
          if_neg (by simp [ha]), if_pos hd, parseNumber_append t e hlt]
      · subst hn
        have b1 := le_of_matchToken e1 (by decide)
        have b3 := le_of_matchToken e3 (by decide)
        have b2 := ((consumes_numExpr s _).1 _ _ _ e2).1
        have hl1 : "(".length = 1 := by decide
        have hl2 : ")".length = 1 := by decide
        rw [hl1] at b1
        rw [hl2] at b3
        rw [parseSimpleNumExpr]
        rw [skipWhitespace_append t (by omega), charAt_append t (by omega),
          if_neg (by simp [ha]), if_neg (by simp [hd]), if_pos hp,
          matchToken_append t e1 (by decide)]
        simp only
        rw [ihE _ _ _ _ e2 (by omega) (by omega)]
        simp only
        rw [matchToken_append t e3 (by decide)]

theorem parseOperand_append {s : List Char} (t : List Char) {pos pos1 : Nat} {n : TreeNode}
    (h : parseOperand s pos = .ok (n, pos1)) (hlt : pos1 < s.length) :
    parseOperand (s ++ t) pos = .ok (n, pos1) := by
  have b := (consumes_parseOperand h).1
  rcases parseOperand_ok h with ⟨hq, a, e, hn⟩ | ⟨hq, hd, m, e, hn⟩ | ⟨hq, hd, e⟩
  · subst hn
    unfold parseOperand
    rw [charAt_append t (by omega), if_pos hq, (parseStringConst_append t e).1]
  · subst hn
    unfold parseOperand
    rw [charAt_append t (by omega), if_neg hq, if_pos hd, parseNumber_append t e hlt]
  · unfold parseOperand
    rw [charAt_append t (by omega), if_neg hq, if_neg (by simp [hd])]
    exact (numExpr_append s t _).1 _ _ _ _ e hlt (by rw [List.length_append]; omega)

theorem parseOp_append {s : List Char} (t : List Char) {pos pos1 : Nat} {n : TreeNode}
    (h : parseOp s pos = .ok (n, pos1)) :
    parseOp (s ++ t) pos = .ok (n, pos1) ∧ pos1 ≤ s.length := by
  obtain ⟨id, q, q1, v, q2, e1, e2, e3, hcase⟩ := parseOp_ok h
  have b2 := le_of_matchToken e2 (by decide)
  have b3 := le_skipWhitespace s q1
  have b4 := (consumes_parseOperand e3).1
  have b5 := le_skipWhitespace s q2
  have hl1 : ":=".length = 2 := by decide
  have hl2 : ";".length = 1 := by decide
  rw [hl1] at b2
  rcases hcase with ⟨hg, e4, hn⟩ | ⟨hg, w, q3, e4, e5, hn⟩
  · subst hn
    have b6 := le_of_matchToken e4 (by decide)
    rw [hl2] at b6
    refine ⟨?_, b6.2⟩
    have hg2 : ¬ (skipWhitespace s q2 < (s ++ t).length ∧
        (charAt (s ++ t) (skipWhitespace s q2) = '+' ∨
          charAt (s ++ t) (skipWhitespace s q2) = '-')) := by
      rw [charAt_append t (by omega)]
      exact fun hc => hg ⟨by omega, hc.2⟩
    unfold parseOp
    rw [parseId_append t e1 (by omega)]
    simp only
    rw [matchToken_append t e2 (by decide)]
    simp only
    rw [skipWhitespace_append t (by omega), parseOperand_append t e3 (by omega)]
    simp only
    rw [skipWhitespace_append t (by omega), if_neg hg2, matchToken_append t e4 (by decide)]
  · subst hn
    have b6 := le_skipWhitespace s (skipWhitespace s q2 + 1)
    have b7 := (consumes_parseOperand e4).1
    have b8 := le_of_matchToken e5 (by decide)
    rw [hl2] at b8
    refine ⟨?_, b8.2⟩
    have hg2 : skipWhitespace s q2 < (s ++ t).length ∧
        (charAt (s ++ t) (skipWhitespace s q2) = '+' ∨
          charAt (s ++ t) (skipWhitespace s q2) = '-') := by
      rw [charAt_append t hg.1]
      exact ⟨Nat.lt_of_lt_of_le hg.1 (length_le_append s t), hg.2⟩
    unfold parseOp
    rw [parseId_append t e1 (by omega)]
    simp only
    rw [matchToken_append t e2 (by decide)]
    simp only
    rw [skipWhitespace_append t (by omega), parseOperand_append t e3 (by omega)]
    simp only
    rw [skipWhitespace_append t (by omega), if_pos hg2, skipWhitespace_append t (by omega),
      parseOperand_append t e4 (by omega)]
    simp only
    rw [matchToken_append t e5 (by decide), charAt_append t hg.1]

theorem parseOperatorsLoop_append (s t : List Char) : ∀ (fuel fuel1 pos pos1 : Nat)
    (nodes : List TreeNode), parseOperatorsLoop s fuel pos = .ok (nodes, pos1) →
    pos1 + 3 ≤ s.length → fuel ≤ fuel1 →
    parseOperatorsLoop (s ++ t) fuel1 pos = .ok (nodes, pos1) := by
  intro fuel
  induction fuel with
  | zero =>
    intro fuel1 pos pos1 nodes h
    obtain ⟨f, _, _, hf, _⟩ := parseOperatorsLoop_ok h
    cases hf
  | succ fuel ih =>
    intro fuel1 pos pos1 nodes h hlt hle
    obtain ⟨f, op, q, hf, e1, hcase⟩ := parseOperatorsLoop_ok h
    injection hf with hf
    subst hf
    obtain ⟨k, hk⟩ : ∃ k, fuel1 = k + 1 := ⟨fuel1 - 1, by omega⟩
    subst hk
    rcases hcase with ⟨hg, hn, hp⟩ | ⟨hg, rest, e2, hn⟩
    · subst hn hp
      have hg2 : ¬ (skipWhitespace s q < (s ++ t).length ∧
          substr (s ++ t) (skipWhitespace s q) 3 ≠ "end".data) := by
        rw [substr_append t hlt]
        exact fun hc => hg ⟨by omega, hc.2⟩
      rw [parseOperatorsLoop, (parseOp_append t e1).1]
      simp only
      rw [skipWhitespace_append t (by omega), if_neg hg2]
    · subst hn
      have b := (consumes_parseOperatorsLoop s _ _ _ _ e2).1
      have hg2 : skipWhitespace s q < (s ++ t).length ∧
          substr (s ++ t) (skipWhitespace s q) 3 ≠ "end".data := by
        rw [substr_append t (by omega)]
        exact ⟨Nat.lt_of_lt_of_le hg.1 (length_le_append s t), hg.2⟩
      rw [parseOperatorsLoop, (parseOp_append t e1).1]
      simp only
      rw [skipWhitespace_append t (by omega), if_pos hg2, ih _ _ _ _ e2 hlt (by omega)]

theorem parseOperators_append {s : List Char} (t : List Char) {pos pos1 : Nat} {n : TreeNode}
    (h : parseOperators s pos = .ok (n, pos1)) (hlt : pos1 + 3 ≤ s.length) :
    parseOperators (s ++ t) pos = .ok (n, pos1) := by
  obtain ⟨ops, e, hn⟩ := parseOperators_ok h
  subst hn
  unfold parseOperators
  rw [parseOperatorsLoop_append s t _ _ _ _ _ e hlt (by rw [List.length_append]; omega)]

theorem parseProcedure_append {s : List Char} (t : List Char) {pos pos1 : Nat} {n : TreeNode}
    (h : parseProcedure s pos = .ok (n, pos1)) :
    parseProcedure (s ++ t) pos = .ok (n, pos1) ∧ pos1 ≤ s.length := by
  obtain ⟨p1, id, p2, p3, p4, descriptions, p5, operators, p6, e1, e2, e3, e4, e5, e6, e7, hn⟩ :=
    parseProcedure_ok h
  subst hn
  have b3 := le_of_matchToken e3 (by decide)
  have b4 := le_of_matchToken e4 (by decide)
  have b5 := (consumes_parseDescriptions e5).1
  have b6 := (consumes_parseOperators e6).1
  have b7 := le_of_matchToken e7 (by decide)
  have hl1 : ";".length = 1 := by decide
  have hl2 : "end".length = 3 := by decide
  rw [hl1] at b3
  rw [hl2] at b7
  refine ⟨?_, b7.2⟩
  unfold parseProcedure
  rw [matchToken_append t e1 (by decide)]
  simp only
  rw [parseId_append t e2 (by omega)]
  simp only
  rw [matchToken_append t e3 (by decide)]
  simp only
  rw [matchToken_append t e4 (by decide)]
  simp only
  rw [parseDescriptions_append t e5 (by omega)]
  simp only
  rw [parseOperators_append t e6 (by omega)]
  simp only
  rw [matchToken_append t e7 (by decide)]

/-! ## The scanner at a position of known surroundings -/

theorem skipWhitespaceLoop_spec (input : List Char) : ∀ fuel pos, input.length - pos ≤ fuel →
    pos ≤ skipWhitespaceLoop input fuel pos ∧
      (pos ≤ input.length → skipWhitespaceLoop input fuel pos ≤ input.length) ∧
      (∀ i, pos ≤ i → i < skipWhitespaceLoop input fuel pos →
        isspace (charAt input i) = true) ∧
      (skipWhitespaceLoop input fuel pos < input.length →
        isspace (charAt input (skipWhitespaceLoop input fuel pos)) = false) := by
  intro fuel
  induction fuel with
  | zero =>
    intro pos h
    rw [skipWhitespaceLoop]
    exact ⟨Nat.le_refl _, fun hp => hp, fun i h1 h2 => by omega, fun h1 => by omega⟩
  | succ fuel ih =>
    intro pos h
    rw [skipWhitespaceLoop]
    split
    · rename_i hg
      obtain ⟨h1, h2, h3, h4⟩ := ih (pos + 1) (by omega)
      refine ⟨by omega, fun _ => h2 (by omega), ?_, h4⟩
      intro i hi1 hi2
      by_cases hip : i = pos
      · subst hip; exact hg.2
      · exact h3 i (by omega) hi2
    · rename_i hg
      refine ⟨Nat.le_refl _, fun hp => hp, fun i h1 h2 => by omega, ?_⟩
      intro hlt
      cases hs : isspace (charAt input pos) with
      | false => rfl
      | true => exact absurd ⟨hlt, hs⟩ hg

theorem skipWhitespace_spec (input : List Char) (pos : Nat) :
    pos ≤ skipWhitespace input pos ∧
      (pos ≤ input.length → skipWhitespace input pos ≤ input.length) ∧
      (∀ i, pos ≤ i → i < skipWhitespace input pos → isspace (charAt input i) = true) ∧
      (skipWhitespace input pos < input.length →
        isspace (charAt input (skipWhitespace input pos)) = false) :=
  skipWhitespaceLoop_spec input _ pos (Nat.le_refl _)

theorem skipWhitespace_unique {input : List Char} {p q : Nat} (hpq : p ≤ q)
    (hq : q ≤ input.length)
    (hws : ∀ i, p ≤ i → i < q → isspace (charAt input i) = true)
    (hstop : q < input.length → isspace (charAt input q) = false) :
    skipWhitespace input p = q := by
  obtain ⟨h1, h2, h3, h4⟩ := skipWhitespace_spec input p
  have h2 := h2 (by omega)
  rcases Nat.lt_trichotomy (skipWhitespace input p) q with hlt | heq | hgt
  · have a := hws _ h1 hlt
    rw [h4 (by omega)] at a
    cases a
  · exact heq
  · have a := h3 q hpq hgt
    rw [hstop (by omega)] at a
    cases a

theorem stringConstLoop_fwd (input : List Char) : ∀ (text : List Char) (fuel pos : Nat)
    (acc rest : List Char), input.drop pos = text ++ '"' :: rest →
    (∀ c ∈ text, (isdigit c || isalpha c) = true) → text.length ≤ fuel →
    stringConstLoop input fuel pos acc = .ok (acc ++ text, pos + text.length) := by
  intro text
  induction text with
  | nil =>
    intro fuel pos acc rest h _ _
    have hc : charAt input pos = '"' := charAt_of_drop h
    have hg : ¬ (pos < input.length ∧ charAt input pos ≠ '"') := fun hg => hg.2 hc
    cases fuel with
    | zero => rw [stringConstLoop, if_neg hg]; simp
    | succ k => rw [stringConstLoop, if_neg hg]; simp
  | cons c text ih =>
    intro fuel pos acc rest h hall hf
    obtain ⟨k, hk⟩ : ∃ k, fuel = k + 1 := ⟨fuel - 1, by simp at hf; omega⟩
    subst hk
    have hc : charAt input pos = c := charAt_of_drop h
    have hlt : pos < input.length := lt_length_of_drop h
    have hal : (isdigit c || isalpha c) = true := hall c (by simp)
    have hq : c ≠ '"' := by
      intro hq; subst hq; revert hal; decide
    have hd : input.drop (pos + 1) = text ++ '"' :: rest := by
      have := drop_add_of_drop (a := [c]) (by simpa using h)
      simpa using this
    rw [stringConstLoop, hc, if_pos ⟨hlt, hq⟩, if_pos hal,
      ih k (pos + 1) (acc ++ [c]) rest hd (fun x hx => hall x (by simp [hx]))
        (by simp at hf; omega)]
    simp
    omega

theorem stringConstLoop_invalid (input : List Char) : ∀ (good : List Char) (fuel pos : Nat)
    (acc : List Char) (bad : Char) (rest : List Char),
    input.drop pos = good ++ bad :: rest →
    (∀ c ∈ good, (isdigit c || isalpha c) = true) → bad ≠ '"' →
    (isdigit bad || isalpha bad) = false → good.length < fuel →
    stringConstLoop input fuel pos acc = .error (.exit (pos + good.length)
      ("Invalid character \x27" ++ String.singleton bad ++ "\x27 in string constant")) := by
  intro good
  induction good with
  | nil =>
    intro fuel pos acc bad rest h _ hq hb hf
    obtain ⟨k, hk⟩ : ∃ k, fuel = k + 1 := ⟨fuel - 1, by simp at hf; omega⟩
    subst hk
    have hc : charAt input pos = bad := charAt_of_drop h
    have hlt : pos < input.length := lt_length_of_drop h
    rw [stringConstLoop, hc, if_pos ⟨hlt, hq⟩, if_neg (by simp [hb])]
    rfl
  | cons c good ih =>
    intro fuel pos acc bad rest h hall hq hb hf
    obtain ⟨k, hk⟩ : ∃ k, fuel = k + 1 := ⟨fuel - 1, by simp at hf; omega⟩
    subst hk
    have hc : charAt input pos = c := charAt_of_drop h
    have hlt : pos < input.length := lt_length_of_drop h
    have hal : (isdigit c || isalpha c) = true := hall c (by simp)
    have hqc : c ≠ '"' := by
      intro hq; subst hq; revert hal; decide
    have hd : input.drop (pos + 1) = good ++ bad :: rest := by
      have := drop_add_of_drop (a := [c]) (by simpa using h)
      simpa using this
    rw [stringConstLoop, hc, if_pos ⟨hlt, hqc⟩, if_pos hal,
      ih k (pos + 1) (acc ++ [c]) bad rest hd (fun x hx => hall x (by simp [hx])) hq hb
        (by simp at hf; omega)]
    simp only [List.length_cons]
    have : pos + 1 + good.length = pos + (good.length + 1) := by omega
    rw [this]

theorem length_sub_of_drop {input : List Char} {pos : Nat} {l : List Char}
    (h : input.drop pos = l) : input.length - pos = l.length := by
  rw [← h, List.length_drop]

/-! ## The cursor stays between the start of a call and the end of the input -/

theorem InRange.mono {input : List Char} {pos q : Nat} {r : Option Nat}
    (h : InRange input q r) (hle : pos ≤ q) : InRange input pos r := by
  intro p hp
  have := h p hp
  omega

theorem inRange_some {input : List Char} {pos q : Nat} (h1 : pos ≤ q)
    (h2 : q ≤ input.length) : InRange input pos (some q) := by
  intro p hp
  injection hp with hp
  subst hp
  exact ⟨h1, h2⟩

theorem inRange_none (input : List Char) (pos : Nat) : InRange input pos none := by
  intro p hp
  cases hp

theorem skipWhitespace_le (input : List Char) (pos : Nat) (hp : pos ≤ input.length) :
    skipWhitespace input pos ≤ input.length :=
  (skipWhitespace_spec input pos).2.1 hp

theorem scanLexeme_bounds (input : List Char) (pos : Nat) (hp : pos ≤ input.length) :
    pos ≤ scanLexeme input pos ∧ scanLexeme input pos ≤ input.length := by
  rw [scanLexeme_eq]
  have h := (List.takeWhile_sublist (l := input.drop pos) (fun c => !isDelimiter c)).length_le
  rw [List.length_drop] at h
  omega

theorem inRange_matchToken (input : List Char) (pos : Nat) (token : String)
    (hp : pos ≤ input.length) :
    InRange input pos (endPosOfCursor (matchToken input pos token)) := by
  have h1 := le_skipWhitespace input pos
  have h2 := skipWhitespace_le input pos hp
  unfold matchToken
  simp only
  split
  · rename_i heq
    apply inRange_some (by omega)
    have := congrArg List.length heq
    unfold substr at this
    rw [List.length_take, List.length_drop] at this
    have hl : token.data.length = token.length := rfl
    omega
  · exact inRange_some h1 h2

theorem inRange_parseId (input : List Char) (pos : Nat) (hp : pos ≤ input.length) :
    InRange input pos (endPos (parseId input pos)) := by
  have h1 := le_skipWhitespace input pos
  have h2 := skipWhitespace_le input pos hp
  have h3 := scanLexeme_bounds input _ h2
  unfold parseId
  simp only
  split <;> exact inRange_some (by omega) h3.2

theorem inRange_parseNumber (input : List Char) (pos : Nat) (hp : pos ≤ input.length) :
    InRange input pos (endPos (parseNumber input pos)) := by
  have h1 := le_skipWhitespace input pos
  have h2 := skipWhitespace_le input pos hp
  have h3 := scanLexeme_bounds input _ h2
  unfold parseNumber
  simp only
  split <;> exact inRange_some (by omega) h3.2

theorem inRange_stringConstLoop (input : List Char) : ∀ (fuel pos : Nat) (acc : List Char),
    pos ≤ input.length → InRange input pos (endPos (stringConstLoop input fuel pos acc)) := by
  intro fuel
  induction fuel with
  | zero =>
    intro pos acc hp
    rw [stringConstLoop]
    split
    · exact inRange_none _ _
    · exact inRange_some (Nat.le_refl _) hp
  | succ fuel ih =>
    intro pos acc hp
    rw [stringConstLoop]
    split
    · rename_i hg
      split
      · exact (ih (pos + 1) _ (by omega)).mono (by omega)
      · exact inRange_some (Nat.le_refl _) hp
    · exact inRange_some (Nat.le_refl _) hp

theorem inRange_parseStringConst (input : List Char) (pos : Nat) (hp : pos ≤ input.length) :
    InRange input pos (endPos (parseStringConst input pos)) := by
  have h1 := le_skipWhitespace input pos
  have h2 := skipWhitespace_le input pos hp
  unfold parseStringConst
  simp only
  split
  · rename_i hg
    have h3 := inRange_stringConstLoop input (input.length - (skipWhitespace input pos + 1))
      (skipWhitespace input pos + 1) [] (by omega)
    split
    · rename_i e heq
      rw [heq] at h3
      exact h3.mono (by omega)
    · rename_i result q heq
      rw [heq] at h3
      obtain ⟨b1, b2⟩ := h3 q rfl
      split
      · rename_i hg2
        exact inRange_some (by omega) (by omega)
      · exact inRange_some (by omega) b2
  · exact inRange_some h1 h2

theorem inRange_parseVarListLoop (input : List Char) : ∀ (fuel pos : Nat),
    pos ≤ input.length → InRange input pos (endPos (parseVarListLoop input fuel pos)) := by
  intro fuel
  induction fuel with
  | zero =>
    intro pos hp
    rw [parseVarListLoop]
    split
    · exact inRange_none _ _
    · exact inRange_some (Nat.le_refl _) hp
  | succ fuel ih =>
    intro pos hp
    rw [parseVarListLoop]
    split
    · have h1 := inRange_matchToken input pos "," hp
      split
      · rename_i e heq
        rw [heq] at h1
        exact h1
      · rename_i q heq
        rw [heq] at h1
        obtain ⟨b1, b2⟩ := h1 q rfl
        have h2 := inRange_parseId input q b2
        split
        · rename_i e heq2
          rw [heq2] at h2
          exact h2.mono b1
        · rename_i id q1 heq2
          rw [heq2] at h2
          obtain ⟨b3, b4⟩ := h2 q1 rfl
          have h3 := ih q1 b4
          split
          · rename_i e heq3
            rw [heq3] at h3
            exact h3.mono (by omega)
          · rename_i rest q2 heq3
            rw [heq3] at h3
            obtain ⟨b5, b6⟩ := h3 q2 rfl
            exact inRange_some (by omega) b6
    · exact inRange_some (Nat.le_refl _) hp

theorem inRange_parseVarList (input : List Char) (pos : Nat) (hp : pos ≤ input.length) :
    InRange input pos (endPos (parseVarList input pos)) := by
  have h1 := inRange_parseId input pos hp
  unfold parseVarList
  split
  · rename_i e heq
    rw [heq] at h1
    exact h1
  · rename_i id q heq
    rw [heq] at h1
    obtain ⟨b1, b2⟩ := h1 q rfl
    have s1 := le_skipWhitespace input q
    have s2 := skipWhitespace_le input q b2
    have h2 := inRange_parseVarListLoop input (input.length - skipWhitespace input q)
      (skipWhitespace input q) s2
    simp only
    split
    · rename_i e heq2
      rw [heq2] at h2
      exact h2.mono (by omega)
    · rename_i rest q1 heq2
      rw [heq2] at h2
      obtain ⟨b3, b4⟩ := h2 q1 rfl
      exact inRange_some (by omega) b4

theorem inRange_parseType (input : List Char) (pos : Nat) (hp : pos ≤ input.length) :
    InRange input pos (endPos (parseType input pos)) := by
  have s1 := le_skipWhitespace input pos
  have s2 := skipWhitespace_le input pos hp
  unfold parseType
  simp only
  split
  · have h1 := inRange_matchToken input (skipWhitespace input pos) "integer" s2
    split
    · rename_i e heq
      rw [heq] at h1
      exact h1.mono s1
    · rename_i q heq
      rw [heq] at h1
      obtain ⟨b1, b2⟩ := h1 q rfl
      exact inRange_some (by omega) b2
  · split
    · have h1 := inRange_matchToken input (skipWhitespace input pos) "char" s2
      split
      · rename_i e heq
        rw [heq] at h1
        exact h1.mono s1
      · rename_i q heq
        rw [heq] at h1
        obtain ⟨b1, b2⟩ := h1 q rfl
        exact inRange_some (by omega) b2
    · exact inRange_some s1 s2

theorem inRange_parseDescr (input : List Char) (pos : Nat) (hp : pos ≤ input.length) :
    InRange input pos (endPos (parseDescr input pos)) := by
  have h1 := inRange_parseVarList input pos hp
  unfold parseDescr
  split
  · rename_i e heq
    rw [heq] at h1
    exact h1
  · rename_i vars q heq
    rw [heq] at h1
    obtain ⟨b1, b2⟩ := h1 q rfl
    have s1 := le_skipWhitespace input q
    have s2 := skipWhitespace_le input q b2
    simp only
    split
    · have h2 := inRange_matchToken input (skipWhitespace input q) ":" s2
      split
      · rename_i e heq2
        rw [heq2] at h2
        exact h2.mono (by omega)
      · rename_i q1 heq2
        rw [heq2] at h2
        obtain ⟨b3, b4⟩ := h2 q1 rfl
        have h3 := inRange_parseType input q1 b4
        split
        · rename_i e heq3
          rw [heq3] at h3
          exact h3.mono (by omega)
        · rename_i ty q2 heq3
          rw [heq3] at h3
          obtain ⟨b5, b6⟩ := h3 q2 rfl
          have h4 := inRange_matchToken input q2 ";" b6
          split
          · rename_i e heq4
            rw [heq4] at h4
            exact h4.mono (by omega)
          · rename_i q3 heq4
            rw [heq4] at h4
            obtain ⟨b7, b8⟩ := h4 q3 rfl
            exact inRange_some (by omega) b8
    · exact inRange_some (by omega) s2

theorem inRange_parseDescrListLoop (input : List Char) : ∀ (fuel pos : Nat),
    pos ≤ input.length → InRange input pos (endPos (parseDescrListLoop input fuel pos)) := by
  intro fuel
  induction fuel with
  | zero =>
    intro pos hp
    rw [parseDescrListLoop]
    split
    · exact inRange_none _ _
    · exact inRange_some (Nat.le_refl _) hp
  | succ fuel ih =>
    intro pos hp
    rw [parseDescrListLoop]
    split
    · have h1 := inRange_matchToken input pos "var" hp
      split
      · rename_i e heq
        rw [heq] at h1
        exact h1
      · rename_i q heq
        rw [heq] at h1
        obtain ⟨b1, b2⟩ := h1 q rfl
        have h2 := inRange_parseDescr input q b2
        split
        · rename_i e heq2
          rw [heq2] at h2
          exact h2.mono b1
        · rename_i d q1 heq2
          rw [heq2] at h2
          obtain ⟨b3, b4⟩ := h2 q1 rfl
          have h3 := ih q1 b4
          split
          · rename_i e heq3
            rw [heq3] at h3
            exact h3.mono (by omega)
          · rename_i rest q2 heq3
            rw [heq3] at h3
            obtain ⟨b5, b6⟩ := h3 q2 rfl
            exact inRange_some (by omega) b6
    · exact inRange_some (Nat.le_refl _) hp

theorem inRange_parseDescrList (input : List Char) (pos : Nat) (hp : pos ≤ input.length) :
    InRange input pos (endPos (parseDescrList input pos)) := by
  have h1 := inRange_parseDescr input pos hp
  unfold parseDescrList
  split
  · rename_i e heq
    rw [heq] at h1
    exact h1
  · rename_i d q heq
    rw [heq] at h1
    obtain ⟨b1, b2⟩ := h1 q rfl
    have s1 := le_skipWhitespace input q
    have s2 := skipWhitespace_le input q b2
    have h2 := inRange_parseDescrListLoop input (input.length - skipWhitespace input q)
      (skipWhitespace input q) s2
    simp only
    split
    · rename_i e heq2
      rw [heq2] at h2
      exact h2.mono (by omega)
    · rename_i rest q1 heq2
      rw [heq2] at h2
      obtain ⟨b3, b4⟩ := h2 q1 rfl
      exact inRange_some (by omega) b4

theorem inRange_parseDescriptions (input : List Char) (pos : Nat) (hp : pos ≤ input.length) :
    InRange input pos (endPos (parseDescriptions input pos)) := by
  have s1 := le_skipWhitespace input pos
  have s2 := skipWhitespace_le input pos hp
  unfold parseDescriptions
  simp only
  split
  · have h1 := inRange_matchToken input (skipWhitespace input pos) "var" s2
    split
    · rename_i e heq
      rw [heq] at h1
      exact h1.mono s1
    · rename_i q heq
      rw [heq] at h1
      obtain ⟨b1, b2⟩ := h1 q rfl
      have h2 := inRange_parseDescrList input q b2
      split
      · rename_i e heq2
        rw [heq2] at h2
        exact h2.mono (by omega)
      · rename_i l q1 heq2
        rw [heq2] at h2
        obtain ⟨b3, b4⟩ := h2 q1 rfl
        exact inRange_some (by omega) b4
  · exact inRange_some s1 s2

theorem inRange_numExpr (input : List Char) : ∀ fuel : Nat,
    (∀ pos, pos ≤ input.length → InRange input pos (endPos (parseNumExpr input fuel pos))) ∧
    (∀ pos, pos ≤ input.length →
      InRange input pos (endPos (parseNumExprLoop input fuel pos))) ∧
    (∀ pos, pos ≤ input.length →
      InRange input pos (endPos (parseSimpleNumExpr input fuel pos))) := by
  intro fuel
  induction fuel with
  | zero =>
    refine ⟨?_, ?_, ?_⟩
    · intro pos _
      rw [parseNumExpr]
      exact inRange_none _ _
    · intro pos hp
      rw [parseNumExprLoop]
      split
      · exact inRange_none _ _
      · exact inRange_some (Nat.le_refl _) hp
    · intro pos _
      rw [parseSimpleNumExpr]
      exact inRange_none _ _
  | succ fuel ih =>
    obtain ⟨ihE, ihL, ihS⟩ := ih
    refine ⟨?_, ?_, ?_⟩
    · intro pos hp
      have h1 := ihS pos hp
      rw [parseNumExpr]
      split
      · rename_i e heq
        rw [heq] at h1
        exact h1
      · rename_i a q heq
        rw [heq] at h1
        obtain ⟨b1, b2⟩ := h1 q rfl
        have s1 := le_skipWhitespace input q
        have s2 := skipWhitespace_le input q b2
        have h2 := ihL (skipWhitespace input q) s2
        simp only
        split
        · rename_i e heq2
          rw [heq2] at h2
          exact h2.mono (by omega)
        · rename_i rest q1 heq2
          rw [heq2] at h2
          obtain ⟨b3, b4⟩ := h2 q1 rfl
          exact inRange_some (by omega) b4
    · intro pos hp
      rw [parseNumExprLoop]
      split
      · rename_i hg
        have h1 := ihS (pos + 1) (by omega)
        split
        · rename_i e heq
          rw [heq] at h1
          exact h1.mono (by omega)
        · rename_i a q heq
          rw [heq] at h1
          obtain ⟨b1, b2⟩ := h1 q rfl
          have h2 := ihL q b2
          split
          · rename_i e heq2
            rw [heq2] at h2
            exact h2.mono (by omega)
          · rename_i rest q1 heq2
            rw [heq2] at h2
            obtain ⟨b3, b4⟩ := h2 q1 rfl
            exact inRange_some (by omega) b4
      · exact inRange_some (Nat.le_refl _) hp
    · intro pos hp
      have s1 := le_skipWhitespace input pos
      have s2 := skipWhitespace_le input pos hp
      rw [parseSimpleNumExpr]
      split
      · have h1 := inRange_parseId input (skipWhitespace input pos) s2
        split
        · rename_i e heq
          rw [heq] at h1
          exact h1.mono s1
        · rename_i id q heq
          rw [heq] at h1
          obtain ⟨b1, b2⟩ := h1 q rfl
          exact inRange_some (by omega) b2
      · split
        · have h1 := inRange_parseNumber input (skipWhitespace input pos) s2
          split
          · rename_i e heq
            rw [heq] at h1
            exact h1.mono s1
          · rename_i n q heq
            rw [heq] at h1
            obtain ⟨b1, b2⟩ := h1 q rfl
            exact inRange_some (by omega) b2
        · split
          · have h1 := inRange_matchToken input (skipWhitespace input pos) "(" s2
            split
            · rename_i e heq
              rw [heq] at h1
              exact h1.mono s1
            · rename_i q heq
              rw [heq] at h1
              obtain ⟨b1, b2⟩ := h1 q rfl
              have h2 := ihE q b2
              split
              · rename_i e heq2
                rw [heq2] at h2
                exact h2.mono (by omega)
              · rename_i a q1 heq2
                rw [heq2] at h2
                obtain ⟨b3, b4⟩ := h2 q1 rfl
                have h3 := inRange_matchToken input q1 ")" b4
                split
                · rename_i e heq3
                  rw [heq3] at h3
                  exact h3.mono (by omega)
                · rename_i q2 heq3
                  rw [heq3] at h3
                  obtain ⟨b5, b6⟩ := h3 q2 rfl
                  exact inRange_some (by omega) b6
          · exact inRange_some s1 s2

theorem inRange_parseOperand (input : List Char) (pos : Nat) (hp : pos ≤ input.length) :
    InRange input pos (endPos (parseOperand input pos)) := by
  unfold parseOperand
  split
  · have h1 := inRange_parseStringConst input pos hp
    split
    · rename_i e heq
      rw [heq] at h1
      exact h1
    · rename_i a q heq
      rw [heq] at h1
      obtain ⟨b1, b2⟩ := h1 q rfl
      exact inRange_some b1 b2
  · split
    · have h1 := inRange_parseNumber input pos hp
      split
      · rename_i e heq
        rw [heq] at h1
        exact h1
      · rename_i a q heq
        rw [heq] at h1
        obtain ⟨b1, b2⟩ := h1 q rfl
        exact inRange_some b1 b2
    · exact (inRange_numExpr input _).1 pos hp

theorem inRange_parseOp (input : List Char) (pos : Nat) (hp : pos ≤ input.length) :
    InRange input pos (endPos (parseOp input pos)) := by
  have h1 := inRange_parseId input pos hp
  unfold parseOp
  split
  · rename_i e heq
    rw [heq] at h1
    exact h1
  · rename_i id q heq
    rw [heq] at h1
    obtain ⟨b1, b2⟩ := h1 q rfl
    have h2 := inRange_matchToken input q ":=" b2
    split
    · rename_i e heq2
      rw [heq2] at h2
      exact h2.mono b1
    · rename_i q1 heq2
      rw [heq2] at h2
      obtain ⟨b3, b4⟩ := h2 q1 rfl
      have s1 := le_skipWhitespace input q1
      have s2 := skipWhitespace_le input q1 b4
      have h3 := inRange_parseOperand input (skipWhitespace input q1) s2
      split
      · rename_i e heq3
        rw [heq3] at h3
        exact h3.mono (by omega)
      · rename_i v q2 heq3
        rw [heq3] at h3
        obtain ⟨b5, b6⟩ := h3 q2 rfl
        have s3 := le_skipWhitespace input q2
        have s4 := skipWhitespace_le input q2 b6
        simp only
        split
        · rename_i hg
          have s5 := le_skipWhitespace input (skipWhitespace input q2 + 1)
          have s6 := skipWhitespace_le input (skipWhitespace input q2 + 1) (by omega)
          have h4 := inRange_parseOperand input
            (skipWhitespace input (skipWhitespace input q2 + 1)) s6
          split
          · rename_i e heq4
            rw [heq4] at h4
            exact h4.mono (by omega)
          · rename_i w q3 heq4
            rw [heq4] at h4
            obtain ⟨b7, b8⟩ := h4 q3 rfl
            have h5 := inRange_matchToken input q3 ";" b8
            split
            · rename_i e heq5
              rw [heq5] at h5
              exact h5.mono (by omega)
            · rename_i q4 heq5
              rw [heq5] at h5
              obtain ⟨b9, b10⟩ := h5 q4 rfl
              exact inRange_some (by omega) b10
        · have h4 := inRange_matchToken input (skipWhitespace input q2) ";" s4
          split
          · rename_i e heq4
            rw [heq4] at h4
            exact h4.mono (by omega)
          · rename_i q3 heq4
            rw [heq4] at h4
            obtain ⟨b7, b8⟩ := h4 q3 rfl
            exact inRange_some (by omega) b8

theorem inRange_parseOperatorsLoop (input : List Char) : ∀ (fuel pos : Nat),
    pos ≤ input.length → InRange input pos (endPos (parseOperatorsLoop input fuel pos)) := by
  intro fuel
  induction fuel with
  | zero =>
    intro pos _
    rw [parseOperatorsLoop]
    exact inRange_none _ _
  | succ fuel ih =>
    intro pos hp
    have h1 := inRange_parseOp input pos hp
    rw [parseOperatorsLoop]
    split
    · rename_i e heq
      rw [heq] at h1
      exact h1
    · rename_i op q heq
      rw [heq] at h1
      obtain ⟨b1, b2⟩ := h1 q rfl
      have s1 := le_skipWhitespace input q
      have s2 := skipWhitespace_le input q b2
      simp only
      split
      · have h2 := ih (skipWhitespace input q) s2
        split
        · rename_i e heq2
          rw [heq2] at h2
          exact h2.mono (by omega)
        · rename_i rest q1 heq2
          rw [heq2] at h2
          obtain ⟨b3, b4⟩ := h2 q1 rfl
          exact inRange_some (by omega) b4
      · exact inRange_some (by omega) s2

theorem inRange_parseOperators (input : List Char) (pos : Nat) (hp : pos ≤ input.length) :
    InRange input pos (endPos (parseOperators input pos)) := by
  have h1 := inRange_parseOperatorsLoop input (input.length - pos + 1) pos hp
  unfold parseOperators
  split
  · rename_i e heq
    rw [heq] at h1
    exact h1
  · rename_i ops q heq
    rw [heq] at h1
    obtain ⟨b1, b2⟩ := h1 q rfl
    exact inRange_some b1 b2

theorem inRange_parseProcedure (input : List Char) (pos : Nat) (hp : pos ≤ input.length) :
    InRange input pos (endPos (parseProcedure input pos)) := by
  have h1 := inRange_matchToken input pos "procedure" hp
  unfold parseProcedure
  split
  · rename_i e heq
    rw [heq] at h1
    exact h1
  · rename_i p1 heq
    rw [heq] at h1
    obtain ⟨b1, b2⟩ := h1 p1 rfl
    have h2 := inRange_parseId input p1 b2
    split
    · rename_i e heq2
      rw [heq2] at h2
      exact h2.mono b1
    · rename_i id p2 heq2
      rw [heq2] at h2
      obtain ⟨b3, b4⟩ := h2 p2 rfl
      have h3 := inRange_matchToken input p2 ";" b4
      split
      · rename_i e heq3
        rw [heq3] at h3
        exact h3.mono (by omega)
      · rename_i p3 heq3
        rw [heq3] at h3
        obtain ⟨b5, b6⟩ := h3 p3 rfl
        have h4 := inRange_matchToken input p3 "begin" b6
        split
        · rename_i e heq4
          rw [heq4] at h4
          exact h4.mono (by omega)
        · rename_i p4 heq4
          rw [heq4] at h4
          obtain ⟨b7, b8⟩ := h4 p4 rfl
          have h5 := inRange_parseDescriptions input p4 b8
          split
          · rename_i e heq5
            rw [heq5] at h5
            exact h5.mono (by omega)
          · rename_i d p5 heq5
            rw [heq5] at h5
            obtain ⟨b9, b10⟩ := h5 p5 rfl
            have h6 := inRange_parseOperators input p5 b10
            split
            · rename_i e heq6
              rw [heq6] at h6
              exact h6.mono (by omega)
            · rename_i o p6 heq6
              rw [heq6] at h6
              obtain ⟨b11, b12⟩ := h6 p6 rfl
              have h7 := inRange_matchToken input p6 "end" b12
              split
              · rename_i e heq7
                rw [heq7] at h7
                exact h7.mono (by omega)
              · rename_i p7 heq7
                rw [heq7] at h7
                obtain ⟨b13, b14⟩ := h7 p7 rfl
                exact inRange_some (by omega) b14

theorem parse_error_position {input : List Char} {p : Nat} {message : String}
    (h : parse input = .error (.exit p message)) : p ≤ input.length := by
  have h1 := inRange_parseProcedure input 0 (Nat.zero_le _)
  unfold parse at h
  split at h
  · rename_i e heq
    rw [heq] at h1
    injection h with h
    subst h
    exact (h1 p rfl).2
  · rename_i root q heq
    split at h
    · rename_i hlt
      injection h with h
      injection h with h2 h3
      omega
    · cases h

/-! ## The fuel is never exhausted -/

theorem error_ne_fuel {α β : Type} {r : Except Abort α} {e : Abort}
    (h : r ≠ .error .fuel) (heq : r = .error e) :
    (Except.error e : Except Abort β) ≠ .error .fuel := by
  intro hc
  injection hc with hc
  subst hc
  exact h heq

theorem ok_ne_fuel {α : Type} (a : α) : (Except.ok a : Except Abort α) ≠ .error .fuel := by
  intro h
  cases h

theorem exit_ne_fuel {α : Type} (p : Nat) (m : String) :
    (Except.error (.exit p m) : Except Abort α) ≠ .error .fuel := by
  intro h
  injection h with h
  cases h

theorem noFuel_matchToken (input : List Char) (pos : Nat) (token : String) :
    matchToken input pos token ≠ .error .fuel := by
  unfold matchToken
  simp only
  split
  · exact ok_ne_fuel _
  · exact exit_ne_fuel _ _

theorem noFuel_parseId (input : List Char) (pos : Nat) : parseId input pos ≠ .error .fuel := by
  unfold parseId
  simp only
  split
  · exact ok_ne_fuel _
  · exact exit_ne_fuel _ _

theorem noFuel_parseNumber (input : List Char) (pos : Nat) :
    parseNumber input pos ≠ .error .fuel := by
  unfold parseNumber
  simp only
  split
  · exact ok_ne_fuel _
  · exact exit_ne_fuel _ _

theorem noFuel_stringConstLoop (input : List Char) : ∀ (fuel pos : Nat) (acc : List Char),
    input.length - pos ≤ fuel → stringConstLoop input fuel pos acc ≠ .error .fuel := by
  intro fuel
  induction fuel with
  | zero =>
    intro pos acc hf
    rw [stringConstLoop]
    split
    · rename_i hg
      omega
    · exact ok_ne_fuel _
  | succ fuel ih =>
    intro pos acc hf
    rw [stringConstLoop]
    split
    · split
      · exact ih _ _ (by omega)
      · exact exit_ne_fuel _ _
    · exact ok_ne_fuel _

theorem noFuel_parseStringConst (input : List Char) (pos : Nat) :
    parseStringConst input pos ≠ .error .fuel := by
  unfold parseStringConst
  simp only
  split
  · have h1 := noFuel_stringConstLoop input (input.length - (skipWhitespace input pos + 1))
      (skipWhitespace input pos + 1) [] (Nat.le_refl _)
    split
    · rename_i e heq
      exact error_ne_fuel h1 heq
    · split
      · exact ok_ne_fuel _
      · exact exit_ne_fuel _ _
  · exact exit_ne_fuel _ _

theorem bounds_of_matchToken {input : List Char} {pos q : Nat} {token : String}
    (hp : pos ≤ input.length) (h : matchToken input pos token = .ok q) :
    pos + token.length ≤ q ∧ q ≤ input.length := by
  have h1 := inRange_matchToken input pos token hp
  rw [h] at h1
  obtain ⟨_, hp2⟩ := matchToken_ok h
  have := le_skipWhitespace input pos
  exact ⟨by omega, (h1 q rfl).2⟩

theorem bounds_of_ok {α : Type} {input : List Char} {pos q : Nat} {a : α}
    {r : Except Abort (α × Nat)} (h1 : InRange input pos (endPos r)) (h : r = .ok (a, q)) :
    pos ≤ q ∧ q ≤ input.length := by
  rw [h] at h1
  exact h1 q rfl

theorem noFuel_parseVarListLoop (input : List Char) : ∀ (fuel pos : Nat),
    pos ≤ input.length → input.length - pos ≤ fuel →
    parseVarListLoop input fuel pos ≠ .error .fuel := by
  intro fuel
  induction fuel with
  | zero =>
    intro pos hp hf
    rw [parseVarListLoop]
    split
    · rename_i hg
      omega
    · exact ok_ne_fuel _
  | succ fuel ih =>
    intro pos hp hf
    rw [parseVarListLoop]
    split
    · split
      · rename_i e heq
        exact error_ne_fuel (noFuel_matchToken _ _ _) heq
      · rename_i q heq
        have b1 := bounds_of_matchToken hp heq
        have hl : ",".length = 1 := by decide
        rw [hl] at b1
        split
        · rename_i e heq2
          exact error_ne_fuel (noFuel_parseId _ _) heq2
        · rename_i id q1 heq2
          have b2 := bounds_of_ok (inRange_parseId input q b1.2) heq2
          have h3 := ih q1 b2.2 (by omega)
          split
          · rename_i e heq3
            exact error_ne_fuel h3 heq3
          · exact ok_ne_fuel _
    · exact ok_ne_fuel _

theorem noFuel_parseVarList (input : List Char) (pos : Nat) (hp : pos ≤ input.length) :
    parseVarList input pos ≠ .error .fuel := by
  unfold parseVarList
  split
  · rename_i e heq
    exact error_ne_fuel (noFuel_parseId _ _) heq
  · rename_i id q heq
    have b1 := bounds_of_ok (inRange_parseId input pos hp) heq
    have s2 := skipWhitespace_le input q b1.2
    have h2 := noFuel_parseVarListLoop input (input.length - skipWhitespace input q)
      (skipWhitespace input q) s2 (Nat.le_refl _)
    simp only
    split
    · rename_i e heq2
      exact error_ne_fuel h2 heq2
    · exact ok_ne_fuel _

theorem noFuel_parseType (input : List Char) (pos : Nat) :
    parseType input pos ≠ .error .fuel := by
  unfold parseType
  simp only
  split
  · split
    · rename_i e heq
      exact error_ne_fuel (noFuel_matchToken _ _ _) heq
    · exact ok_ne_fuel _
  · split
    · split
      · rename_i e heq
        exact error_ne_fuel (noFuel_matchToken _ _ _) heq
      · exact ok_ne_fuel _
    · exact exit_ne_fuel _ _

theorem noFuel_parseDescr (input : List Char) (pos : Nat) (hp : pos ≤ input.length) :
    parseDescr input pos ≠ .error .fuel := by
  unfold parseDescr
  split
  · rename_i e heq
    exact error_ne_fuel (noFuel_parseVarList input pos hp) heq
  · simp only
    split
    · split
      · rename_i e heq2
        exact error_ne_fuel (noFuel_matchToken _ _ _) heq2
      · split
        · rename_i e heq3
          exact error_ne_fuel (noFuel_parseType _ _) heq3
        · split
          · rename_i e heq4
            exact error_ne_fuel (noFuel_matchToken _ _ _) heq4
          · exact ok_ne_fuel _
    · exact exit_ne_fuel _ _

theorem noFuel_parseDescrListLoop (input : List Char) : ∀ (fuel pos : Nat),
    pos ≤ input.length → input.length - pos ≤ fuel →
    parseDescrListLoop input fuel pos ≠ .error .fuel := by
  intro fuel
  induction fuel with
  | zero =>
    intro pos hp hf
    rw [parseDescrListLoop]
    split
    · rename_i hg
      omega
    · exact ok_ne_fuel _
  | succ fuel ih =>
    intro pos hp hf
    rw [parseDescrListLoop]
    split
    · split
      · rename_i e heq
        exact error_ne_fuel (noFuel_matchToken _ _ _) heq
      · rename_i q heq
        have b1 := bounds_of_matchToken hp heq
        have hl : "var".length = 3 := by decide
        rw [hl] at b1
        split
        · rename_i e heq2
          exact error_ne_fuel (noFuel_parseDescr input q b1.2) heq2
        · rename_i d q1 heq2
          have b2 := bounds_of_ok (inRange_parseDescr input q b1.2) heq2
          have h3 := ih q1 b2.2 (by omega)
          split
          · rename_i e heq3
            exact error_ne_fuel h3 heq3
          · exact ok_ne_fuel _
    · exact ok_ne_fuel _

theorem noFuel_parseDescrList (input : List Char) (pos : Nat) (hp : pos ≤ input.length) :
    parseDescrList input pos ≠ .error .fuel := by
  unfold parseDescrList
  split
  · rename_i e heq
    exact error_ne_fuel (noFuel_parseDescr input pos hp) heq
  · rename_i d q heq
    have b1 := bounds_of_ok (inRange_parseDescr input pos hp) heq
    have s2 := skipWhitespace_le input q b1.2
    have h2 := noFuel_parseDescrListLoop input (input.length - skipWhitespace input q)
      (skipWhitespace input q) s2 (Nat.le_refl _)
    simp only
    split
    · rename_i e heq2
      exact error_ne_fuel h2 heq2
    · exact ok_ne_fuel _

theorem noFuel_parseDescriptions (input : List Char) (pos : Nat) (hp : pos ≤ input.length) :
    parseDescriptions input pos ≠ .error .fuel := by
  have s2 := skipWhitespace_le input pos hp
  unfold parseDescriptions
  simp only
  split
  · split
    · rename_i e heq
      exact error_ne_fuel (noFuel_matchToken _ _ _) heq
    · rename_i q heq
      have b1 := bounds_of_matchToken s2 heq
      split
      · rename_i e heq2
        exact error_ne_fuel (noFuel_parseDescrList input q b1.2) heq2
      · exact ok_ne_fuel _
  · exact ok_ne_fuel _

theorem noFuel_numExpr (input : List Char) : ∀ fuel : Nat,
    (∀ pos, pos ≤ input.length → 2 * (input.length - pos) + 2 ≤ fuel →
      parseNumExpr input fuel pos ≠ .error .fuel) ∧
    (∀ pos, pos ≤ input.length → 2 * (input.length - pos) + 1 ≤ fuel →
      parseNumExprLoop input fuel pos ≠ .error .fuel) ∧
    (∀ pos, pos ≤ input.length → 2 * (input.length - pos) + 1 ≤ fuel →
      parseSimpleNumExpr input fuel pos ≠ .error .fuel) := by
  intro fuel
  induction fuel with
  | zero =>
    refine ⟨?_, ?_, ?_⟩ <;> (intro pos _ hf; omega)
  | succ fuel ih =>
    obtain ⟨ihE, ihL, ihS⟩ := ih
    refine ⟨?_, ?_, ?_⟩
    · intro pos hp hf
      rw [parseNumExpr]
      split
      · rename_i e heq
        exact error_ne_fuel (ihS pos hp (by omega)) heq
      · rename_i a q heq
        have b1 := bounds_of_ok ((inRange_numExpr input fuel).2.2 pos hp) heq
        have s1 := le_skipWhitespace input q
        have s2 := skipWhitespace_le input q b1.2
        simp only
        split
        · rename_i e heq2
          exact error_ne_fuel (ihL (skipWhitespace input q) s2 (by omega)) heq2
        · exact ok_ne_fuel _
    · intro pos hp hf
      rw [parseNumExprLoop]
      split
      · rename_i hg
        split
        · rename_i e heq
          exact error_ne_fuel (ihS (pos + 1) (by omega) (by omega)) heq
        · rename_i a q heq
          have b1 := bounds_of_ok ((inRange_numExpr input fuel).2.2 (pos + 1) (by omega)) heq
          split
          · rename_i e heq2
            exact error_ne_fuel (ihL q b1.2 (by omega)) heq2
          · exact ok_ne_fuel _
      · exact ok_ne_fuel _
    · intro pos hp hf
      have s1 := le_skipWhitespace input pos
      have s2 := skipWhitespace_le input pos hp
      rw [parseSimpleNumExpr]
      split
      · split
        · rename_i e heq
          exact error_ne_fuel (noFuel_parseId _ _) heq
        · exact ok_ne_fuel _
      · split
        · split
          · rename_i e heq
            exact error_ne_fuel (noFuel_parseNumber _ _) heq
          · exact ok_ne_fuel _
        · split
          · split
            · rename_i e heq
              exact error_ne_fuel (noFuel_matchToken _ _ _) heq
            · rename_i q heq
              have b1 := bounds_of_matchToken s2 heq
              have hl : "(".length = 1 := by decide
              rw [hl] at b1
              split
              · rename_i e heq2
                exact error_ne_fuel (ihE q b1.2 (by omega)) heq2
              · split
                · rename_i e heq3
                  exact error_ne_fuel (noFuel_matchToken _ _ _) heq3
                · exact ok_ne_fuel _
          · exact exit_ne_fuel _ _

theorem noFuel_parseOperand (input : List Char) (pos : Nat) (hp : pos ≤ input.length) :
    parseOperand input pos ≠ .error .fuel := by
  unfold parseOperand
  split
  · split
    · rename_i e heq
      exact error_ne_fuel (noFuel_parseStringConst _ _) heq
    · exact ok_ne_fuel _
  · split
    · split
      · rename_i e heq
        exact error_ne_fuel (noFuel_parseNumber _ _) heq
      · exact ok_ne_fuel _
    · exact (noFuel_numExpr input _).1 pos hp (Nat.le_refl _)

theorem noFuel_parseOp (input : List Char) (pos : Nat) (hp : pos ≤ input.length) :
    parseOp input pos ≠ .error .fuel := by
  unfold parseOp
  split
  · rename_i e heq
    exact error_ne_fuel (noFuel_parseId _ _) heq
  · rename_i id q heq
    have b1 := bounds_of_ok (inRange_parseId input pos hp) heq
    split
    · rename_i e heq2
      exact error_ne_fuel (noFuel_matchToken _ _ _) heq2
    · rename_i q1 heq2
      have b2 := bounds_of_matchToken b1.2 heq2
      have s2 := skipWhitespace_le input q1 b2.2
      split
      · rename_i e heq3
        exact error_ne_fuel (noFuel_parseOperand input _ s2) heq3
      · rename_i v q2 heq3
        have b3 := bounds_of_ok (inRange_parseOperand input _ s2) heq3
        have s4 := skipWhitespace_le input q2 b3.2
        simp only
        split
        · rename_i hg
          have s6 := skipWhitespace_le input (skipWhitespace input q2 + 1) (by omega)
          split
          · rename_i e heq4
            exact error_ne_fuel (noFuel_parseOperand input _ s6) heq4
          · split
            · rename_i e heq5
              exact error_ne_fuel (noFuel_matchToken _ _ _) heq5
            · exact ok_ne_fuel _
        · split
          · rename_i e heq4
            exact error_ne_fuel (noFuel_matchToken _ _ _) heq4
          · exact ok_ne_fuel _

theorem parseOp_advances {input : List Char} {pos q : Nat} {op : TreeNode}
    (hp : pos ≤ input.length) (h : parseOp input pos = .ok (op, q)) :
    pos + 2 ≤ q ∧ q ≤ input.length := by
  have hq := (bounds_of_ok (inRange_parseOp input pos hp) h).2
  obtain ⟨id, q0, q1, v, q2, e1, e2, e3, hcase⟩ := parseOp_ok h
  have b1 := bounds_of_ok (inRange_parseId input pos hp) e1
  have b2 := bounds_of_matchToken b1.2 e2
  have hl : ":=".length = 2 := by decide
  rw [hl] at b2
  have s1 := le_skipWhitespace input q1
  have s2 := skipWhitespace_le input q1 b2.2
  have b3 := bounds_of_ok (inRange_parseOperand input _ s2) e3
  have s3 := le_skipWhitespace input q2
  have s4 := skipWhitespace_le input q2 b3.2
  refine ⟨?_, hq⟩
  rcases hcase with ⟨_, e4, _⟩ | ⟨hg, w, q3, e4, e5, _⟩
  · have b4 := bounds_of_matchToken s4 e4
    omega
  · have s5 := le_skipWhitespace input (skipWhitespace input q2 + 1)
    have s6 := skipWhitespace_le input (skipWhitespace input q2 + 1) (by omega)
    have b4 := bounds_of_ok (inRange_parseOperand input _ s6) e4
    have b5 := bounds_of_matchToken b4.2 e5
    omega

theorem noFuel_parseOperatorsLoop (input : List Char) : ∀ (fuel pos : Nat),
    pos ≤ input.length → input.length - pos + 1 ≤ fuel →
    parseOperatorsLoop input fuel pos ≠ .error .fuel := by
  intro fuel
  induction fuel with
  | zero =>
    intro pos _ hf
    omega
  | succ fuel ih =>
    intro pos hp hf
    rw [parseOperatorsLoop]
    split
    · rename_i e heq
      exact error_ne_fuel (noFuel_parseOp input pos hp) heq
    · rename_i op q heq
      have b1 := parseOp_advances hp heq
      have s1 := le_skipWhitespace input q
      have s2 := skipWhitespace_le input q b1.2
      simp only
      split
      · split
        · rename_i e heq2
          exact error_ne_fuel (ih (skipWhitespace input q) s2 (by omega)) heq2
        · exact ok_ne_fuel _
      · exact ok_ne_fuel _

theorem noFuel_parseOperators (input : List Char) (pos : Nat) (hp : pos ≤ input.length) :
    parseOperators input pos ≠ .error .fuel := by
  unfold parseOperators
  split
  · rename_i e heq
    exact error_ne_fuel (noFuel_parseOperatorsLoop input _ pos hp (Nat.le_refl _)) heq
  · exact ok_ne_fuel _

theorem noFuel_parseProcedure (input : List Char) (pos : Nat) (hp : pos ≤ input.length) :
    parseProcedure input pos ≠ .error .fuel := by
  unfold parseProcedure
  split
  · rename_i e heq
    exact error_ne_fuel (noFuel_matchToken _ _ _) heq
  · rename_i p1 heq
    have b1 := bounds_of_matchToken hp heq
    split
    · rename_i e heq2
      exact error_ne_fuel (noFuel_parseId _ _) heq2
    · rename_i id p2 heq2
      have b2 := bounds_of_ok (inRange_parseId input p1 b1.2) heq2
      split
      · rename_i e heq3
        exact error_ne_fuel (noFuel_matchToken _ _ _) heq3
      · rename_i p3 heq3
        have b3 := bounds_of_matchToken b2.2 heq3
        split
        · rename_i e heq4
          exact error_ne_fuel (noFuel_matchToken _ _ _) heq4
        · rename_i p4 heq4
          have b4 := bounds_of_matchToken b3.2 heq4
          split
          · rename_i e heq5
            exact error_ne_fuel (noFuel_parseDescriptions input p4 b4.2) heq5
          · rename_i d p5 heq5
            have b5 := bounds_of_ok (inRange_parseDescriptions input p4 b4.2) heq5
            split
            · rename_i e heq6
              exact error_ne_fuel (noFuel_parseOperators input p5 b5.2) heq6
            · split
              · rename_i e heq7
                exact error_ne_fuel (noFuel_matchToken _ _ _) heq7
              · exact ok_ne_fuel _

theorem noFuel_parse (input : List Char) : parse input ≠ .error .fuel := by
  unfold parse
  split
  · rename_i e heq
    exact error_ne_fuel (noFuel_parseProcedure input 0 (Nat.zero_le _)) heq
  · split
    · exact exit_ne_fuel _ _
    · exact ok_ne_fuel _

theorem parse_total (input : List Char) :
    (∃ t, parse input = .ok t) ∨ (∃ p m, parse input = .error (.exit p m)) := by
  have h := noFuel_parse input
  cases hr : parse input with
  | ok t => exact Or.inl ⟨t, rfl⟩
  | error e =>
    cases e with
    | exit p m => exact Or.inr ⟨p, m, rfl⟩
    | fuel => exact absurd hr h

/-! ## The statements of an accepted program -/

theorem parseOperatorsLoop_nodes (input : List Char) : ∀ (fuel pos pos1 : Nat)
    (nodes : List TreeNode), parseOperatorsLoop input fuel pos = .ok (nodes, pos1) →
    nodes ≠ [] ∧ ∀ op ∈ nodes, op.value = "Op" ∧ op.type = "" := by
  intro fuel
  induction fuel with
  | zero =>
    intro pos pos1 nodes h
    obtain ⟨f, _, _, hf, _⟩ := parseOperatorsLoop_ok h
    cases hf
  | succ fuel ih =>
    intro pos pos1 nodes h
    obtain ⟨f, op, q, hf, e1, hcase⟩ := parseOperatorsLoop_ok h
    injection hf with hf
    subst hf
    have hop : op.value = "Op" ∧ op.type = "" := by
      obtain ⟨id, q0, q1, v, q2, _, _, _, hc⟩ := parseOp_ok e1
      rcases hc with ⟨_, _, ht⟩ | ⟨_, w, q3, _, _, ht⟩ <;> subst ht <;> exact ⟨rfl, rfl⟩
    rcases hcase with ⟨_, hn, _⟩ | ⟨_, rest, e2, hn⟩
    · subst hn
      refine ⟨by simp, ?_⟩
      intro x hx
      rw [List.mem_singleton] at hx
      subst hx
      exact hop
    · subst hn
      refine ⟨by simp, ?_⟩
      intro x hx
      rcases List.mem_cons.mp hx with hx | hx
      · subst hx; exact hop
      · exact (ih _ _ _ e2).2 x hx

theorem mem_of_mem_substr {input : List Char} {pos n : Nat} {c : Char}
    (h : c ∈ substr input pos n) : c ∈ input :=
  List.mem_of_mem_drop (List.mem_of_mem_take h)

theorem equals_sign_of_parseOp {input : List Char} {pos pos1 : Nat} {t : TreeNode}
    (h : parseOp input pos = .ok (t, pos1)) : '=' ∈ input := by
  obtain ⟨id, q, q1, v, q2, _, e2, _, _⟩ := parseOp_ok h
  obtain ⟨hs, _⟩ := matchToken_ok e2
  have hm : '=' ∈ substr input (skipWhitespace input q) ":=".length := by
    rw [hs]
    decide
  exact mem_of_mem_substr hm

theorem equals_sign_of_parse {input : List Char} {t : TreeNode} (h : parse input = .ok t) :
    '=' ∈ input := by
  obtain ⟨pos1, e, _⟩ := parse_ok h
  obtain ⟨p1, id, p2, p3, p4, descriptions, p5, operators, p6, _, _, _, _, _, e6, _, _⟩ :=
    parseProcedure_ok e
  obtain ⟨ops, e7, _⟩ := parseOperators_ok e6
  obtain ⟨f, op, q, _, e8, _⟩ := parseOperatorsLoop_ok e7
  exact equals_sign_of_parseOp e8

/-! ## The nodes of the tree -/

mutual
theorem TreeNode.all_imp {p q : TreeNode → Bool} (h : ∀ n, p n = true → q n = true) :
    ∀ t : TreeNode, t.all p = true → t.all q = true
  | .mk v t cs => by
    intro ht
    rw [TreeNode.all, Bool.and_eq_true] at ht ⊢
    exact ⟨h _ ht.1, TreeNode.allOfList_imp h cs ht.2⟩
theorem TreeNode.allOfList_imp {p q : TreeNode → Bool} (h : ∀ n, p n = true → q n = true) :
    ∀ ts : List TreeNode, TreeNode.allOfList p ts = true → TreeNode.allOfList q ts = true
  | [] => by
    intro _
    rw [TreeNode.allOfList]
  | c :: cs => by
    intro ht
    rw [TreeNode.allOfList, Bool.and_eq_true] at ht ⊢
    exact ⟨TreeNode.all_imp h c ht.1, TreeNode.allOfList_imp h cs ht.2⟩
end

theorem allOfList_cons (p : TreeNode → Bool) (c : TreeNode) (cs : List TreeNode) :
    TreeNode.allOfList p (c :: cs) = (c.all p && TreeNode.allOfList p cs) := by
  rw [TreeNode.allOfList]

theorem allOfList_nil (p : TreeNode → Bool) : TreeNode.allOfList p [] = true := by
  rw [TreeNode.allOfList]

theorem grammar_leaf_id (id : List Char) (h : ∀ c ∈ id, isalpha c = true) :
    (leaf (String.mk id) "Id").all isGrammarNode = true := by
  have hall : id.all isalpha = true := List.all_eq_true.mpr h
  simp [leaf, TreeNode.all, TreeNode.allOfList, isGrammarNode, idIsLetters, constIsAlnum,
    TreeNode.type, TreeNode.value, TreeNode.children, leafCategories, hall]

theorem grammar_leaf_const (s : List Char) (h : ∀ c ∈ s, (isdigit c || isalpha c) = true) :
    (leaf (String.mk s) "Const").all isGrammarNode = true := by
  have hall : ∀ c ∈ s, isalpha c = true ∨ isdigit c = true := by
    intro c hc
    have := h c hc
    rw [Bool.or_eq_true] at this
    exact this.symm
  simp [leaf, TreeNode.all, TreeNode.allOfList, isGrammarNode, idIsLetters, constIsAlnum,
    TreeNode.type, TreeNode.value, TreeNode.children, leafCategories]
  exact hall

theorem grammar_leaf_key (v : String) : (leaf v "WordsKey").all isGrammarNode = true := by
  simp [leaf, TreeNode.all, TreeNode.allOfList, isGrammarNode, idIsLetters, constIsAlnum,
    TreeNode.type, TreeNode.value, TreeNode.children, leafCategories]

theorem grammar_leaf_sep (v : String) :
    (leaf v "Symbols_of_Separating").all isGrammarNode = true := by
  simp [leaf, TreeNode.all, TreeNode.allOfList, isGrammarNode, idIsLetters, constIsAlnum,
    TreeNode.type, TreeNode.value, TreeNode.children, leafCategories]

theorem grammar_leaf_op (v : String) :
    (leaf v "Symbols_of_Operation").all isGrammarNode = true := by
  simp [leaf, TreeNode.all, TreeNode.allOfList, isGrammarNode, idIsLetters, constIsAlnum,
    TreeNode.type, TreeNode.value, TreeNode.children, leafCategories]

theorem grammar_untagged (v : String) (cs : List TreeNode)
    (hv : nonterminals.contains v = true)
    (h : TreeNode.allOfList isGrammarNode cs = true) :
    (TreeNode.mk v "" cs).all isGrammarNode = true := by
  rw [TreeNode.all, h]
  simp [isGrammarNode, idIsLetters, constIsAlnum, TreeNode.type, TreeNode.value]
  left
  simpa using hv

theorem grammar_parseVarListLoop (input : List Char) : ∀ (fuel pos pos1 : Nat)
    (nodes : List TreeNode), parseVarListLoop input fuel pos = .ok (nodes, pos1) →
    TreeNode.allOfList isGrammarNode nodes = true := by
  intro fuel
  induction fuel with
  | zero =>
    intro pos pos1 nodes h
    rcases parseVarListLoop_ok h with ⟨_, hn, _⟩ | ⟨_, f, _, _, _, _, hf, _⟩
    · subst hn; exact allOfList_nil _
    · cases hf
  | succ fuel ih =>
    intro pos pos1 nodes h
    rcases parseVarListLoop_ok h with ⟨_, hn, _⟩ | ⟨_, f, q, id, q1, rest, hf, e1, e2, e3, hn⟩
    · subst hn; exact allOfList_nil _
    · injection hf with hf
      subst hf hn
      rw [allOfList_cons, allOfList_cons, grammar_leaf_sep,
        grammar_leaf_id id (consumes_parseId e2).2, ih _ _ _ e3]
      rfl

theorem grammar_parseVarList {input : List Char} {pos pos1 : Nat} {t : TreeNode}
    (h : parseVarList input pos = .ok (t, pos1)) : t.all isGrammarNode = true := by
  obtain ⟨id, q, rest, e1, e2, ht⟩ := parseVarList_ok h
  subst ht
  apply grammar_untagged _ _ (by decide)
  rw [allOfList_cons, grammar_leaf_id id (consumes_parseId e1).2,
    grammar_parseVarListLoop input _ _ _ _ e2]
  rfl

theorem grammar_parseDescr {input : List Char} {pos pos1 : Nat} {t : TreeNode}
    (h : parseDescr input pos = .ok (t, pos1)) : t.all isGrammarNode = true := by
  obtain ⟨vars, q, q1, ty, q2, e1, _, _, _, _, ht⟩ := parseDescr_ok h
  subst ht
  apply grammar_untagged _ _ (by decide)
  rw [allOfList_cons, allOfList_cons, allOfList_cons, allOfList_cons, allOfList_nil,
    grammar_parseVarList e1, grammar_leaf_sep, grammar_leaf_key, grammar_leaf_sep]
  rfl

theorem grammar_parseDescrListLoop (input : List Char) : ∀ (fuel pos pos1 : Nat)
    (nodes : List TreeNode), parseDescrListLoop input fuel pos = .ok (nodes, pos1) →
    TreeNode.allOfList isGrammarNode nodes = true := by
  intro fuel
  induction fuel with
  | zero =>
    intro pos pos1 nodes h
    rcases parseDescrListLoop_ok h with ⟨_, hn, _⟩ | ⟨_, f, _, _, _, _, hf, _⟩
    · subst hn; exact allOfList_nil _
    · cases hf
  | succ fuel ih =>
    intro pos pos1 nodes h
    rcases parseDescrListLoop_ok h with ⟨_, hn, _⟩ | ⟨_, f, q, d, q1, rest, hf, e1, e2, e3, hn⟩
    · subst hn; exact allOfList_nil _
    · injection hf with hf
      subst hf hn
      rw [allOfList_cons, allOfList_cons, grammar_leaf_key, grammar_parseDescr e2,
        ih _ _ _ e3]
      rfl

theorem grammar_parseDescrList {input : List Char} {pos pos1 : Nat} {t : TreeNode}
    (h : parseDescrList input pos = .ok (t, pos1)) : t.all isGrammarNode = true := by
  obtain ⟨d, q, rest, e1, e2, ht⟩ := parseDescrList_ok h
  subst ht
  apply grammar_untagged _ _ (by decide)
  rw [allOfList_cons, grammar_parseDescr e1, grammar_parseDescrListLoop input _ _ _ _ e2]
  rfl

theorem grammar_parseDescriptions {input : List Char} {pos pos1 : Nat} {t : TreeNode}
    (h : parseDescriptions input pos = .ok (t, pos1)) : t.all isGrammarNode = true := by
  rcases parseDescriptions_ok h with ⟨_, ht, _⟩ | ⟨_, q, l, e1, e2, ht⟩
  · subst ht
    exact grammar_untagged _ _ (by decide) (allOfList_nil _)
  · subst ht
    apply grammar_untagged _ _ (by decide)
    rw [allOfList_cons, allOfList_cons, allOfList_nil, grammar_leaf_key,
      grammar_parseDescrList e2]
    rfl

theorem grammar_numExpr (input : List Char) : ∀ fuel : Nat,
    (∀ (pos pos1 : Nat) (t : TreeNode), parseNumExpr input fuel pos = .ok (t, pos1) →
      t.all isGrammarNode = true) ∧
    (∀ (pos pos1 : Nat) (nodes : List TreeNode),
      parseNumExprLoop input fuel pos = .ok (nodes, pos1) →
      TreeNode.allOfList isGrammarNode nodes = true) ∧
    (∀ (pos pos1 : Nat) (t : TreeNode), parseSimpleNumExpr input fuel pos = .ok (t, pos1) →
      t.all isGrammarNode = true) := by
  intro fuel
  induction fuel with
  | zero =>
    refine ⟨?_, ?_, ?_⟩
    · intro pos pos1 t h
      obtain ⟨f, _, _, _, hf, _⟩ := parseNumExpr_ok h
      cases hf
    · intro pos pos1 nodes h
      rcases parseNumExprLoop_ok h with ⟨_, hn, _⟩ | ⟨_, f, _, _, _, hf, _⟩
      · subst hn; exact allOfList_nil _
      · cases hf
    · intro pos pos1 t h
      obtain ⟨f, hf, _⟩ := parseSimpleNumExpr_ok h
      cases hf
  | succ fuel ih =>
    obtain ⟨ihE, ihL, ihS⟩ := ih
    refine ⟨?_, ?_, ?_⟩
    · intro pos pos1 t h
      obtain ⟨f, s, q, rest, hf, e1, e2, ht⟩ := parseNumExpr_ok h
      injection hf with hf
      subst hf ht
      apply grammar_untagged _ _ (by decide)
      rw [allOfList_cons, ihS _ _ _ e1, ihL _ _ _ e2]
      rfl
    · intro pos pos1 nodes h
      rcases parseNumExprLoop_ok h with ⟨_, hn, _⟩ | ⟨_, f, s, q, rest, hf, e1, e2, hn⟩
      · subst hn; exact allOfList_nil _
      · injection hf with hf
        subst hf hn
        rw [allOfList_cons, allOfList_cons, grammar_leaf_op, ihS _ _ _ e1, ihL _ _ _ e2]
        rfl
    · intro pos pos1 t h
      obtain ⟨f, hf, hcase⟩ := parseSimpleNumExpr_ok h
      injection hf with hf
      subst hf
      rcases hcase with ⟨_, id, e, ht⟩ | ⟨_, _, n, e, ht⟩ | ⟨_, _, _, q, e, q1, e1, e2, e3, ht⟩
      · subst ht
        apply grammar_untagged _ _ (by decide)
        rw [allOfList_cons, allOfList_nil, grammar_leaf_id id (consumes_parseId e).2]
        rfl
      · subst ht
        apply grammar_untagged _ _ (by decide)
        rw [allOfList_cons, allOfList_nil, grammar_leaf_const n
          (fun c hc => by simp [(consumes_parseNumber e).2 c hc])]
        rfl
      · subst ht
        apply grammar_untagged _ _ (by decide)
        rw [allOfList_cons, allOfList_cons, allOfList_cons, allOfList_nil, grammar_leaf_sep,
          ihE _ _ _ e2, grammar_leaf_sep]
        rfl

theorem grammar_parseOperand {input : List Char} {pos pos1 : Nat} {t : TreeNode}
    (h : parseOperand input pos = .ok (t, pos1)) : t.all isGrammarNode = true := by
  rcases parseOperand_ok h with ⟨_, s, e, ht⟩ | ⟨_, _, n, e, ht⟩ | ⟨_, _, e⟩
  · subst ht
    exact grammar_leaf_const s (consumes_parseStringConst e).2
  · subst ht
    exact grammar_leaf_const n (fun c hc => by simp [(consumes_parseNumber e).2 c hc])
  · exact (grammar_numExpr input _).1 _ _ _ e

theorem grammar_parseOp {input : List Char} {pos pos1 : Nat} {t : TreeNode}
    (h : parseOp input pos = .ok (t, pos1)) : t.all isGrammarNode = true := by
  obtain ⟨id, q, q1, v, q2, e1, _, e3, hcase⟩ := parseOp_ok h
  rcases hcase with ⟨_, _, ht⟩ | ⟨_, w, q3, e4, _, ht⟩
  · subst ht
    apply grammar_untagged _ _ (by decide)
    rw [allOfList_cons, allOfList_cons, allOfList_cons, allOfList_cons, allOfList_nil,
      grammar_leaf_id id (consumes_parseId e1).2, grammar_leaf_op, grammar_parseOperand e3,
      grammar_leaf_sep]
    rfl
  · subst ht
    apply grammar_untagged _ _ (by decide)
    rw [allOfList_cons, allOfList_cons, allOfList_cons, allOfList_cons, allOfList_cons,
      allOfList_cons, allOfList_nil, grammar_leaf_id id (consumes_parseId e1).2,
      grammar_leaf_op, grammar_parseOperand e3, grammar_leaf_op, grammar_parseOperand e4,
      grammar_leaf_sep]
    rfl

theorem grammar_parseOperatorsLoop (input : List Char) : ∀ (fuel pos pos1 : Nat)
    (nodes : List TreeNode), parseOperatorsLoop input fuel pos = .ok (nodes, pos1) →
    TreeNode.allOfList isGrammarNode nodes = true := by
  intro fuel
  induction fuel with
  | zero =>
    intro pos pos1 nodes h
    obtain ⟨f, _, _, hf, _⟩ := parseOperatorsLoop_ok h
    cases hf
  | succ fuel ih =>
    intro pos pos1 nodes h
    obtain ⟨f, op, q, hf, e1, hcase⟩ := parseOperatorsLoop_ok h
    injection hf with hf
    subst hf
    rcases hcase with ⟨_, hn, _⟩ | ⟨_, rest, e2, hn⟩
    · subst hn
      rw [allOfList_cons, allOfList_nil, grammar_parseOp e1]
      rfl
    · subst hn
      rw [allOfList_cons, grammar_parseOp e1, ih _ _ _ e2]
      rfl

theorem grammar_parseOperators {input : List Char} {pos pos1 : Nat} {t : TreeNode}
    (h : parseOperators input pos = .ok (t, pos1)) : t.all isGrammarNode = true := by
  obtain ⟨ops, e, ht⟩ := parseOperators_ok h
  subst ht
  exact grammar_untagged _ _ (by decide) (grammar_parseOperatorsLoop input _ _ _ _ e)

theorem grammar_parse {input : List Char} {t : TreeNode} (h : parse input = .ok t) :
    t.value = "Program" ∧ t.type = "Program" ∧
      TreeNode.allOfList isGrammarNode t.children = true := by
  obtain ⟨pos1, e, _⟩ := parse_ok h
  obtain ⟨p1, id, p2, p3, p4, descriptions, p5, operators, p6, _, e2, _, _, e5, e6, _, ht⟩ :=
    parseProcedure_ok e
  subst ht
  refine ⟨rfl, rfl, ?_⟩
  show TreeNode.allOfList isGrammarNode [_, _, _, _, _, _] = true
  rw [allOfList_cons, allOfList_cons, allOfList_cons, allOfList_cons, allOfList_cons,
    allOfList_cons, allOfList_nil, grammar_leaf_key, grammar_leaf_id id (consumes_parseId e2).2,
    grammar_leaf_key, grammar_parseDescriptions e5, grammar_parseOperators e6,
    grammar_leaf_key]
  rfl

theorem parseNumber_nonempty {input : List Char} {pos pos1 : Nat} {n : List Char}
    (hd : isdigit (charAt input pos) = true) (h : parseNumber input pos = .ok (n, pos1)) :
    n ≠ [] ∧ ∀ c ∈ n, isdigit c = true := by
  obtain ⟨hall, hrun, _, _⟩ := parseNumber_ok h
  refine ⟨?_, List.all_eq_true.mp hall⟩
  have hlt : pos < input.length := by
    by_contra hge
    have : charAt input pos = Char.ofNat 0 := by
      unfold charAt
      rw [List.getD_eq_default _ _ (Nat.le_of_not_lt hge)]
    rw [this] at hd
    revert hd
    decide
  rw [hrun]
  unfold maximalRun
  rw [drop_eq_charAt_cons hlt, List.dropWhile_cons,
    if_neg (by simp [isspace_false_of_isdigit hd]), List.takeWhile_cons,
    if_pos (by simp [isDelimiter_false_of_isdigit hd])]
  simp

theorem hasCategory_of_grammar (n : TreeNode) (h : isGrammarNode n = true) :
    hasCategory n = true := by
  obtain ⟨v, t, cs⟩ := n
  simp [isGrammarNode, hasCategory, TreeNode.type, TreeNode.value, TreeNode.children,
    leafCategories, categories, idIsLetters, constIsAlnum] at h ⊢
  rcases h.1.1 with ⟨ht, _⟩ | ⟨ht, _⟩
  · simp [ht]
  · rcases ht with ht | ht | ht | ht | ht <;> simp [ht]

theorem untaggedIsNonterminal_of_grammar (n : TreeNode) (h : isGrammarNode n = true) :
    untaggedIsNonterminal n = true := by
  obtain ⟨v, t, cs⟩ := n
  simp [isGrammarNode, untaggedIsNonterminal, TreeNode.type, TreeNode.value,
    TreeNode.children, leafCategories, idIsLetters, constIsAlnum] at h ⊢
  rcases h.1.1 with ⟨_, hv⟩ | ⟨ht, _⟩
  · exact Or.inr hv
  · rcases ht with ht | ht | ht | ht | ht <;> simp [ht]

theorem notProgram_of_grammar (n : TreeNode) (h : isGrammarNode n = true) :
    notProgram n = true := by
  obtain ⟨v, t, cs⟩ := n
  simp [isGrammarNode, notProgram, TreeNode.type, TreeNode.value, TreeNode.children,
    leafCategories, idIsLetters, constIsAlnum] at h ⊢
  rcases h.1.1 with ⟨ht, _⟩ | ⟨ht, _⟩
  · simp [ht]
  · rcases ht with ht | ht | ht | ht | ht <;> simp [ht]

theorem taggedIsLeaf_of_grammar (n : TreeNode) (h : isGrammarNode n = true) :
    taggedIsLeaf n = true := by
  obtain ⟨v, t, cs⟩ := n
  simp [isGrammarNode, taggedIsLeaf, TreeNode.type, TreeNode.value, TreeNode.children,
    leafCategories, idIsLetters, constIsAlnum] at h ⊢
  rcases h.1.1 with ⟨ht, _⟩ | ⟨_, hc⟩
  · exact Or.inl ht
  · exact Or.inr hc

theorem idIsLetters_of_grammar (n : TreeNode) (h : isGrammarNode n = true) :
    idIsLetters n = true := by
  simp only [isGrammarNode, Bool.and_eq_true] at h
  exact h.1.2

theorem constIsAlnum_of_grammar (n : TreeNode) (h : isGrammarNode n = true) :
    constIsAlnum n = true := by
  simp only [isGrammarNode, Bool.and_eq_true] at h
  exact h.2

theorem all_of_root {p : TreeNode → Bool} {t : TreeNode} (hroot : p t = true)
    (hc : TreeNode.allOfList p t.children = true) : t.all p = true := by
  obtain ⟨v, ty, cs⟩ := t
  rw [TreeNode.all, hroot]
  exact hc

/-! ## A sum of numbers on the right of an assignment -/

theorem matchToken_fwd_error {input : List Char} {pos : Nat} (token : String)
    (rest : List Char) (h : input.drop pos = rest)
    (hr : ∀ c ∈ rest.head?, isspace c = false) (hne : rest.take token.length ≠ token.data) :
    matchToken input pos token = .error (.exit pos ("Expected \x27" ++ token ++ "\x27")) := by
  have hs := skipWhitespace_none rest h hr
  unfold matchToken
  simp only [hs]
  have : substr input pos token.length = rest.take token.length := by
    unfold substr; rw [h]
  rw [this, if_neg hne]

theorem parseOp_third_operand {input : List Char} {pos : Nat} (ws id m : List Char) (o : Char)
    (n : List Char) (c : Char) (rest : List Char)
    (h : input.drop pos = ws ++ (id ++ (':' :: '=' :: (m ++ (o :: (n ++ (c :: rest)))))))
    (hws : ∀ c ∈ ws, isspace c = true) (hid : ∀ c ∈ id, isalpha c = true) (hne : id ≠ [])
    (hm : ∀ c ∈ m, isdigit c = true) (hmn : m ≠ []) (ho : o = '+' ∨ o = '-')
    (hn : ∀ c ∈ n, isdigit c = true) (hnn : n ≠ []) (hc : c = '+' ∨ c = '-') :
    ∃ q, parseOp input pos = .error (.exit q "Expected \x27;\x27") ∧
      input.drop q = c :: rest := by
  have hod : isDelimiter o = true := by rcases ho with ho | ho <;> subst ho <;> decide
  have hos : isspace o = false := by rcases ho with ho | ho <;> subst ho <;> decide
  have hcd : isDelimiter c = true := by rcases hc with hc | hc <;> subst hc <;> decide
  have hcs : isspace c = false := by rcases hc with hc | hc <;> subst hc <;> decide
  have hcn : c ≠ ';' := by rcases hc with hc | hc <;> subst hc <;> decide
  obtain ⟨p1, e1, h1⟩ := parseId_fwd ws id _ h hws hid hne (by simp; decide)
  obtain ⟨p2, e2, h2⟩ := @matchToken_fwd _ p1 [] ":=" (m ++ (o :: (n ++ (c :: rest))))
    (by simpa using h1) (by simp) (by simp; decide)
  have hs2 : skipWhitespace input p2 = p2 := by
    apply skipWhitespace_none _ h2
    cases m with
    | nil => exact absurd rfl hmn
    | cons d m =>
      intro x hx
      simp only [List.cons_append, List.head?_cons, Option.mem_def, Option.some.injEq] at hx
      subst hx
      exact isspace_false_of_isdigit (hm _ (by simp))
  obtain ⟨p3, e3, h3⟩ := parseOperand_number_fwd m _ h2 hm hmn (by simpa using hod)
  have hs3 : skipWhitespace input p3 = p3 := skipWhitespace_none _ h3 (by simpa using hos)
  have hc3 : charAt input p3 = o := charAt_of_drop h3
  have hlt3 : p3 < input.length := lt_length_of_drop h3
  have h3s : input.drop (p3 + 1) = n ++ (c :: rest) := by
    have := drop_add_of_drop (a := [o]) (by simpa using h3)
    simpa using this
  have hs4 : skipWhitespace input (p3 + 1) = p3 + 1 := by
    apply skipWhitespace_none _ h3s
    cases n with
    | nil => exact absurd rfl hnn
    | cons d n =>
      intro x hx
      simp only [List.cons_append, List.head?_cons, Option.mem_def, Option.some.injEq] at hx
      subst hx
      exact isspace_false_of_isdigit (hn _ (by simp))
  obtain ⟨p4, e4, h4⟩ := parseOperand_number_fwd n (c :: rest) h3s hn hnn (by simpa using hcd)
  have e5 := matchToken_fwd_error ";" (c :: rest) h4 (by simpa using hcs)
    (by
      show ¬ ([c] = [';'])
      intro hc2
      injection hc2 with hc2
      exact hcn hc2)
  refine ⟨p4, ?_, h4⟩
  unfold parseOp
  simp only [e1, e2, hs2, e3, hs3, hc3]
  rw [if_pos ⟨hlt3, ho⟩]
  simp only [hs4, e4, e5]
  rfl

theorem parse_of_failed_statement {input : List Char} {p1 p2 p3 p4 p5 : Nat} {id : List Char}
    {descriptions : TreeNode} {e : Abort}
    (e1 : matchToken input 0 "procedure" = .ok p1) (e2 : parseId input p1 = .ok (id, p2))
    (e3 : matchToken input p2 ";" = .ok p3) (e4 : matchToken input p3 "begin" = .ok p4)
    (e5 : parseDescriptions input p4 = .ok (descriptions, p5))
    (e6 : parseOp input p5 = .error e) : parse input = .error e := by
  unfold parse parseProcedure parseOperators parseOperatorsLoop
  simp only [e1, e2, e3, e4, e5, e6]

theorem position_of_drop {input : List Char} {q : Nat} {c : Char} {rest : List Char}
    (h : input.drop q = c :: rest) : q + (rest.length + 1) = input.length := by
  have hlt := lt_length_of_drop h
  have := length_sub_of_drop h
  simp only [List.length_cons] at this
  omega

/-! ## The claims -/

/-- C1 as stated fails: `procedure p; begin x:="a"; end` is accepted, and the labels of
the tagged leaves of its tree, concatenated in pre-order, are `procedurepbeginx:=a;end`:
the `;` after the procedure name and the quotes of the string constant are in the input
with the whitespace removed and not among the leaves. -/
theorem leaves_drop_semicolon_and_quotes :
    ∃ t, parse "procedure p; begin x:=\"a\"; end".toList = .ok t ∧
      t.leafText = "procedurepbeginx:=a;end".toList ∧
      t.leafText ≠ "procedure p; begin x:=\"a\"; end".toList.filter (fun c => !isspace c) :=
  ⟨_, rfl, by decide, by decide⟩

/-- C1, amended: for every input on which `parse` succeeds, the labels of the tagged
leaves of the tree, concatenated in depth-first pre-order, are the input with the
whitespace and the double quotes removed, the first `;` of the input (the one after the
procedure name) possibly missing. -/
theorem leaves_reproduce_input (input : List Char) (t : TreeNode) (h : parse input = .ok t) :
    t.leafText = stripped input ∨ t.leafText = (stripped input).erase ';' := by
  obtain ⟨id, body, hid, hs, ht⟩ := stripped_of_parse h
  right
  rw [hs, ht]
  have hnot : ';' ∉ "procedure".data ++ id := by
    intro hmem
    rcases List.mem_append.mp hmem with hm | hm
    · revert hm; decide
    · have := hid _ hm
      revert this; decide
  rw [List.erase_append_right _ hnot, List.erase_cons_head]

/-- C1, amended, at `procedure p; begin x:="a"; end`. -/
theorem leaves_reproduce_input_witness :
    parse "procedure p; begin x:=\"a\"; end".toList =
      .ok (programNode "p" [] [assignNode "x" "a"]) ∧
    ((programNode "p" [] [assignNode "x" "a"]).leafText =
        stripped "procedure p; begin x:=\"a\"; end".toList ∨
      (programNode "p" [] [assignNode "x" "a"]).leafText =
        (stripped "procedure p; begin x:=\"a\"; end".toList).erase ';') :=
  ⟨by decide, leaves_reproduce_input _ _ (by decide)⟩

/-- C2: for every input `s` on which `parse` succeeds and every non-empty text `t`
(whitespace included), `parse` on `s` followed by `t` ends with the error
`Unexpected input at the end` reported at position `|s|`; no tree is returned. -/
theorem parse_trailing_input_rejected (s t : List Char) (tree : TreeNode)
    (h : parse s = .ok tree) (ht : t ≠ []) :
    parse (s ++ t) = .error (.exit s.length "Unexpected input at the end") := by
  obtain ⟨pos1, e, hge⟩ := parse_ok h
  obtain ⟨e2, hle⟩ := parseProcedure_append t e
  have hpos : pos1 = s.length := by omega
  subst hpos
  have hlt : s.length < (s ++ t).length := by
    rw [List.length_append]
    have := List.length_pos.mpr ht
    omega
  unfold parse
  rw [e2]
  simp only
  rw [if_pos hlt]

/-- C2 at `procedure p; begin x:=1; end` followed by a newline. -/
theorem parse_trailing_input_rejected_witness :
    parse "procedure p; begin x:=1; end".toList = .ok (programNode "p" [] [assignNode "x" "1"]) ∧
    "\n".toList ≠ [] ∧
    parse ("procedure p; begin x:=1; end".toList ++ "\n".toList) =
      .error (.exit "procedure p; begin x:=1; end".toList.length
        "Unexpected input at the end") :=
  ⟨by decide, by decide,
    parse_trailing_input_rejected "procedure p; begin x:=1; end".toList "\n".toList
      (programNode "p" [] [assignNode "x" "1"]) (by decide) (by decide)⟩

/-- C3: when the maximal run of non-delimiter characters after the skipped whitespace
holds a decimal digit, `parseId` ends the parse with the `Invalid identifier` error that
names the whole run, reported at the end of the run; `parseOp`, whose first step is
`parseId`, ends with the same error; the program whose assignment target is `x1` is
rejected with that error. -/
theorem parseId_rejects_run_with_digit :
    (∀ (input : List Char) (pos : Nat), (∃ c ∈ maximalRun input pos, isdigit c = true) →
      parseId input pos =
          .error (.exit (pos + (skippedWhitespace input pos).length +
              (maximalRun input pos).length)
            ("Invalid identifier: \x27" ++ String.mk (maximalRun input pos) ++
              "\x27 must consist of letters only")) ∧
        parseOp input pos =
          .error (.exit (pos + (skippedWhitespace input pos).length +
              (maximalRun input pos).length)
            ("Invalid identifier: \x27" ++ String.mk (maximalRun input pos) ++
              "\x27 must consist of letters only"))) ∧
    parse "procedure p; begin x1:=1; end".toList =
      .error (.exit 21 "Invalid identifier: \x27x1\x27 must consist of letters only") := by
  refine ⟨?_, by decide⟩
  intro input pos h
  obtain ⟨c, hc, hd⟩ := h
  have hall : ¬ ((maximalRun input pos).all isalpha = true) := by
    intro hall
    have := (List.all_eq_true.mp hall) c hc
    rw [isalpha_of_isdigit_false hd] at this
    cases this
  have hid : parseId input pos =
      .error (.exit (pos + (skippedWhitespace input pos).length +
          (maximalRun input pos).length)
        ("Invalid identifier: \x27" ++ String.mk (maximalRun input pos) ++
          "\x27 must consist of letters only")) := by
    rw [parseId_eq, if_neg hall, skipWhitespace_eq]
    rfl
  refine ⟨hid, ?_⟩
  unfold parseOp
  rw [hid]

/-- C3 at the lexeme `x1` of `procedure p; begin x1:=1; end`. -/
theorem parseId_rejects_run_with_digit_witness :
    (∃ c ∈ maximalRun "procedure p; begin x1:=1; end".toList 18, isdigit c = true) ∧
    parseId "procedure p; begin x1:=1; end".toList 18 =
      .error (.exit 21 "Invalid identifier: \x27x1\x27 must consist of letters only") :=
  ⟨⟨'1', by decide, by decide⟩,
    (parseId_rejects_run_with_digit.1 "procedure p; begin x1:=1; end".toList 18
      ⟨'1', by decide, by decide⟩).1⟩

/-- C4 (fails on the code for `k = 3`): the program with three declarations
`var x:integer; ` is rejected with `Expected ':='` at offset 53, the `DescrList` loop
not skipping the space after the second declaration; with one and with two declarations
the program is accepted and the `DescrList` node has that many `Descr` children. -/
theorem parse_three_declarations :
    parse (declarationsProgram 3) = .error (.exit 53 "Expected \x27:=\x27") ∧
    parse (declarationsProgram 1) =
      .ok (programNode "p" [leaf "var" "WordsKey",
        .mk "DescrList" "" [descrNode "x" "integer"]] [assignNode "x" "1"]) ∧
    parse (declarationsProgram 2) =
      .ok (programNode "p" [leaf "var" "WordsKey",
        .mk "DescrList" "" [descrNode "x" "integer", leaf "var" "WordsKey",
          descrNode "x" "integer"]] [assignNode "x" "1"]) := by
  decide

/-- C5 (fails on the code): with a space on both sides of every `+`, the sum of five
operands is rejected with `Expected ';'` at offset 36 while the same sum without spaces
is accepted, and the sum of three operands is accepted with a tree that differs from the
tree of the sum without spaces; the loop of `parseNumExpr` does not skip the whitespace
that follows an operand. -/
theorem parse_spaced_sum :
    parse (sumProgram " + " 5) = .error (.exit 36 "Expected \x27;\x27") ∧
    (∃ t, parse (sumProgram "+" 5) = .ok t) ∧
    (∃ t, parse (sumProgram " + " 3) = .ok t) ∧
    parse (sumProgram " + " 3) ≠ parse (sumProgram "+" 3) := by
  refine ⟨by decide, ⟨_, rfl⟩, ⟨_, rfl⟩, by decide⟩

/-- C6 as stated fails: at the `;` of `procedure ;begin :=1; end` `parseId` returns
successfully with the empty lexeme and the cursor at the start of the lexeme, and the
whole program is accepted. -/
theorem parseId_empty_lexeme_succeeds :
    skipWhitespace "procedure ;begin :=1; end".toList 9 = 10 ∧
    parseId "procedure ;begin :=1; end".toList 9 = .ok ([], 10) ∧
    parse "procedure ;begin :=1; end".toList =
      .ok (programNode "" [] [assignNode "" "1"]) := by
  decide

/-- C6, amended: a successful `parseId` returns a lexeme of letters only that starts
where the skipped whitespace ends; the new position is that start plus the length of the
lexeme, so it is never before the start and is strictly after it exactly when the lexeme
is non-empty.  The empty lexeme is a successful match: when no non-delimiter character
follows the skipped whitespace, `parseId` returns the empty lexeme and the start as the
new position. -/
theorem parseId_advances_by_lexeme :
    (∀ (input : List Char) (pos : Nat) (lexeme : List Char) (pos1 : Nat),
      parseId input pos = .ok (lexeme, pos1) →
        lexeme.all isalpha = true ∧ pos ≤ skipWhitespace input pos ∧
        pos1 = skipWhitespace input pos + lexeme.length ∧
        lexeme = substr input (skipWhitespace input pos) lexeme.length ∧
        (skipWhitespace input pos < pos1 ↔ lexeme ≠ [])) ∧
    (∀ (input : List Char) (pos : Nat), maximalRun input pos = [] →
      parseId input pos = .ok ([], skipWhitespace input pos)) := by
  constructor
  · intro input pos lexeme pos1 h
    obtain ⟨hall, _, hp, hl⟩ := parseId_ok h
    refine ⟨hall, le_skipWhitespace input pos, hp, hl, ?_⟩
    rw [← List.length_pos]
    omega
  · intro input pos h
    rw [parseId_eq, h]
    rfl

/-- C6, amended, at the procedure name of `procedure p; begin x:=1; end`. -/
theorem parseId_advances_by_lexeme_witness :
    parseId "procedure p; begin x:=1; end".toList 9 = .ok (['p'], 11) ∧
    (['p'].all isalpha = true ∧ 9 ≤ skipWhitespace "procedure p; begin x:=1; end".toList 9 ∧
      11 = skipWhitespace "procedure p; begin x:=1; end".toList 9 + ['p'].length ∧
      ['p'] = substr "procedure p; begin x:=1; end".toList
        (skipWhitespace "procedure p; begin x:=1; end".toList 9) ['p'].length ∧
      (skipWhitespace "procedure p; begin x:=1; end".toList 9 < 11 ↔ ['p'] ≠ [])) :=
  ⟨by decide,
    parseId_advances_by_lexeme.1 "procedure p; begin x:=1; end".toList 9 ['p'] 11 (by decide)⟩

/-- C7 as stated fails: `ending` is a non-empty identifier of letters that is none of
the keywords, and `procedure p; begin x:=1; ending:=2; end` is rejected: the `Operators`
loop stops at the first three characters `end`, `match("end")` consumes them, and the
rest is reported as unexpected input at offset 28. -/
theorem parse_identifier_ending_rejected :
    "ending".toList ≠ [] ∧ "ending".toList.all isalpha = true ∧ "ending" ∉ keywords ∧
    parse (twoAssignmentsProgram "ending".toList) =
      .error (.exit 28 "Unexpected input at the end") := by
  decide

/-- C7, amended: for every non-empty identifier `id` of letters whose first three
characters are not `end`, the program `procedure p; begin x:=1; id:=2; end` is accepted
and its `Operators` node has two `Op` children, the second with the `Id` label `id`. -/
theorem parse_two_assignments (id : List Char) (hne : id ≠ [])
    (hid : ∀ c ∈ id, isalpha c = true) (hend : id.take 3 ≠ "end".toList) :
    parse (twoAssignmentsProgram id) =
      .ok (programNode "p" [] [assignNode "x" "1", assignNode (String.mk id) "2"]) := by
  obtain ⟨p1, p2, p3, p4, e1, e2, e3, e4, h4⟩ :=
    @header_fwd (twoAssignmentsProgram id)
      (" x:=1; ".data ++ (id ++ ":=2; end".data)) (by simp [twoAssignmentsProgram])
  obtain ⟨p5, e5, h5⟩ := @parseDescriptions_absent_fwd _ p4 [' ']
    ("x:=1; ".data ++ (id ++ ":=2; end".data)) (by rw [h4]; rfl)
    (by simp; decide) (by simp; decide)
    (by show ¬ (['x', ':', '='] = ['v', 'a', 'r']); decide)
  obtain ⟨p6, e6, h6⟩ := @parseOp_const_fwd _ p5 [] ['x'] ['1'] (' ' :: (id ++ ":=2; end".data))
    (by rw [h5]; rfl) (by simp) (by simp; decide) (by simp) (by simp; decide)
    (by simp)
  have hlt5 : p5 < (twoAssignmentsProgram id).length := lt_length_of_drop (by rw [h5]; rfl)
  obtain ⟨k, hk⟩ : ∃ k, (twoAssignmentsProgram id).length - p5 = k + 1 :=
    ⟨(twoAssignmentsProgram id).length - p5 - 1, by omega⟩
  obtain ⟨a, tail, hat, ha⟩ := head_isalpha_not_space ":=2; end".data hid hne
  obtain ⟨p7, h7, e7⟩ := parseOperatorsLoop_more (k + 1) [' '] a tail e6
    (by rw [h6, hat]; rfl) (by simp; decide) ha
    (by rw [← hat]; exact take_three_append_ne _ ':' _ (by decide) (by decide) hend)
  rw [← hat] at h7
  obtain ⟨p8, e8, h8⟩ := @parseOp_const_fwd _ p7 [] id ['2'] " end".data
    (by rw [h7]; rfl) (by simp) hid hne (by simp; decide) (by simp)
  obtain ⟨p9, e9, h9⟩ := parseOperatorsLoop_last k [' '] [] e8
    (by rw [h8]; rfl) (by simp; decide)
  obtain ⟨p10, e10, h10⟩ := @matchToken_fwd _ p9 [] "end" [] (by rw [h9]; rfl) (by simp)
    (by simp; decide)
  rw [e9] at e7
  rw [← hk] at e7
  exact parse_of_steps e1 e2 e3 e4 e5 e7 e10 h10

/-- C7, amended, at `id = total`. -/
theorem parse_two_assignments_witness :
    "total".toList ≠ [] ∧ (∀ c ∈ "total".toList, isalpha c = true) ∧
    "total".toList.take 3 ≠ "end".toList ∧
    parse (twoAssignmentsProgram "total".toList) =
      .ok (programNode "p" [] [assignNode "x" "1", assignNode "total" "2"]) :=
  ⟨by decide, by decide, by decide,
    parse_two_assignments "total".toList (by decide) (by decide) (by decide)⟩

/-- C8 as stated fails: `variable` is a non-empty identifier of letters that is none of
the keywords, and `procedure p; begin variable:=1; end` is rejected: `parseDescriptions`
takes the first three characters `var` for the keyword and the declaration that follows
has no type. -/
theorem parse_identifier_variable_rejected :
    "variable".toList ≠ [] ∧ "variable".toList.all isalpha = true ∧
    "variable" ∉ keywords ∧
    parse (oneAssignmentProgram "variable".toList) =
      .error (.exit 28 "Expected type \x27integer\x27 or \x27char\x27") := by
  decide

/-- C8, amended: for every non-empty identifier `id` of letters whose first three
characters are not `var`, the program `procedure p; begin id:=1; end` is accepted and
its `Descriptions` node has no children. -/
theorem parse_without_declarations (id : List Char) (hne : id ≠ [])
    (hid : ∀ c ∈ id, isalpha c = true) (hvar : id.take 3 ≠ "var".toList) :
    parse (oneAssignmentProgram id) =
      .ok (programNode "p" [] [assignNode (String.mk id) "1"]) := by
  obtain ⟨p1, p2, p3, p4, e1, e2, e3, e4, h4⟩ :=
    @header_fwd (oneAssignmentProgram id)
      (' ' :: (id ++ ":=1; end".data)) (by simp [oneAssignmentProgram])
  obtain ⟨a, tail, hat, ha⟩ := head_isalpha_not_space ":=1; end".data hid hne
  obtain ⟨p5, e5, h5⟩ := @parseDescriptions_absent_fwd _ p4 [' '] (id ++ ":=1; end".data)
    (by rw [h4]; rfl) (by simp; decide) (by rw [hat]; simpa using ha)
    (take_three_append_ne _ ':' _ (by decide) (by decide) hvar)
  obtain ⟨p6, e6, h6⟩ := @parseOp_const_fwd _ p5 [] id ['1'] " end".data
    (by rw [h5]; rfl) (by simp) hid hne (by simp; decide) (by simp)
  obtain ⟨p7, e7, h7⟩ := parseOperatorsLoop_last ((oneAssignmentProgram id).length - p5)
    [' '] [] e6 (by rw [h6]; rfl) (by simp; decide)
  obtain ⟨p8, e8, h8⟩ := @matchToken_fwd _ p7 [] "end" [] (by rw [h7]; rfl) (by simp)
    (by simp; decide)
  exact parse_of_steps e1 e2 e3 e4 e5 e7 e8 h8

/-- C8, amended, at `id = x`. -/
theorem parse_without_declarations_witness :
    "x".toList ≠ [] ∧ (∀ c ∈ "x".toList, isalpha c = true) ∧
    "x".toList.take 3 ≠ "var".toList ∧
    parse (oneAssignmentProgram "x".toList) =
      .ok (programNode "p" [] [assignNode "x" "1"]) :=
  ⟨by decide, by decide, by decide,
    parse_without_declarations "x".toList (by decide) (by decide) (by decide)⟩

/-- C9: the program with the declarations `var x:integer;` and `var y:char;` is
accepted; its tree has one `Descriptions` node, the subtree of that node has two `Descr`
nodes, and in the pre-order sequence of tagged leaves the leaves of each `Descr` come
right after a `var` leaf tagged `WordsKey`. -/
theorem parse_two_declarations :
    parse "procedure p; begin var x:integer; var y:char; x:=1; end".toList =
      .ok (.mk "Program" "Program" [leaf "procedure" "WordsKey", leaf "p" "Id",
        leaf "begin" "WordsKey", twoDeclarationsNode,
        .mk "Operators" "" [assignNode "x" "1"], leaf "end" "WordsKey"]) ∧
    (TreeNode.mk "Program" "Program" [leaf "procedure" "WordsKey", leaf "p" "Id",
        leaf "begin" "WordsKey", twoDeclarationsNode,
        .mk "Operators" "" [assignNode "x" "1"], leaf "end" "WordsKey"]).count
      "Descriptions" = 1 ∧
    twoDeclarationsNode.count "Descr" = 2 ∧
    twoDeclarationsNode.children = [leaf "var" "WordsKey", .mk "DescrList" ""
      [descrNode "x" "integer", leaf "var" "WordsKey", descrNode "y" "char"]] ∧
    (TreeNode.mk "Program" "Program" [leaf "procedure" "WordsKey", leaf "p" "Id",
        leaf "begin" "WordsKey", twoDeclarationsNode,
        .mk "Operators" "" [assignNode "x" "1"], leaf "end" "WordsKey"]).leaves =
      [("procedure", "WordsKey"), ("p", "Id"), ("begin", "WordsKey")] ++
        (("var", "WordsKey") :: (descrNode "x" "integer").leaves) ++
        (("var", "WordsKey") :: (descrNode "y" "char").leaves) ++
        [("x", "Id"), (":=", "Symbols_of_Operation"), ("1", "Const"),
          (";", "Symbols_of_Separating"), ("end", "WordsKey")] ∧
    (descrNode "x" "integer").leaves =
      [("x", "Id"), (":", "Symbols_of_Separating"), ("integer", "WordsKey"),
        (";", "Symbols_of_Separating")] ∧
    (descrNode "y" "char").leaves =
      [("y", "Id"), (":", "Symbols_of_Separating"), ("char", "WordsKey"),
        (";", "Symbols_of_Separating")] := by
  decide

/-- C10: for all non-empty strings of decimal digits `m` and `n` and each operator `o`
among `+` and `-`, the program `procedure p; begin x:=` m o n `; end` is accepted and the
children of its one `Op` node are, in order, `x` tagged `Id`, `:=` tagged
`Symbols_of_Operation`, `m` tagged `Const`, `o` tagged `Symbols_of_Operation`, `n` tagged
`Const` and `;` tagged `Symbols_of_Separating`. -/
theorem parse_binary_assignment (m n : List Char) (o : Char) (hm : m ≠ [])
    (hmd : ∀ c ∈ m, isdigit c = true) (hn : n ≠ []) (hnd : ∀ c ∈ n, isdigit c = true)
    (ho : o = '+' ∨ o = '-') :
    parse (binaryProgram m o n) =
      .ok (programNode "p" [] [.mk "Op" "" [leaf "x" "Id", leaf ":=" "Symbols_of_Operation",
        leaf (String.mk m) "Const", leaf (String.singleton o) "Symbols_of_Operation",
        leaf (String.mk n) "Const", leaf ";" "Symbols_of_Separating"]]) := by
  obtain ⟨p1, p2, p3, p4, e1, e2, e3, e4, h4⟩ :=
    @header_fwd (binaryProgram m o n)
      (" x:=".data ++ (m ++ (o :: (n ++ "; end".data)))) (by simp [binaryProgram])
  obtain ⟨p5, e5, h5⟩ := @parseDescriptions_absent_fwd _ p4 [' ']
    ("x:=".data ++ (m ++ (o :: (n ++ "; end".data)))) (by rw [h4]; rfl)
    (by simp; decide) (by simp; decide)
    (by show ¬ (['x', ':', '='] = ['v', 'a', 'r']); decide)
  obtain ⟨p6, e6, h6⟩ := @parseOp_two_numbers_fwd _ p5 [] ['x'] m o n " end".data
    (by rw [h5]; rfl) (by simp) (by simp; decide) (by simp) hmd hm ho hnd hn
  obtain ⟨p7, e7, h7⟩ := parseOperatorsLoop_last ((binaryProgram m o n).length - p5)
    [' '] [] e6 (by rw [h6]; rfl) (by simp; decide)
  obtain ⟨p8, e8, h8⟩ := @matchToken_fwd _ p7 [] "end" [] (by rw [h7]; rfl) (by simp)
    (by simp; decide)
  exact parse_of_steps e1 e2 e3 e4 e5 e7 e8 h8

/-- C10 at `m = 1`, `o = +`, `n = 2`. -/
theorem parse_binary_assignment_witness :
    "1".toList ≠ [] ∧ (∀ c ∈ "1".toList, isdigit c = true) ∧ "2".toList ≠ [] ∧
    (∀ c ∈ "2".toList, isdigit c = true) ∧ ('+' = '+' ∨ '+' = '-') ∧
    parse "procedure p; begin x:=1+2; end".toList =
      .ok (programNode "p" [] [.mk "Op" "" [leaf "x" "Id", leaf ":=" "Symbols_of_Operation",
        leaf "1" "Const", leaf "+" "Symbols_of_Operation", leaf "2" "Const",
        leaf ";" "Symbols_of_Separating"]]) :=
  ⟨by decide, by decide, by decide, by decide, by decide,
    parse_binary_assignment "1".toList "2".toList '+' (by decide) (by decide) (by decide)
      (by decide) (by decide)⟩

/-- C11: when the text at the cursor is whitespace, a double quote, a text `text` of
letters and digits (possibly empty) and a closing double quote, `parseStringConst`
succeeds, returns `text` without the quotes and leaves the cursor right after the
closing quote; the program `procedure p; begin x:="ab1"; end` is accepted with a `Const`
node labelled `ab1`. -/
theorem parseStringConst_accepts_alnum :
    (∀ (input : List Char) (pos : Nat) (ws text rest : List Char),
      input.drop pos = ws ++ '"' :: (text ++ '"' :: rest) →
      (∀ c ∈ ws, isspace c = true) → (∀ c ∈ text, isalpha c = true ∨ isdigit c = true) →
      parseStringConst input pos = .ok (text, pos + ws.length + 1 + text.length + 1) ∧
        input.drop (pos + ws.length + 1 + text.length + 1) = rest) ∧
    parse "procedure p; begin x:=\"ab1\"; end".toList =
      .ok (programNode "p" [] [assignNode "x" "ab1"]) := by
  refine ⟨?_, by decide⟩
  intro input pos ws text rest h hws htext
  have hall : ∀ c ∈ text, (isdigit c || isalpha c) = true := by
    intro c hc
    rcases htext c hc with ha | hd
    · simp [ha]
    · simp [hd]
  obtain ⟨e, hd⟩ := skipWhitespace_fwd ws _ h hws (by simp; decide)
  have hlt : pos + ws.length < input.length := lt_length_of_drop hd
  have hc : charAt input (pos + ws.length) = '"' := charAt_of_drop hd
  have hd1 : input.drop (pos + ws.length + 1) = text ++ '"' :: rest := by
    have := drop_add_of_drop (a := ['"']) (by simpa using hd)
    simpa using this
  have hfuel : text.length ≤ input.length - (pos + ws.length + 1) := by
    rw [length_sub_of_drop hd1]; simp
  have hd2 : input.drop (pos + ws.length + 1 + text.length) = '"' :: rest :=
    drop_add_of_drop hd1
  have hd3 : input.drop (pos + ws.length + 1 + text.length + 1) = rest := by
    have := drop_add_of_drop (a := ['"']) (by simpa using hd2)
    simpa using this
  refine ⟨?_, hd3⟩
  unfold parseStringConst
  simp only [e]
  rw [if_pos ⟨hlt, hc⟩, stringConstLoop_fwd input text _ _ [] rest hd1 hall hfuel]
  simp only [List.nil_append]
  rw [if_pos ⟨lt_length_of_drop hd2, charAt_of_drop hd2⟩]

/-- C11 at the constant `"ab1"` of `procedure p; begin x:="ab1"; end`. -/
theorem parseStringConst_accepts_alnum_witness :
    "procedure p; begin x:=\"ab1\"; end".toList.drop 22 =
      [] ++ '"' :: ("ab1".toList ++ '"' :: "; end".toList) ∧
    (∀ c ∈ ([] : List Char), isspace c = true) ∧
    (∀ c ∈ "ab1".toList, isalpha c = true ∨ isdigit c = true) ∧
    parseStringConst "procedure p; begin x:=\"ab1\"; end".toList 22 =
      .ok ("ab1".toList, 22 + ([] : List Char).length + 1 + "ab1".toList.length + 1) :=
  ⟨by decide, by decide, by decide,
    (parseStringConst_accepts_alnum.1 "procedure p; begin x:=\"ab1\"; end".toList 22 []
      "ab1".toList "; end".toList (by decide) (by decide) (by decide)).1⟩

/-- C12: when the text after the opening quote of a string constant is letters and
digits `good` followed by a character `bad` that is neither a letter, a digit nor a
double quote, `parseStringConst` ends the parse with the `Invalid character` error
reported at the offset of `bad`; the program `procedure p; begin x:="a b"; end` is
rejected with that error at offset 24, the position of the space. -/
theorem parseStringConst_rejects_invalid_character :
    (∀ (input : List Char) (pos : Nat) (ws good : List Char) (bad : Char) (rest : List Char),
      input.drop pos = ws ++ '"' :: (good ++ bad :: rest) →
      (∀ c ∈ ws, isspace c = true) → (∀ c ∈ good, isalpha c = true ∨ isdigit c = true) →
      bad ≠ '"' → isalpha bad = false → isdigit bad = false →
      parseStringConst input pos = .error (.exit (pos + ws.length + 1 + good.length)
        ("Invalid character \x27" ++ String.singleton bad ++ "\x27 in string constant"))) ∧
    parse "procedure p; begin x:=\"a b\"; end".toList =
      .error (.exit 24 "Invalid character \x27 \x27 in string constant") := by
  refine ⟨?_, by decide⟩
  intro input pos ws good bad rest h hws hgood hq ha hdg
  have hall : ∀ c ∈ good, (isdigit c || isalpha c) = true := by
    intro c hc
    rcases hgood c hc with ha | hd
    · simp [ha]
    · simp [hd]
  obtain ⟨e, hd⟩ := skipWhitespace_fwd ws _ h hws (by simp; decide)
  have hlt : pos + ws.length < input.length := lt_length_of_drop hd
  have hc : charAt input (pos + ws.length) = '"' := charAt_of_drop hd
  have hd1 : input.drop (pos + ws.length + 1) = good ++ bad :: rest := by
    have := drop_add_of_drop (a := ['"']) (by simpa using hd)
    simpa using this
  have hfuel : good.length < input.length - (pos + ws.length + 1) := by
    rw [length_sub_of_drop hd1]; simp
  unfold parseStringConst
  simp only [e]
  rw [if_pos ⟨hlt, hc⟩, stringConstLoop_invalid input good _ _ [] bad rest hd1 hall hq
    (by simp [ha, hdg]) hfuel]

/-- C12 at the space of `procedure p; begin x:="a b"; end`. -/
theorem parseStringConst_rejects_invalid_character_witness :
    "procedure p; begin x:=\"a b\"; end".toList.drop 22 =
      [] ++ '"' :: (['a'] ++ ' ' :: "b\"; end".toList) ∧
    (∀ c ∈ ([] : List Char), isspace c = true) ∧
    (∀ c ∈ ['a'], isalpha c = true ∨ isdigit c = true) ∧
    ' ' ≠ '"' ∧ isalpha ' ' = false ∧ isdigit ' ' = false ∧
    parseStringConst "procedure p; begin x:=\"a b\"; end".toList 22 =
      .error (.exit (22 + ([] : List Char).length + 1 + ['a'].length)
        ("Invalid character \x27" ++ String.singleton ' ' ++ "\x27 in string constant")) :=
  ⟨by decide, by decide, by decide, by decide, by decide, by decide,
    parseStringConst_rejects_invalid_character.1 "procedure p; begin x:=\"a b\"; end".toList
      22 [] ['a'] ' ' "b\"; end".toList (by decide) (by decide) (by decide) (by decide)
      (by decide) (by decide)⟩

/-- C15: let `q` be the first offset from `p` on that holds a non-whitespace character,
or the length of the input when there is none.  `matchToken` started at `p` succeeds
exactly when the input has `token` as its text at `q`; on success the new position is
`q + |token|`; on failure the error is `Expected 'token'` reported at `q`. -/
theorem matchToken_at_first_non_whitespace (input : List Char) (p q : Nat) (token : String)
    (hpq : p ≤ q) (hq : q ≤ input.length)
    (hws : ∀ i, p ≤ i → i < q → isspace (charAt input i) = true)
    (hstop : q < input.length → isspace (charAt input q) = false) :
    ((∃ p1, matchToken input p token = .ok p1) ↔
        substr input q token.length = token.data) ∧
      (substr input q token.length = token.data →
        matchToken input p token = .ok (q + token.length)) ∧
      (substr input q token.length ≠ token.data →
        matchToken input p token =
          .error (.exit q ("Expected \x27" ++ token ++ "\x27"))) := by
  have hs : skipWhitespace input p = q := skipWhitespace_unique hpq hq hws hstop
  have hyes : substr input q token.length = token.data →
      matchToken input p token = .ok (q + token.length) := by
    intro h
    unfold matchToken
    simp only [hs]
    rw [if_pos h]
  have hno : substr input q token.length ≠ token.data →
      matchToken input p token = .error (.exit q ("Expected \x27" ++ token ++ "\x27")) := by
    intro h
    unfold matchToken
    simp only [hs]
    rw [if_neg h]
  refine ⟨⟨?_, fun h => ⟨_, hyes h⟩⟩, hyes, hno⟩
  rintro ⟨p1, h1⟩
  by_contra hne
  rw [hno hne] at h1
  cases h1

/-- C15 at the `begin` of `procedure p; begin x:=1; end`, started at the space before
it. -/
theorem matchToken_at_first_non_whitespace_witness :
    12 ≤ 13 ∧ 13 ≤ "procedure p; begin x:=1; end".toList.length ∧
    (∀ i, 12 ≤ i → i < 13 →
      isspace (charAt "procedure p; begin x:=1; end".toList i) = true) ∧
    (13 < "procedure p; begin x:=1; end".toList.length →
      isspace (charAt "procedure p; begin x:=1; end".toList 13) = false) ∧
    matchToken "procedure p; begin x:=1; end".toList 12 "begin" = .ok (13 + "begin".length) :=
  ⟨by decide, by decide,
    fun i h1 h2 => by
      have hi : i = 12 := by omega
      subst hi
      decide,
    fun _ => by decide,
    (matchToken_at_first_non_whitespace "procedure p; begin x:=1; end".toList 12 13 "begin"
      (by decide) (by decide)
      (fun i h1 h2 => by
        have hi : i = 12 := by omega
        subst hi
        decide)
      (fun _ => by decide)).2.1 (by decide)⟩

/-- C19: for every input on which `parse` succeeds, the root has label `Program`,
category `Program` and six children, in this order: `procedure` tagged `WordsKey`, the
procedure name tagged `Id`, `begin` tagged `WordsKey`, the untagged `Descriptions` node,
the untagged `Operators` node and `end` tagged `WordsKey`.  The input has the keyword
`procedure` at its first non-whitespace offset; the procedure name is the maximal run of
non-delimiter characters that follows the keyword and the whitespace after it, and it is
what `parseId` returns there; the `Descriptions` node is the result of
`parseDescriptions` started after the `;` and the `begin` that follow the name, the
`Operators` node is the result of `parseOperators` started where `parseDescriptions`
stopped, and the `end` matched after it ends the input. -/
theorem parse_root_children (input : List Char) (t : TreeNode) (h : parse input = .ok t) :
    t.value = "Program" ∧ t.type = "Program" ∧ t.children.length = 6 ∧
    substr input (skippedWhitespace input 0).length "procedure".length = "procedure".data ∧
    ∃ descriptions operators p2 p3 p4 p5 p6,
      t.children = [leaf "procedure" "WordsKey",
        leaf (String.mk (maximalRun input
          ((skippedWhitespace input 0).length + "procedure".length))) "Id",
        leaf "begin" "WordsKey", descriptions, operators, leaf "end" "WordsKey"] ∧
      parseId input ((skippedWhitespace input 0).length + "procedure".length) =
        .ok (maximalRun input ((skippedWhitespace input 0).length + "procedure".length), p2) ∧
      matchToken input p2 ";" = .ok p3 ∧ matchToken input p3 "begin" = .ok p4 ∧
      parseDescriptions input p4 = .ok (descriptions, p5) ∧
      parseOperators input p5 = .ok (operators, p6) ∧
      matchToken input p6 "end" = .ok input.length ∧
      descriptions.value = "Descriptions" ∧ descriptions.type = "" ∧
      operators.value = "Operators" ∧ operators.type = "" := by
  obtain ⟨pos1, e, hend⟩ := parse_ok h
  obtain ⟨p1, id, p2, p3, p4, descriptions, p5, operators, p6, e1, e2, e3, e4, e5, e6, e7, ht⟩ :=
    parseProcedure_ok e
  subst ht
  have hws : skipWhitespace input 0 = (skippedWhitespace input 0).length := by
    rw [skipWhitespace_eq]
    simp [skippedWhitespace]
  obtain ⟨hkey, hp1⟩ := matchToken_ok e1
  rw [hws] at hkey hp1
  subst hp1
  obtain ⟨_, hid, _, _⟩ := parseId_ok e2
  subst hid
  have hle : pos1 ≤ input.length := by
    have hr := inRange_parseProcedure input 0 (Nat.zero_le _)
    rw [e] at hr
    exact (hr pos1 rfl).2
  have hpos : pos1 = input.length := by omega
  subst hpos
  refine ⟨rfl, rfl, rfl, hkey, descriptions, operators, p2, p3, p4, p5, p6, rfl, e2, e3, e4,
    e5, e6, e7, ?_⟩
  obtain ⟨ops, _, ho⟩ := parseOperators_ok e6
  subst ho
  rcases parseDescriptions_ok e5 with ⟨_, hd, _⟩ | ⟨_, q, l, _, _, hd⟩ <;> subst hd <;>
    exact ⟨rfl, rfl, rfl, rfl⟩

/-- C19 at `procedure p; begin x:=1; end`: the second child of the root is labelled `p`,
the run after the keyword. -/
theorem parse_root_children_witness :
    parse "procedure p; begin x:=1; end".toList = .ok (programNode "p" [] [assignNode "x" "1"]) ∧
    maximalRun "procedure p; begin x:=1; end".toList
      ((skippedWhitespace "procedure p; begin x:=1; end".toList 0).length +
        "procedure".length) = ['p'] ∧
    (programNode "p" [] [assignNode "x" "1"]).value = "Program" ∧
    (programNode "p" [] [assignNode "x" "1"]).type = "Program" ∧
    (programNode "p" [] [assignNode "x" "1"]).children.length = 6 ∧
    substr "procedure p; begin x:=1; end".toList
      (skippedWhitespace "procedure p; begin x:=1; end".toList 0).length
      "procedure".length = "procedure".data :=
  ⟨by decide, by decide,
    (parse_root_children "procedure p; begin x:=1; end".toList
      (programNode "p" [] [assignNode "x" "1"]) (by decide)).1,
    (parse_root_children "procedure p; begin x:=1; end".toList
      (programNode "p" [] [assignNode "x" "1"]) (by decide)).2.1,
    (parse_root_children "procedure p; begin x:=1; end".toList
      (programNode "p" [] [assignNode "x" "1"]) (by decide)).2.2.1,
    (parse_root_children "procedure p; begin x:=1; end".toList
      (programNode "p" [] [assignNode "x" "1"]) (by decide)).2.2.2.1⟩

/-- C14: for every input and every operation of the scanner and of the grammar started
at a position `pos` that is not after the end of the input, the position at which the
operation returns, or at which it reports its error, is not before `pos` and not after
the end of the input; an error of `parse` is reported at a position of the input. -/
theorem cursor_stays_in_range (input : List Char) (pos : Nat) (hp : pos ≤ input.length) :
    InRange input pos (some (skipWhitespace input pos)) ∧
    (∀ token, InRange input pos (endPosOfCursor (matchToken input pos token))) ∧
    InRange input pos (endPos (parseId input pos)) ∧
    InRange input pos (endPos (parseNumber input pos)) ∧
    InRange input pos (endPos (parseStringConst input pos)) ∧
    InRange input pos (endPos (parseVarList input pos)) ∧
    InRange input pos (endPos (parseType input pos)) ∧
    InRange input pos (endPos (parseDescr input pos)) ∧
    InRange input pos (endPos (parseDescrList input pos)) ∧
    InRange input pos (endPos (parseDescriptions input pos)) ∧
    (∀ fuel, InRange input pos (endPos (parseNumExpr input fuel pos))) ∧
    (∀ fuel, InRange input pos (endPos (parseSimpleNumExpr input fuel pos))) ∧
    InRange input pos (endPos (parseOperand input pos)) ∧
    InRange input pos (endPos (parseOp input pos)) ∧
    InRange input pos (endPos (parseOperators input pos)) ∧
    InRange input pos (endPos (parseProcedure input pos)) ∧
    (∀ p message, parse input = .error (.exit p message) → p ≤ input.length) :=
  ⟨inRange_some (le_skipWhitespace input pos) (skipWhitespace_le input pos hp),
    fun token => inRange_matchToken input pos token hp,
    inRange_parseId input pos hp,
    inRange_parseNumber input pos hp,
    inRange_parseStringConst input pos hp,
    inRange_parseVarList input pos hp,
    inRange_parseType input pos hp,
    inRange_parseDescr input pos hp,
    inRange_parseDescrList input pos hp,
    inRange_parseDescriptions input pos hp,
    fun fuel => (inRange_numExpr input fuel).1 pos hp,
    fun fuel => (inRange_numExpr input fuel).2.2 pos hp,
    inRange_parseOperand input pos hp,
    inRange_parseOp input pos hp,
    inRange_parseOperators input pos hp,
    inRange_parseProcedure input pos hp,
    fun _ _ h => parse_error_position h⟩

/-- C14 at `procedure p; begin x1:=1; end`, whose `parseOp` started at offset 18 reports
its error at offset 21. -/
theorem cursor_stays_in_range_witness :
    18 ≤ "procedure p; begin x1:=1; end".toList.length ∧
    parseOp "procedure p; begin x1:=1; end".toList 18 =
      .error (.exit 21 "Invalid identifier: \x27x1\x27 must consist of letters only") ∧
    InRange "procedure p; begin x1:=1; end".toList 18
      (endPos (parseOp "procedure p; begin x1:=1; end".toList 18)) :=
  ⟨by decide, by decide,
    (cursor_stays_in_range "procedure p; begin x1:=1; end".toList 18
      (by decide)).2.2.2.2.2.2.2.2.2.2.2.2.2.1⟩

/-- C17: `parse` ends on every input with a tree or with one error, never by running out
of fuel, and so does every grammar function started inside the input; a successful
`matchToken` of a non-empty token and a successful `parseOp` leave the cursor strictly
after the position they started at, which is what every round of the loops of
`parseVarList`, `parseDescrList` and `parseOperators` and every entry into a
parenthesised expression begin with (a round of the loop of `parseNumExpr` begins with
`pos++`). -/
theorem parse_ends_with_tree_or_error :
    (∀ input : List Char,
      (∃ t, parse input = .ok t) ∨ (∃ p m, parse input = .error (.exit p m))) ∧
    (∀ (input : List Char) (pos : Nat), pos ≤ input.length →
      parseStringConst input pos ≠ .error .fuel ∧ parseVarList input pos ≠ .error .fuel ∧
      parseDescr input pos ≠ .error .fuel ∧ parseDescrList input pos ≠ .error .fuel ∧
      parseDescriptions input pos ≠ .error .fuel ∧
      parseNumExpr input (2 * (input.length - pos) + 2) pos ≠ .error .fuel ∧
      parseOperand input pos ≠ .error .fuel ∧ parseOp input pos ≠ .error .fuel ∧
      parseOperators input pos ≠ .error .fuel ∧ parseProcedure input pos ≠ .error .fuel) ∧
    (∀ (input : List Char) (pos q : Nat) (token : String), 0 < token.length →
      matchToken input pos token = .ok q → pos < q) ∧
    (∀ (input : List Char) (pos q : Nat) (op : TreeNode), pos ≤ input.length →
      parseOp input pos = .ok (op, q) → pos < q) := by
  refine ⟨parse_total, ?_, ?_, ?_⟩
  · intro input pos hp
    exact ⟨noFuel_parseStringConst input pos, noFuel_parseVarList input pos hp,
      noFuel_parseDescr input pos hp, noFuel_parseDescrList input pos hp,
      noFuel_parseDescriptions input pos hp,
      (noFuel_numExpr input _).1 pos hp (Nat.le_refl _), noFuel_parseOperand input pos hp,
      noFuel_parseOp input pos hp, noFuel_parseOperators input pos hp,
      noFuel_parseProcedure input pos hp⟩
  · intro input pos q token hpos h
    obtain ⟨_, hq⟩ := matchToken_ok h
    have := le_skipWhitespace input pos
    omega
  · intro input pos q op hp h
    have := parseOp_advances hp h
    omega

/-- C17 at the `:=` of `procedure p; begin x:=1; end`. -/
theorem parse_ends_with_tree_or_error_witness :
    0 < ":=".length ∧ matchToken "procedure p; begin x:=1; end".toList 20 ":=" = .ok 22 ∧
    20 < 22 :=
  ⟨by decide, by decide,
    parse_ends_with_tree_or_error.2.2.1 "procedure p; begin x:=1; end".toList 20 22 ":="
      (by decide) (by decide)⟩

/-- C13: for every input on which `parse` succeeds, the `Operators` node has at least
one child and every child is an untagged node labelled `Op`; every input
`procedure p; begin` D `end` in which D has no `=` character, as when D is empty or a
text of `var` declarations (letters, whitespace, `,`, `:` and `;`), is rejected with an
error. -/
theorem operators_has_a_statement :
    (∀ (input : List Char) (t : TreeNode), parse input = .ok t →
      ∃ name descriptions ops,
        t = .mk "Program" "Program" [leaf "procedure" "WordsKey", leaf name "Id",
          leaf "begin" "WordsKey", descriptions, .mk "Operators" "" ops,
          leaf "end" "WordsKey"] ∧
        ops ≠ [] ∧ ∀ op ∈ ops, op.value = "Op" ∧ op.type = "") ∧
    (∀ D : List Char, (∀ c ∈ D, c ≠ '=') →
      ∃ p m, parse ("procedure p; begin".toList ++ D ++ "end".toList) = .error (.exit p m)) ∧
    parse "procedure p; beginend".toList = .error (.exit 21 "Expected \x27:=\x27") ∧
    parse "procedure p; begin var x:integer; var y:char; end".toList =
      .error (.exit 49 "Expected \x27:=\x27") := by
  refine ⟨?_, ?_, by decide, by decide⟩
  · intro input t h
    obtain ⟨pos1, e, _⟩ := parse_ok h
    obtain ⟨p1, id, p2, p3, p4, descriptions, p5, operators, p6, _, _, _, _, _, e6, _, ht⟩ :=
      parseProcedure_ok e
    obtain ⟨ops, e7, ho⟩ := parseOperators_ok e6
    subst ht ho
    exact ⟨String.mk id, descriptions, ops, rfl, parseOperatorsLoop_nodes input _ _ _ _ e7⟩
  · intro D hD
    rcases parse_total ("procedure p; begin".toList ++ D ++ "end".toList) with ⟨t, ht⟩ | h
    · have hmem := equals_sign_of_parse ht
      rcases List.mem_append.mp hmem with hm | hm
      · rcases List.mem_append.mp hm with hm | hm
        · exact absurd hm (by decide)
        · exact absurd rfl (hD _ hm)
      · exact absurd hm (by decide)
    · exact h

/-- C13 at the text of two declarations. -/
theorem operators_has_a_statement_witness :
    (∀ c ∈ " var x:integer; var y:char; ".toList, c ≠ '=') ∧
    ∃ p m, parse ("procedure p; begin".toList ++ " var x:integer; var y:char; ".toList ++
      "end".toList) = .error (.exit p m) :=
  ⟨by decide, operators_has_a_statement.2.1 " var x:integer; var y:char; ".toList (by decide)⟩

/-- C18: for every input on which `parse` succeeds, every node of the tree has a
category among `Program`, `WordsKey`, `Id`, `Const`, `Symbols_of_Separating`,
`Symbols_of_Operation` and the empty one; every untagged node is labelled with the name
of a nonterminal; the root is tagged `Program` and no node below it is; every tagged
node below the root has no children. -/
theorem tree_categories (input : List Char) (t : TreeNode) (h : parse input = .ok t) :
    t.all hasCategory = true ∧ t.all untaggedIsNonterminal = true ∧
    t.type = "Program" ∧ TreeNode.allOfList notProgram t.children = true ∧
    TreeNode.allOfList taggedIsLeaf t.children = true := by
  obtain ⟨hv, ht, hc⟩ := grammar_parse h
  refine ⟨?_, ?_, ht, ?_, ?_⟩
  · apply all_of_root
    · obtain ⟨v, ty, cs⟩ := t
      simp only [TreeNode.type] at ht
      subst ht
      rfl
    · exact TreeNode.allOfList_imp hasCategory_of_grammar _ hc
  · apply all_of_root
    · obtain ⟨v, ty, cs⟩ := t
      simp only [TreeNode.type] at ht
      subst ht
      rfl
    · exact TreeNode.allOfList_imp untaggedIsNonterminal_of_grammar _ hc
  · exact TreeNode.allOfList_imp notProgram_of_grammar _ hc
  · exact TreeNode.allOfList_imp taggedIsLeaf_of_grammar _ hc

/-- C18 at `procedure p; begin x:=1; end`. -/
theorem tree_categories_witness :
    parse "procedure p; begin x:=1; end".toList = .ok (programNode "p" [] [assignNode "x" "1"]) ∧
    (programNode "p" [] [assignNode "x" "1"]).all hasCategory = true ∧
    (programNode "p" [] [assignNode "x" "1"]).all untaggedIsNonterminal = true :=
  ⟨by decide,
    (tree_categories "procedure p; begin x:=1; end".toList
      (programNode "p" [] [assignNode "x" "1"]) (by decide)).1,
    (tree_categories "procedure p; begin x:=1; end".toList
      (programNode "p" [] [assignNode "x" "1"]) (by decide)).2.1⟩

/-- C20: for every input on which `parse` succeeds, the label of every node tagged `Id`
consists of letters only and the label of every node tagged `Const` of letters and
digits only; `parseNumber` called at a digit, as its callers `parseOp` and
`parseSimpleNumExpr` call it, returns a non-empty string of digits, which is the label of
the `Const` node they build. -/
theorem tree_lexically_sound :
    (∀ (input : List Char) (t : TreeNode), parse input = .ok t →
      t.all idIsLetters = true ∧ t.all constIsAlnum = true) ∧
    (∀ (input : List Char) (pos pos1 : Nat) (n : List Char),
      isdigit (charAt input pos) = true → parseNumber input pos = .ok (n, pos1) →
      n ≠ [] ∧ ∀ c ∈ n, isdigit c = true) ∧
    (∀ (input : List Char) (pos pos1 : Nat) (t : TreeNode),
      isdigit (charAt input pos) = true → parseOperand input pos = .ok (t, pos1) →
      ∃ n, t = leaf (String.mk n) "Const" ∧ n ≠ [] ∧ ∀ c ∈ n, isdigit c = true) ∧
    (∀ (input : List Char) (fuel pos pos1 : Nat) (t : TreeNode),
      isdigit (charAt input (skipWhitespace input pos)) = true →
      parseSimpleNumExpr input fuel pos = .ok (t, pos1) →
      ∃ n, t = .mk "SimpleExpr" "" [leaf (String.mk n) "Const"] ∧ n ≠ [] ∧
        ∀ c ∈ n, isdigit c = true) := by
  refine ⟨?_, ?_, ?_, ?_⟩
  · intro input t h
    obtain ⟨hv, ht, hc⟩ := grammar_parse h
    constructor
    · apply all_of_root
      · obtain ⟨v, ty, cs⟩ := t
        simp only [TreeNode.type] at ht
        subst ht
        rfl
      · exact TreeNode.allOfList_imp idIsLetters_of_grammar _ hc
    · apply all_of_root
      · obtain ⟨v, ty, cs⟩ := t
        simp only [TreeNode.type] at ht
        subst ht
        rfl
      · exact TreeNode.allOfList_imp constIsAlnum_of_grammar _ hc
  · intro input pos pos1 n hd h
    exact parseNumber_nonempty hd h
  · intro input pos pos1 t hd h
    rcases parseOperand_ok h with ⟨hq, _⟩ | ⟨_, _, n, e, ht⟩ | ⟨_, hnd, _⟩
    · rw [hq] at hd
      exact absurd hd (by decide)
    · exact ⟨n, ht, parseNumber_nonempty hd e⟩
    · rw [hnd] at hd
      cases hd
  · intro input fuel pos pos1 t hd h
    obtain ⟨f, _, hcase⟩ := parseSimpleNumExpr_ok h
    rcases hcase with ⟨ha, _⟩ | ⟨_, _, n, e, ht⟩ | ⟨_, hnd, _⟩
    · rw [isalpha_of_isdigit_false hd] at ha
      cases ha
    · exact ⟨n, ht, parseNumber_nonempty hd e⟩
    · rw [hnd] at hd
      cases hd

/-- C20 at the number of `procedure p; begin x:=1; end`. -/
theorem tree_lexically_sound_witness :
    isdigit (charAt "procedure p; begin x:=1; end".toList 22) = true ∧
    parseNumber "procedure p; begin x:=1; end".toList 22 = .ok (['1'], 23) ∧
    (['1'] ≠ [] ∧ ∀ c ∈ ['1'], isdigit c = true) :=
  ⟨by decide, by decide,
    tree_lexically_sound.2.1 "procedure p; begin x:=1; end".toList 22 23 ['1'] (by decide)
      (by decide)⟩

/-- C16 fails for three numbers: the program with the right-hand side `1+2+3` is rejected
with `Expected ';'` at offset 25, the second `+`. -/
theorem parse_sum_of_three_numbers_rejected :
    sumAssignmentProgram "1".toList [('+', "2".toList), ('+', "3".toList)] =
      "procedure p; begin x:=1+2+3; end".toList ∧
    parse "procedure p; begin x:=1+2+3; end".toList =
      .error (.exit 25 "Expected \x27;\x27") := by
  decide

/-- C16, amended: for non-empty strings of decimal digits joined by `+` or `-` without
whitespace, the program `procedure p; begin x:=` expr `; end` is accepted exactly when the
sum has one or two numbers. One number gives an `Op` with the children `x`, `:=`, the
number and `;`; two numbers give an `Op` with the children `x`, `:=`, the first number, the
operator, the second number and `;`; with three or more numbers the parse ends with
`Expected ';'` at the second operator. -/
theorem parse_number_sum (first : List Char) (rest : List (Char × List Char))
    (hf : first ≠ []) (hfd : ∀ c ∈ first, isdigit c = true)
    (hr : ∀ p ∈ rest, (p.1 = '+' ∨ p.1 = '-') ∧ p.2 ≠ [] ∧ ∀ c ∈ p.2, isdigit c = true) :
    ((∃ t, parse (sumAssignmentProgram first rest) = .ok t) ↔ rest.length ≤ 1) ∧
    (rest = [] → parse (sumAssignmentProgram first rest) =
      .ok (programNode "p" [] [assignNode "x" (String.mk first)])) ∧
    (∀ o n, rest = [(o, n)] → parse (sumAssignmentProgram first rest) =
      .ok (programNode "p" [] [.mk "Op" "" [leaf "x" "Id", leaf ":=" "Symbols_of_Operation",
        leaf (String.mk first) "Const", leaf (String.singleton o) "Symbols_of_Operation",
        leaf (String.mk n) "Const", leaf ";" "Symbols_of_Separating"]])) ∧
    (∀ o n o2 n2 tail, rest = (o, n) :: (o2, n2) :: tail →
      parse (sumAssignmentProgram first rest) =
        .error (.exit (22 + first.length + 1 + n.length) "Expected \x27;\x27")) := by
  have one : rest = [] → parse (sumAssignmentProgram first rest) =
      .ok (programNode "p" [] [assignNode "x" (String.mk first)]) := by
    intro hrest
    subst hrest
    obtain ⟨p1, p2, p3, p4, e1, e2, e3, e4, h4⟩ :=
      @header_fwd (sumAssignmentProgram first [])
        (" x:=".data ++ (first ++ "; end".data))
        (by simp [sumAssignmentProgram, numberSum])
    obtain ⟨p5, e5, h5⟩ := @parseDescriptions_absent_fwd _ p4 [' ']
      ("x:=".data ++ (first ++ "; end".data)) (by rw [h4]; rfl)
      (by simp; decide) (by simp; decide)
      (by show ¬ (['x', ':', '='] = ['v', 'a', 'r']); decide)
    obtain ⟨p6, e6, h6⟩ := @parseOp_const_fwd _ p5 [] ['x'] first " end".data
      (by rw [h5]; rfl) (by simp) (by simp; decide) (by simp) hfd hf
    obtain ⟨p7, e7, h7⟩ := parseOperatorsLoop_last ((sumAssignmentProgram first []).length - p5)
      [' '] [] e6 (by rw [h6]; rfl) (by simp; decide)
    obtain ⟨p8, e8, h8⟩ := @matchToken_fwd _ p7 [] "end" [] (by rw [h7]; rfl) (by simp)
      (by simp; decide)
    exact parse_of_steps e1 e2 e3 e4 e5 e7 e8 h8
  have two : ∀ o n, rest = [(o, n)] → parse (sumAssignmentProgram first rest) =
      .ok (programNode "p" [] [.mk "Op" "" [leaf "x" "Id", leaf ":=" "Symbols_of_Operation",
        leaf (String.mk first) "Const", leaf (String.singleton o) "Symbols_of_Operation",
        leaf (String.mk n) "Const", leaf ";" "Symbols_of_Separating"]]) := by
    intro o n hrest
    subst hrest
    obtain ⟨ho, hn, hnd⟩ := hr (o, n) (by simp)
    obtain ⟨p1, p2, p3, p4, e1, e2, e3, e4, h4⟩ :=
      @header_fwd (sumAssignmentProgram first [(o, n)])
        (" x:=".data ++ (first ++ (o :: (n ++ "; end".data))))
        (by simp [sumAssignmentProgram, numberSum])
    obtain ⟨p5, e5, h5⟩ := @parseDescriptions_absent_fwd _ p4 [' ']
      ("x:=".data ++ (first ++ (o :: (n ++ "; end".data)))) (by rw [h4]; rfl)
      (by simp; decide) (by simp; decide)
      (by show ¬ (['x', ':', '='] = ['v', 'a', 'r']); decide)
    obtain ⟨p6, e6, h6⟩ := @parseOp_two_numbers_fwd _ p5 [] ['x'] first o n " end".data
      (by rw [h5]; rfl) (by simp) (by simp; decide) (by simp) hfd hf ho hnd hn
    obtain ⟨p7, e7, h7⟩ := parseOperatorsLoop_last
      ((sumAssignmentProgram first [(o, n)]).length - p5)
      [' '] [] e6 (by rw [h6]; rfl) (by simp; decide)
    obtain ⟨p8, e8, h8⟩ := @matchToken_fwd _ p7 [] "end" [] (by rw [h7]; rfl) (by simp)
      (by simp; decide)
    exact parse_of_steps e1 e2 e3 e4 e5 e7 e8 h8
  have three : ∀ o n o2 n2 tail, rest = (o, n) :: (o2, n2) :: tail →
      parse (sumAssignmentProgram first rest) =
        .error (.exit (22 + first.length + 1 + n.length) "Expected \x27;\x27") := by
    intro o n o2 n2 tail hrest
    subst hrest
    obtain ⟨ho, hn, hnd⟩ := hr (o, n) (by simp)
    obtain ⟨ho2, -, -⟩ := hr (o2, n2) (by simp)
    generalize hR : n2 ++ ((tail.map (fun p => p.1 :: p.2)).flatten ++ "; end".data) = R
    have hprog : sumAssignmentProgram first ((o, n) :: (o2, n2) :: tail) =
        "procedure p; begin".data ++
          (" x:=".data ++ (first ++ (o :: (n ++ (o2 :: R))))) := by
      simp [sumAssignmentProgram, numberSum, ← hR]
    obtain ⟨p1, p2, p3, p4, e1, e2, e3, e4, h4⟩ := header_fwd _ hprog
    obtain ⟨p5, e5, h5⟩ := @parseDescriptions_absent_fwd _ p4 [' ']
      ("x:=".data ++ (first ++ (o :: (n ++ (o2 :: R))))) (by rw [h4]; rfl)
      (by simp; decide) (by simp; decide)
      (by show ¬ (['x', ':', '='] = ['v', 'a', 'r']); decide)
    obtain ⟨q, e6, h6⟩ := @parseOp_third_operand _ p5 [] ['x'] first o n o2 R
      (by rw [h5]; rfl) (by simp) (by simp; decide) (by simp) hfd hf ho hnd hn ho2
    have hq := position_of_drop h6
    have hlen : (sumAssignmentProgram first ((o, n) :: (o2, n2) :: tail)).length =
        22 + first.length + 1 + n.length + (R.length + 1) := by
      rw [hprog]
      simp
      omega
    have hqv : q = 22 + first.length + 1 + n.length := by omega
    rw [← hqv]
    exact parse_of_failed_statement e1 e2 e3 e4 e5 e6
  refine ⟨?_, one, two, three⟩
  constructor
  · rintro ⟨t, ht⟩
    match rest, three, ht with
    | [], _, _ => simp
    | [_], _, _ => simp
    | (o, n) :: (o2, n2) :: tail, three, ht =>
      rw [three o n o2 n2 tail rfl] at ht
      cases ht
  · intro hlen
    match rest, one, two, hlen with
    | [], one, _, _ => exact ⟨_, one rfl⟩
    | [(o, n)], _, two, _ => exact ⟨_, two o n rfl⟩
    | _ :: _ :: _, _, _, hlen => simp at hlen

/-- C16 at the sums `1+2` (accepted) — the instance with one operator. -/
theorem parse_number_sum_witness :
    "1".toList ≠ [] ∧ (∀ c ∈ "1".toList, isdigit c = true) ∧
    (∀ p ∈ [('+', "2".toList)], (p.1 = '+' ∨ p.1 = '-') ∧ p.2 ≠ [] ∧
      ∀ c ∈ p.2, isdigit c = true) ∧
    ((∃ t, parse (sumAssignmentProgram "1".toList [('+', "2".toList)]) = .ok t) ↔
      [('+', "2".toList)].length ≤ 1) :=
  ⟨by decide, by decide, by decide,
    (parse_number_sum "1".toList [('+', "2".toList)] (by decide) (by decide) (by decide)).1⟩

end Sematic
